import Mathlib

/-!
Verification of the automaton compiler in `src/dfa.rs` of ucd-generate:
Thompson NFA construction, subset (powerset) construction, partition-refinement
minimization, and the matcher `DFA::find`.

Modelling conventions (shallow embedding):
* machine integers (`u8`, `u32`, `usize`) are `Nat`; byte values are `Nat`s
  below 256 and `ALPHABET_SIZE = 256` as in the source;
* `Vec<T>` is `List T`; `Vec::push` appends at the end; `Vec::pop` removes the
  last element; in-place index assignment is `List.set` (out-of-bounds writes
  cannot occur on the executions the theorems quantify over, and `List.set`
  is a no-op there);
* the `HashMap` cache of the DFA builder is an association list looked up by
  structural equality of keys, which matches `HashMap` semantics because a key
  is inserted only when absent;
* `RefCell`/`Rc` interior mutability is explicit state passing; the mutation
  discipline of the source (sets are never mutated after being shared) makes
  value semantics exact;
* a Rust panic (failed `assert!`, out-of-bounds index) and fuel exhaustion of
  a modelled loop are `Option.none` / an `Except.error`; loops whose
  termination is itself under scrutiny carry an explicit fuel parameter and
  theorems hold for every fuel that lets the loop drain;
* the external crate `utf8_ranges::Utf8Sequences` (an out-of-scope
  collaborator) is a parameter `useq` giving, for a scalar-value range, the
  list of byte-range sequences covering its UTF-8 encodings.
-/

set_option maxRecDepth 4000

namespace UCD

/-- `DFA_DEAD` of the source: state id 0 is the dead state. -/
def DFA_DEAD : Nat := 0

/-- `ALPHABET_SIZE` of the source. -/
def ALPHABET_SIZE : Nat := 256

/-- `enum NFAState` of the source. `matchS` is `NFAState::Match`. -/
inductive NFAState where
  | emptyS (next : Nat)
  | range (first last next : Nat)
  | union (alternates : List Nat) (reverse : Bool)
  | matchS
deriving DecidableEq, Repr

/-- The NFA state table (`NFA { states: RefCell<Vec<NFAState>> }`). -/
abbrev NFA := List NFAState

/-- `NFAState::is_epsilon`. -/
def NFAState.isEpsilon : NFAState → Bool
  | .range .. | .matchS => false
  | .emptyS _ | .union .. => true

/-- `struct ThompsonRef`. -/
structure ThompsonRef where
  start : Nat
  stop : Nat
deriving DecidableEq, Repr

/-- Errors of NFA compilation: the `err!(...)` returns for unsupported
constructs, and `violation` for a failed `assert!` (a Rust panic). -/
inductive CErr where
  | unsupported (msg : String)
  | violation (msg : String)
deriving DecidableEq, Repr

/-- `NFA::patch`.  Reading a state out of bounds cannot happen on compiled
NFAs; the model leaves the table unchanged there (`List.set` is a no-op out
of bounds). -/
def patch (nfa : NFA) (src dst : Nat) : NFA :=
  match nfa[src]? with
  | none => nfa
  | some (.emptyS _) => nfa.set src (.emptyS dst)
  | some (.range a b _) => nfa.set src (.range a b dst)
  | some (.union alts false) => nfa.set src (.union (alts ++ [dst]) false)
  | some (.union alts true) => nfa.set src (.union (dst :: alts) true)
  | some .matchS => nfa

/-- `NFA::add_empty`: returns the updated table and the new state's id. -/
def addEmpty (nfa : NFA) : NFA × Nat :=
  (nfa ++ [.emptyS 0], nfa.length)

/-- `NFA::add_range`. -/
def addRange (nfa : NFA) (a b : Nat) : NFA × Nat :=
  (nfa ++ [.range a b 0], nfa.length)

/-- `NFA::add_union`. -/
def addUnion (nfa : NFA) : NFA × Nat :=
  (nfa ++ [.union [] false], nfa.length)

/-- `NFA::add_reverse_union`. -/
def addReverseUnion (nfa : NFA) : NFA × Nat :=
  (nfa ++ [.union [] true], nfa.length)

/-- `NFA::add_match`. -/
def addMatch (nfa : NFA) : NFA × Nat :=
  (nfa ++ [.matchS], nfa.length)

/-- `hir::RepetitionKind` (with `RepetitionRange` inlined). -/
inductive RepKind where
  | zeroOrOne
  | zeroOrMore
  | oneOrMore
  | exactly (n : Nat)
  | atLeast (n : Nat)
  | bounded (m n : Nat)
deriving DecidableEq, Repr

/-- The regex HIR (`regex_syntax::hir::Hir`), restricted to the constructors
`NFA::compile` matches on.  `litU` is `Literal::Unicode` (a scalar value),
`litB` is `Literal::Byte`, `classB`/`classU` carry the class ranges, and
`anchor`/`wordB` stand for any `Anchor(_)` / `WordBoundary(_)`. -/
inductive Hir where
  | hempty
  | litU (c : Nat)
  | litB (b : Nat)
  | classB (ranges : List (Nat × Nat))
  | classU (ranges : List (Nat × Nat))
  | rep (kind : RepKind) (greedy : Bool) (h : Hir)
  | group (h : Hir)
  | concat (hs : List Hir)
  | alternation (hs : List Hir)
  | anchor
  | wordB
deriving Repr

/-- UTF-8 encoding of a Unicode scalar value (`char::encode_utf8`). -/
def utf8Encode (c : Nat) : List Nat :=
  if c < 0x80 then [c]
  else if c < 0x800 then
    [0xC0 + c / 64, 0x80 + c % 64]
  else if c < 0x10000 then
    [0xE0 + c / 4096, 0x80 + c / 64 % 64, 0x80 + c % 64]
  else
    [0xF0 + c / 262144, 0x80 + c / 4096 % 64, 0x80 + c / 64 % 64, 0x80 + c % 64]

/-- `NFA::compile_range`. -/
def compileRange (nfa : NFA) (a b : Nat) : NFA × ThompsonRef :=
  let (nfa, id) := addRange nfa a b
  (nfa, ⟨id, id⟩)

/-- `NFA::compile_empty`. -/
def compileEmpty (nfa : NFA) : NFA × ThompsonRef :=
  let (nfa, id) := addEmpty nfa
  (nfa, ⟨id, id⟩)

/-- `compile_concat` specialised to an already-computed list of infallible
fragments compiled one after the other by `f` (used for byte sequences of a
literal and for UTF-8 sequences of a class range). -/
def concatRanges (nfa : NFA) (rs : List (Nat × Nat)) : NFA × ThompsonRef :=
  match rs with
  | [] => compileEmpty nfa
  | (a, b) :: rest =>
    let (nfa, first) := compileRange nfa a b
    let step := fun (acc : NFA × ThompsonRef) (r : Nat × Nat) =>
      let (nfa, ref) := acc
      let (nfa', c) := compileRange nfa r.1 r.2
      (patch nfa' ref.stop c.start, ThompsonRef.mk ref.start c.stop)
    rest.foldl step (nfa, first)

/-- The tail of `compile_alternation`: collect the compiled alternates' ends,
`assert!` they are non-empty, add the joining empty state and patch every end
to it. -/
def finishAlternation (nfa : NFA) (uni : Nat) (ends : List Nat) :
    Except CErr (NFA × ThompsonRef) :=
  if ends.isEmpty then
    .error (.violation "alternations must be non-empty")
  else
    let (nfa, emp) := addEmpty nfa
    .ok (ends.foldl (fun nfa e => patch nfa e emp) nfa, ⟨uni, emp⟩)

/-- `compile_alternation` over a list of infallible byte-range fragments
(`HirKind::Class(Class::Bytes)`). -/
def compileClassBytes (nfa : NFA) (rs : List (Nat × Nat)) :
    Except CErr (NFA × ThompsonRef) :=
  let (nfa, uni) := addUnion nfa
  let step := fun (acc : NFA × List Nat) (r : Nat × Nat) =>
    let (nfa, ends) := acc
    let (nfa', c) := compileRange nfa r.1 r.2
    (patch nfa' uni c.start, ends ++ [c.stop])
  let (nfa, ends) := rs.foldl step (nfa, [])
  finishAlternation nfa uni ends

/-- `compile_unicode_class`: each scalar range becomes, via `useq` (the
`Utf8Sequences` collaborator), a list of byte-range sequences; each sequence
is a concatenation of ranges and the sequences are alternated. -/
def compileClassUnicode (useq : Nat → Nat → List (List (Nat × Nat)))
    (nfa : NFA) (rs : List (Nat × Nat)) : Except CErr (NFA × ThompsonRef) :=
  let seqs := rs.flatMap (fun r => useq r.1 r.2)
  let (nfa, uni) := addUnion nfa
  let step := fun (acc : NFA × List Nat) (seq : List (Nat × Nat)) =>
    let (nfa, ends) := acc
    let (nfa', c) := concatRanges nfa seq
    (patch nfa' uni c.start, ends ++ [c.stop])
  let (nfa, ends) := seqs.foldl step (nfa, [])
  finishAlternation nfa uni ends

section CompileSection

variable (useq : Nat → Nat → List (List (Nat × Nat)))

mutual

/-- `NFA::compile` (with `compile_repetition` inlined at the `Repetition`
case, exactly as the source dispatches). -/
def compile (nfa : NFA) (e : Hir) : Except CErr (NFA × ThompsonRef) :=
  match e with
  | .hempty => let (nfa, id) := addEmpty nfa; .ok (nfa, ⟨id, id⟩)
  | .litU c => .ok (concatRanges nfa ((utf8Encode c).map (fun b => (b, b))))
  | .litB b => .ok (compileRange nfa b b)
  | .classB rs => compileClassBytes nfa rs
  | .classU rs => compileClassUnicode useq nfa rs
  | .rep k g h =>
    match k with
    | .zeroOrOne => compileZeroOrOne nfa h g
    | .zeroOrMore => compileAtLeast nfa h g 0
    | .oneOrMore => compileAtLeast nfa h g 1
    | .exactly n => compileExactly nfa h n
    | .atLeast n => compileAtLeast nfa h g n
    | .bounded m n => compileBounded nfa h g m n
  | .group h => compile nfa h
  | .concat hs => compileConcatList nfa hs
  | .alternation hs => compileAltList nfa hs
  | .anchor => .error (.unsupported "anchors are not supported")
  | .wordB => .error (.unsupported "word boundaries are not supported")
termination_by (sizeOf e, 0, 0)

/-- `NFA::compile_concat` over HIR subexpressions (first item). -/
def compileConcatList (nfa : NFA) (hs : List Hir) :
    Except CErr (NFA × ThompsonRef) :=
  match hs with
  | [] => .ok (compileEmpty nfa)
  | h :: rest => do
    let (nfa, ref) ← compile nfa h
    compileConcatGo nfa rest ref.start ref.stop
termination_by (sizeOf hs, 0, 0)

/-- `NFA::compile_concat`'s folding loop: patch the running end to the next
fragment's start. -/
def compileConcatGo (nfa : NFA) (hs : List Hir) (start stop : Nat) :
    Except CErr (NFA × ThompsonRef) :=
  match hs with
  | [] => .ok (nfa, ⟨start, stop⟩)
  | h :: rest => do
    let (nfa', c) ← compile nfa h
    compileConcatGo (patch nfa' stop c.start) rest start c.stop
termination_by (sizeOf hs, 0, 0)

/-- `NFA::compile_alternation` over HIR subexpressions. -/
def compileAltList (nfa : NFA) (hs : List Hir) :
    Except CErr (NFA × ThompsonRef) :=
  let (nfa, uni) := addUnion nfa
  compileAltGo nfa hs uni []
termination_by (sizeOf hs, 1, 0)

/-- `compile_alternation`'s loop: patch the union to each alternate's start
and collect the ends. -/
def compileAltGo (nfa : NFA) (hs : List Hir) (uni : Nat) (ends : List Nat) :
    Except CErr (NFA × ThompsonRef) :=
  match hs with
  | [] => finishAlternation nfa uni ends
  | h :: rest => do
    let (nfa', c) ← compile nfa h
    compileAltGo (patch nfa' uni c.start) rest uni (ends ++ [c.stop])
termination_by (sizeOf hs, 0, 0)

/-- `NFA::compile_zero_or_one`. -/
def compileZeroOrOne (nfa : NFA) (h : Hir) (greedy : Bool) :
    Except CErr (NFA × ThompsonRef) := do
  let (nfa, uni) := if greedy then addUnion nfa else addReverseUnion nfa
  let (nfa, c) ← compile nfa h
  let (nfa, emp) := addEmpty nfa
  let nfa := patch nfa uni c.start
  let nfa := patch nfa uni emp
  let nfa := patch nfa c.stop emp
  .ok (nfa, ⟨uni, emp⟩)
termination_by (sizeOf h, 1, 0)

/-- `NFA::compile_at_least`. -/
def compileAtLeast (nfa : NFA) (h : Hir) (greedy : Bool) (n : Nat) :
    Except CErr (NFA × ThompsonRef) :=
  if n = 0 then do
    let (nfa, uni) := if greedy then addUnion nfa else addReverseUnion nfa
    let (nfa, c) ← compile nfa h
    let nfa := patch nfa uni c.start
    let nfa := patch nfa c.stop uni
    .ok (nfa, ⟨uni, uni⟩)
  else if n = 1 then do
    let (nfa, c) ← compile nfa h
    let (nfa, uni) := if greedy then addUnion nfa else addReverseUnion nfa
    let nfa := patch nfa c.stop uni
    let nfa := patch nfa uni c.start
    .ok (nfa, ⟨c.start, uni⟩)
  else do
    let (nfa, pre) ← compileExactly nfa h (n - 1)
    let (nfa, last) ← compile nfa h
    let (nfa, uni) := if greedy then addUnion nfa else addReverseUnion nfa
    let nfa := patch nfa pre.stop last.start
    let nfa := patch nfa last.stop uni
    let nfa := patch nfa uni last.start
    .ok (nfa, ⟨pre.start, uni⟩)
termination_by (sizeOf h, n + 3, 0)

/-- `NFA::compile_exactly` (`compile_concat` of `n` copies). -/
def compileExactly (nfa : NFA) (h : Hir) (n : Nat) :
    Except CErr (NFA × ThompsonRef) :=
  match n with
  | 0 => .ok (compileEmpty nfa)
  | n + 1 => do
    let (nfa, ref) ← compile nfa h
    compileExactlyGo nfa h n ref.start ref.stop
termination_by (sizeOf h, n + 2, 0)

/-- The folding loop of `compile_exactly`'s concatenation. -/
def compileExactlyGo (nfa : NFA) (h : Hir) (k : Nat) (start stop : Nat) :
    Except CErr (NFA × ThompsonRef) :=
  match k with
  | 0 => .ok (nfa, ⟨start, stop⟩)
  | k + 1 => do
    let (nfa', c) ← compile nfa h
    compileExactlyGo (patch nfa' stop c.start) h k start c.stop
termination_by (sizeOf h, k + 1, 0)

/-- `NFA::compile_bounded`: `min` copies then `max - min` optional copies
(`compile_concat` over `(min..max)` zero-or-ones). -/
def compileBounded (nfa : NFA) (h : Hir) (greedy : Bool) (m n : Nat) :
    Except CErr (NFA × ThompsonRef) := do
  let (nfa, pre) ← compileExactly nfa h m
  if m = n then
    .ok (nfa, pre)
  else do
    let (nfa, suf) ← compileZoChain nfa h greedy (n - m)
    .ok (patch nfa pre.stop suf.start, ⟨pre.start, suf.stop⟩)
termination_by (sizeOf h, m + n + 4, 0)

/-- `compile_concat` over `count` zero-or-one copies (first item). -/
def compileZoChain (nfa : NFA) (h : Hir) (greedy : Bool) (count : Nat) :
    Except CErr (NFA × ThompsonRef) :=
  match count with
  | 0 => .ok (compileEmpty nfa)
  | k + 1 => do
    let (nfa, first) ← compileZeroOrOne nfa h greedy
    compileZoGo nfa h greedy k first.start first.stop
termination_by (sizeOf h, count + 2, 1)

/-- The folding loop of the zero-or-one chain. -/
def compileZoGo (nfa : NFA) (h : Hir) (greedy : Bool) (k : Nat)
    (start stop : Nat) : Except CErr (NFA × ThompsonRef) :=
  match k with
  | 0 => .ok (nfa, ⟨start, stop⟩)
  | k + 1 => do
    let (nfa', c) ← compileZeroOrOne nfa h greedy
    compileZoGo (patch nfa' stop c.start) h greedy k start c.stop
termination_by (sizeOf h, k + 2, 0)

end

/-- `NFA::from_hir`: empty start state, compiled expression, match state,
with the two connecting patches. -/
def fromHir (e : Hir) : Except CErr NFA := do
  let nfa : NFA := []
  let (nfa, start) := addEmpty nfa
  let (nfa, c) ← compile useq nfa e
  let (nfa, matchId) := addMatch nfa
  let nfa := patch nfa start c.start
  let nfa := patch nfa c.stop matchId
  .ok nfa

end CompileSection

/-- `struct SparseSet` (dense/sparse pair).  The capacity of `dense` is the
allocation size, i.e. `sparse.length`. -/
structure SparseSet where
  dense : List Nat
  sparse : List Nat
deriving DecidableEq, Repr

/-- `SparseSet::new`. -/
def SparseSet.new (size : Nat) : SparseSet :=
  ⟨[], List.replicate size 0⟩

/-- `SparseSet::insert`; `none` models the `assert!(i < self.capacity())`
panic and the panic of an out-of-bounds write to `sparse`. -/
def SparseSet.insert (s : SparseSet) (v : Nat) : Option SparseSet :=
  let i := s.dense.length
  if i < s.sparse.length ∧ v < s.sparse.length then
    some ⟨s.dense ++ [v], s.sparse.set v i⟩
  else none

/-- `SparseSet::contains`.  The source indexes `sparse[value]`, which on the
executions of interest is always in bounds; the model totalises the read
with a default. -/
def SparseSet.containsS (s : SparseSet) (v : Nat) : Bool :=
  let i := s.sparse.getD v 0
  s.dense[i]? = some v

/-- `SparseSet::clear`. -/
def SparseSet.clearS (s : SparseSet) : SparseSet :=
  ⟨[], s.sparse⟩

mutual

/-- The `while let Some(id) = self.stack.pop()` loop of
`DFABuilder::epsilon_closure`; the list's head is the top of the stack, so
`Union` alternates past the first, pushed in reverse, sit in order on top. -/
def closureLoop (nfa : NFA) : Nat → List Nat → SparseSet → Option SparseSet
  | 0, _, _ => none
  | _ + 1, [], set => some set
  | f + 1, id :: stack, set => closureVisit nfa f id stack set

/-- The inner `loop` of `epsilon_closure`: follow a chain from `id`,
inserting unseen states, until a non-epsilon state or an already-seen state
is reached. -/
def closureVisit (nfa : NFA) : Nat → Nat → List Nat → SparseSet →
    Option SparseSet
  | 0, _, _, _ => none
  | f + 1, id, stack, set =>
    if set.containsS id then closureLoop nfa f stack set
    else
      match set.insert id with
      | none => none
      | some set =>
        match nfa[id]? with
        | none => none
        | some (.emptyS next) => closureVisit nfa f next stack set
        | some (.union alts _) =>
          match alts with
          | [] => closureLoop nfa f stack set
          | a :: rest => closureVisit nfa f a (rest ++ stack) set
        | some (.range ..) | some .matchS => closureLoop nfa f stack set

end

/-- `DFABuilder::epsilon_closure`. -/
def epsilonClosure (nfa : NFA) (fuel : Nat) (start : Nat) (set : SparseSet) :
    Option SparseSet :=
  match nfa[start]? with
  | none => none
  | some s =>
    if ¬s.isEpsilon then set.insert start
    else closureLoop nfa fuel [start] set

/-- `struct DFAState`. -/
structure DFAState where
  isMatch : Bool
  transitions : List Nat
deriving DecidableEq, Repr

/-- `DFAState::empty`. -/
def DFAState.emptyS : DFAState :=
  ⟨false, List.replicate ALPHABET_SIZE DFA_DEAD⟩

/-- `struct DFA`. -/
structure DFA where
  states : List DFAState
  start : Nat
deriving DecidableEq, Repr

/-- `DFA::empty`. -/
def DFA.emptyD : DFA :=
  ⟨[DFAState.emptyS], DFA_DEAD⟩

/-- `DFA::set_transition`.  Indices are in bounds on every execution the
theorems quantify over. -/
def DFA.setTransition (dfa : DFA) (src b dst : Nat) : DFA :=
  { dfa with
    states :=
      match dfa.states[src]? with
      | none => dfa.states
      | some st =>
        dfa.states.set src { st with transitions := st.transitions.set b dst } }

/-- `struct DFABuilderState`. -/
structure BState where
  isMatch : Bool
  nfaStates : List Nat
deriving DecidableEq, Repr

/-- `DFABuilderState::dead`. -/
def BState.dead : BState := ⟨false, []⟩

/-- The mutable state of `DFABuilder` (minus the NFA reference and the
reusable scratch allocations, which have no observable effect). -/
structure Builder where
  dfa : DFA
  builderStates : List BState
  cache : List (BState × Nat)
deriving DecidableEq, Repr

/-- Association-list lookup for the builder cache; the most recent insertion
wins, as with `HashMap::insert`. -/
def assocGet (cache : List (BState × Nat)) (k : BState) : Option Nat :=
  match cache with
  | [] => none
  | (k', v) :: rest => if k' = k then some v else assocGet rest k

/-- `DFABuilder::new` (the cache pre-seeded with the dead state). -/
def Builder.init : Builder :=
  { dfa := DFA.emptyD
    builderStates := [BState.dead]
    cache := [(BState.dead, DFA_DEAD)] }

/-- The loop body of `DFABuilder::new_state`: keep `Range` states in
insertion order, record `Match` reachability and stop at the first `Match`. -/
def newStateGo (nfa : NFA) : List Nat → List Nat → Option BState
  | [], acc => some ⟨false, acc⟩
  | id :: rest, acc =>
    match nfa[id]? with
    | none => none
    | some (.range ..) => newStateGo nfa rest (acc ++ [id])
    | some .matchS => some ⟨true, acc⟩
    | some (.emptyS _) | some (.union ..) => newStateGo nfa rest acc

/-- `DFABuilder::new_state`. -/
def newState (nfa : NFA) (set : SparseSet) : Option BState :=
  newStateGo nfa set.dense []

/-- The loop body of `DFABuilder::next`: for every `Range` state of the
current subset that accepts `b`, add the epsilon closure of its successor. -/
def nextGo (nfa : NFA) (fuel : Nat) (b : Nat) :
    List Nat → SparseSet → Option SparseSet
  | [], set => some set
  | id :: rest, set =>
    match nfa[id]? with
    | none => none
    | some (.range a c nxt) =>
      if a ≤ b ∧ b ≤ c then
        match epsilonClosure nfa fuel nxt set with
        | none => none
        | some set => nextGo nfa fuel b rest set
      else nextGo nfa fuel b rest set
    | some _ => nextGo nfa fuel b rest set

/-- `DFABuilder::next` (the set is cleared on entry). -/
def nextState (nfa : NFA) (fuel : Nat) (bst : BState) (b : Nat)
    (set : SparseSet) : Option SparseSet :=
  nextGo nfa fuel b bst.nfaStates set.clearS

/-- `DFABuilder::add_state`. -/
def addState (st : Builder) (state : BState) : Builder × Nat :=
  let id := st.dfa.states.length
  ({ dfa := { st.dfa with
        states := st.dfa.states ++ [⟨state.isMatch, DFAState.emptyS.transitions⟩] },
     builderStates := st.builderStates ++ [state],
     cache := (state, id) :: st.cache }, id)

/-- `DFABuilder::cached_state`. -/
def cachedState (nfa : NFA) (fuel : Nat) (st : Builder) (dfaId b : Nat) :
    Option (Builder × Nat) := do
  let bst := st.builderStates.getD dfaId BState.dead
  let sparse ← nextState nfa fuel bst b (SparseSet.new nfa.length)
  let state ← newState nfa sparse
  match assocGet st.cache state with
  | some cid => some (st, cid)
  | none => some (addState st state)

/-- `DFABuilder::add_start`. -/
def addStart (nfa : NFA) (fuel : Nat) (st : Builder) :
    Option (Builder × Nat) := do
  let sparse ← epsilonClosure nfa fuel 0 (SparseSet.new nfa.length)
  let state ← newState nfa sparse
  let (st, id) := addState st state
  some ({ st with dfa := { st.dfa with start := id } }, id)

/-- The `for b in 0..=255` body of `DFABuilder::build`: compute the cached
successor, record the transition, and enqueue unqueued successors. -/
def buildBytes (nfa : NFA) (fuel dfaId : Nat) :
    List Nat → Builder → List Nat → List Nat →
    Option (Builder × List Nat × List Nat)
  | [], st, uncompiled, queued => some (st, uncompiled, queued)
  | b :: rest, st, uncompiled, queued => do
    let (st, nextId) ← cachedState nfa fuel st dfaId b
    let st := { st with dfa := st.dfa.setTransition dfaId b nextId }
    let (uncompiled, queued) :=
      if queued.contains nextId then (uncompiled, queued)
      else (uncompiled ++ [nextId], queued ++ [nextId])
    buildBytes nfa fuel dfaId rest st uncompiled queued

/-- The `while let Some(dfa_id) = uncompiled.pop()` loop of
`DFABuilder::build`; `uncompiled` pops from the end, `queued` is the
`HashSet` of already-enqueued ids. -/
def buildLoop (nfa : NFA) (fuel : Nat) :
    Nat → Builder → List Nat → List Nat → Option Builder
  | 0, _, _, _ => none
  | f + 1, st, uncompiled, queued =>
    match uncompiled.getLast? with
    | none => some st
    | some dfaId => do
      let (st, uncompiled, queued) ←
        buildBytes nfa fuel dfaId (List.range ALPHABET_SIZE) st
          uncompiled.dropLast queued
      buildLoop nfa fuel f st uncompiled queued

/-- `DFABuilder::build` (keeping the whole builder visible). -/
def buildFull (nfa : NFA) (fuel : Nat) : Option Builder := do
  let (st, startId) ← addStart nfa fuel Builder.init
  buildLoop nfa fuel fuel st [startId] []

/-- `DFA::from_nfa`. -/
def DFA.fromNFA (nfa : NFA) (fuel : Nat) : Option DFA :=
  (buildFull nfa fuel).map (·.dfa)

/-- The transition function of a built DFA (`states[s].transitions[b]`);
reads are totalised with the dead defaults, and are in bounds on every
execution the theorems quantify over. -/
def transOf (dfa : DFA) (s b : Nat) : Nat :=
  ((dfa.states.getD s DFAState.emptyS).transitions).getD b DFA_DEAD

/-- The match flag of a state. -/
def matchOf (dfa : DFA) (s : Nat) : Bool :=
  (dfa.states.getD s DFAState.emptyS).isMatch

/-- The byte loop of `DFA::find`: `i` is the index of the next byte, `last`
the most recent match position. -/
def findGo (dfa : DFA) : List Nat → Nat → Nat → Option Nat → Option Nat
  | [], _, _, last => last
  | b :: rest, state, i, last =>
    let s := transOf dfa state b
    if s = DFA_DEAD then last
    else findGo dfa rest s (i + 1) (if matchOf dfa s then some (i + 1) else last)

/-- `DFA::find`. -/
def DFA.find (dfa : DFA) (bytes : List Nat) : Option Nat :=
  findGo dfa bytes dfa.start 0 none

/-- Shape well-formedness of a DFA: every state has one transition per byte
value and every transition stays inside the state table. -/
def DFA.wf (dfa : DFA) : Prop :=
  ∀ st ∈ dfa.states, st.transitions.length = ALPHABET_SIZE ∧
    ∀ t ∈ st.transitions, t < dfa.states.length

/-- The scan of `Vec::dedup`: drop elements equal to the previous kept
element. -/
def dedupGo (prev : Nat) : List Nat → List Nat
  | [] => []
  | x :: xs => if x = prev then dedupGo prev xs else x :: dedupGo x xs

/-- `Vec::dedup`: remove consecutive repeated elements. -/
def dedupAdj : List Nat → List Nat
  | [] => []
  | a :: xs => a :: dedupGo a xs

/-- `StateSet::canonicalize` (`sort` then `dedup`). -/
def canonicalizeL (l : List Nat) : List Nat :=
  dedupAdj (l.insertionSort (· ≤ ·))

/-- The merge loop of `StateSet::intersection`: `a`/`b` are the current
elements, the lists the iterators' remainders.  The loop consumes one
element per step, so the `fuel` (always instantiated to the sum of the
lengths plus one by the wrapper) never runs out. -/
def interGo : Nat → List Nat → Nat → List Nat → Nat → List Nat → List Nat
  | 0, _, _, _, _, acc => acc
  | fuel + 1, ra, a, rb, b, acc =>
    if a = b then
      let acc := acc ++ [a]
      match ra with
      | [] => acc
      | a' :: ra' =>
        match rb with
        | [] => acc
        | b' :: rb' => interGo fuel ra' a' rb' b' acc
    else if a < b then
      match ra with
      | [] => acc
      | a' :: ra' => interGo fuel ra' a' rb b acc
    else
      match rb with
      | [] => acc
      | b' :: rb' => interGo fuel ra a rb' b' acc

/-- `StateSet::intersection`. -/
def intersectionL (x y : List Nat) : List Nat :=
  match x, y with
  | [], _ => []
  | _, [] => []
  | a :: ra, b :: rb => interGo (ra.length + rb.length + 1) ra a rb b []

/-- The merge loop of `StateSet::subtract`; on a `break` while advancing `a`
the source's trailing `for a in ita` drains the rest of the left iterator.
Fuel as in `interGo`. -/
def subGo : Nat → List Nat → Nat → List Nat → Nat → List Nat → List Nat
  | 0, _, _, _, _, acc => acc
  | fuel + 1, ra, a, rb, b, acc =>
    if a = b then
      match ra with
      | [] => acc
      | a' :: ra' =>
        match rb with
        | [] => (acc ++ [a']) ++ ra'
        | b' :: rb' => subGo fuel ra' a' rb' b' acc
    else if a < b then
      let acc := acc ++ [a]
      match ra with
      | [] => acc
      | a' :: ra' => subGo fuel ra' a' rb b acc
    else
      match rb with
      | [] => (acc ++ [a]) ++ ra
      | b' :: rb' => subGo fuel ra a rb' b' acc

/-- `StateSet::subtract`. -/
def subtractL (x y : List Nat) : List Nat :=
  match x, y with
  | [], _ => x
  | _, [] => x
  | a :: ra, b :: rb => subGo (ra.length + rb.length + 1) ra a rb b []

/-- `Minimizer::incoming_transitions`: `incoming[next][b]` lists the states
with a `b`-transition into `next`, in increasing state order. -/
def inTransitions (dfa : DFA) : List (List (List Nat)) :=
  let init := List.replicate dfa.states.length
    (List.replicate ALPHABET_SIZE ([] : List Nat))
  (List.range dfa.states.length).foldl (fun acc i =>
    (List.range ALPHABET_SIZE).foldl (fun acc b =>
      let nxt := transOf dfa i b
      let row := acc.getD nxt []
      acc.set nxt (row.set b (row.getD b [] ++ [i]))) acc) init

/-- `Minimizer::find_incoming_to`. -/
def findIncomingTo (inT : List (List (List Nat))) (b : Nat) (set : List Nat) :
    List Nat :=
  canonicalizeL (set.foldl (fun acc id => acc ++ ((inT.getD id []).getD b [])) [])

/-- `Minimizer::initial_partitions`; `none` is the
`assert!(!is_match.is_empty())` panic.  The two blocks are sorted
smallest-first by a stable sort, so on a tie the matching block stays
first. -/
def initialPartitions (dfa : DFA) : Option (List (List Nat)) :=
  let acc := (List.range dfa.states.length).foldl
    (fun (acc : List Nat × List Nat) (i : Nat) =>
      if matchOf dfa i then (acc.1 ++ [i], acc.2) else (acc.1, acc.2 ++ [i]))
    ([], [])
  if acc.1.isEmpty then none
  else if acc.2.isEmpty then some [acc.1]
  else if acc.2.length < acc.1.length then some [acc.2, acc.1]
  else some [acc.1, acc.2]

/-- The per-block body of `Minimizer::run`'s refinement: split a block
against `incoming`, and update the waiting list as the source does (replace
a waiting copy of the block by one half and push the other; otherwise push
the smaller half). -/
def refineStep (incoming : List Nat)
    (acc : List (List Nat) × List (List Nat)) (p : List Nat) :
    List (List Nat) × List (List Nat) :=
  let (newparts, waiting) := acc
  let x := intersectionL p incoming
  if x.isEmpty then (newparts ++ [p], waiting)
  else
    let y := subtractL p incoming
    if y.isEmpty then (newparts ++ [p], waiting)
    else
      let waiting' :=
        match waiting.findIdx? (· == p) with
        | some i => (waiting.set i x) ++ [y]
        | none => waiting ++ [if x.length ≤ y.length then x else y]
      (newparts ++ [x, y], waiting')

/-- The `for b in 0..=255` body of `Minimizer::run`: compute the incoming
set of the popped block for `b` and refine every partition against it. -/
def byteStep (inT : List (List (List Nat))) (set : List Nat)
    (pw : List (List Nat) × List (List Nat)) (b : Nat) :
    List (List Nat) × List (List Nat) :=
  let incoming := findIncomingTo inT b set
  (pw.1).foldl (refineStep incoming) ([], pw.2)

/-- The `while let Some(set) = waiting.pop()` loop of `Minimizer::run`;
`none` is fuel exhaustion (the modelled loop did not drain). -/
def minLoop (inT : List (List (List Nat))) :
    Nat → List (List Nat) → List (List Nat) → Option (List (List Nat))
  | fuel, partitions, waiting =>
    match waiting.getLast? with
    | none => some partitions
    | some set =>
      match fuel with
      | 0 => none
      | f + 1 =>
        let pw := (List.range ALPHABET_SIZE).foldl (byteStep inT set)
          (partitions, waiting.dropLast)
        minLoop inT f pw.1 pw.2

/-- `Vec::swap` on lists (indices in bounds on the executions of
interest). -/
def listSwap {α : Type} (l : List α) (i j : Nat) : List α :=
  match l[i]?, l[j]? with
  | some a, some b => (l.set i b).set j a
  | _, _ => l

/-- The `state_to_part` map of `Minimizer::run`'s renumbering tail: each
state of a block maps to the block's representative, its first element. -/
def stpOf (n : Nat) (parts : List (List Nat)) : List Nat :=
  parts.foldl
    (fun arr p => p.foldl (fun arr id => arr.set id (p.headD 0)) arr)
    (List.replicate n DFA_DEAD)

/-- The `minimal_ids` map: dense new ids for the representatives in
increasing order, with the count of representatives. -/
def minIdsOf (n : Nat) (stp : List Nat) : List Nat × Nat :=
  (List.range n).foldl
    (fun (acc : List Nat × Nat) id =>
      if stp.getD id 0 = id then (acc.1.set id acc.2, acc.2 + 1) else acc)
    (List.replicate n DFA_DEAD, 0)

/-- The state-rewrite loop of `Minimizer::run`: rewrite each
representative's transitions through the quotient and swap it down to its
new id. -/
def statesOf (n : Nat) (stp minIds : List Nat) (states : List DFAState) :
    List DFAState :=
  (List.range n).foldl
    (fun (sts : List DFAState) id =>
      if stp.getD id 0 = id then
        let cur := sts.getD id DFAState.emptyS
        let cur := { cur with
          transitions := cur.transitions.map
            (fun nxt => minIds.getD (stp.getD nxt 0) 0) }
        listSwap (sts.set id cur) id (minIds.getD id 0)
      else sts)
    states

/-- The renumbering tail of `Minimizer::run`: representative per block
(its first element), dense new ids for representatives, transition rewrite,
swap into place, truncate. -/
def rewritePhase (dfa : DFA) (parts : List (List Nat)) : DFA :=
  let n := dfa.states.length
  let stp := stpOf n parts
  let ids := minIdsOf n stp
  let states := statesOf n stp ids.1 dfa.states
  { states := states.take ids.2, start := dfa.start }

/-- `Minimizer::new` followed by `Minimizer::run`: `none` when the
initial-partition assertion fires or the refinement loop did not drain
within `fuel` iterations. -/
def minimize (dfa : DFA) (fuel : Nat) : Option DFA := do
  let inT := inTransitions dfa
  let parts ← initialPartitions dfa
  let waiting := [parts.headD []]
  let final ← minLoop inT fuel parts waiting
  some (rewritePhase dfa final)

/-! ### Specification-side definitions used to state the claims -/

/-- The state reached from `s` by consuming `bs`, ignoring the dead-state
early exit (the plain iterated transition function). -/
def walkFrom (dfa : DFA) (s : Nat) (bs : List Nat) : Nat :=
  bs.foldl (transOf dfa) s

/-- The match positions of `bs` from state `s`: the (1-based) positions `k`
such that the walk has not touched the dead state up to and including `k`
and the state after `k` bytes is matching. -/
def matchPosFrom (dfa : DFA) (s : Nat) (bs : List Nat) : List Nat :=
  (List.range' 1 bs.length).filter (fun k =>
    ((List.range' 1 k).all (fun j => !(walkFrom dfa s (bs.take j) == 0))) &&
      matchOf dfa (walkFrom dfa s (bs.take k)))

/-! ### Theorems -/

theorem walkFrom_cons (dfa : DFA) (s b : Nat) (bs : List Nat) :
    walkFrom dfa s (b :: bs) = walkFrom dfa (transOf dfa s b) bs := rfl

theorem range'_two_eq_map (n : Nat) :
    List.range' 2 n = (List.range' 1 n).map (· + 1) := by
  have h1 : List.range' 1 n = (List.range n).map (1 + ·) :=
    List.range'_eq_map_range 1 n
  have h2 : List.range' 2 n = (List.range n).map (2 + ·) :=
    List.range'_eq_map_range 2 n
  rw [h1, h2, List.map_map]
  apply List.map_congr_left
  intro a _
  simp only [Function.comp_apply]
  omega

theorem matchPosFrom_cons_dead (dfa : DFA) (s b : Nat) (bs : List Nat)
    (h : transOf dfa s b = 0) : matchPosFrom dfa s (b :: bs) = [] := by
  unfold matchPosFrom
  rw [List.filter_eq_nil_iff]
  intro k hk
  simp only [List.mem_range'_1] at hk
  have hk1 : 1 ≤ k := hk.1
  rw [Bool.and_eq_true, List.all_eq_true]
  rintro ⟨hall, _⟩
  have := hall 1 (by simp [List.mem_range'_1]; omega)
  simp only [List.take_succ_cons, List.take_zero, walkFrom_cons] at this
  simp only [walkFrom, List.foldl_nil] at this
  simp [h] at this

theorem matchPosFrom_cons_live (dfa : DFA) (s b : Nat) (bs : List Nat)
    (h : transOf dfa s b ≠ 0) :
    matchPosFrom dfa s (b :: bs) =
      (if matchOf dfa (transOf dfa s b) then [1] else []) ++
        (matchPosFrom dfa (transOf dfa s b) bs).map (· + 1) := by
  unfold matchPosFrom
  rw [List.length_cons, List.range'_succ, List.filter_cons]
  have hcond1 :
      (((List.range' 1 1).all fun j => !(walkFrom dfa s ((b :: bs).take j) == 0)) &&
        matchOf dfa (walkFrom dfa s ((b :: bs).take 1)))
        = matchOf dfa (transOf dfa s b) := by
    have : List.range' 1 1 = [1] := rfl
    simp only [this, List.all_cons, List.all_nil, List.take_succ_cons,
      List.take_zero, walkFrom_cons]
    simp only [walkFrom, List.foldl_nil]
    simp [h]
  have hmain : List.filter (fun k =>
        ((List.range' 1 k).all fun j => !(walkFrom dfa s ((b :: bs).take j) == 0)) &&
          matchOf dfa (walkFrom dfa s ((b :: bs).take k))) (List.range' 2 bs.length)
      = (List.filter (fun k =>
          ((List.range' 1 k).all fun j => !(walkFrom dfa (transOf dfa s b) (bs.take j) == 0)) &&
            matchOf dfa (walkFrom dfa (transOf dfa s b) (bs.take k)))
          (List.range' 1 bs.length)).map (· + 1) := by
    rw [range'_two_eq_map, List.filter_map]
    congr 1
    apply List.filter_congr
    intro k _
    simp only [Function.comp_apply]
    have htake : ∀ j : Nat, (b :: bs).take (j + 1) = b :: bs.take j := by
      intro j; rfl
    have hall : ((List.range' 1 (k + 1)).all
        (fun j => !(walkFrom dfa s ((b :: bs).take j) == 0)))
        = ((List.range' 1 k).all (fun j => !(walkFrom dfa (transOf dfa s b) (bs.take j) == 0))) := by
      rw [List.range'_succ, List.all_cons, range'_two_eq_map, List.all_map]
      have h1 : (!(walkFrom dfa s ((b :: bs).take 1) == 0)) = true := by
        simp only [List.take_succ_cons, List.take_zero, walkFrom_cons]
        simp only [walkFrom, List.foldl_nil]
        simp [h]
      rw [h1, Bool.true_and]
      simp only [Function.comp_def]
      have hfun : (fun j => !(walkFrom dfa s ((b :: bs).take (j + 1)) == 0))
          = (fun j => !(walkFrom dfa (transOf dfa s b) (bs.take j) == 0)) := by
        funext j
        simp only [htake, walkFrom_cons]
      rw [hfun]
    rw [hall, htake, walkFrom_cons]
  rw [hcond1, hmain]
  split <;> simp

theorem findGo_eq_matchPos (dfa : DFA) :
    ∀ (rest : List Nat) (s i : Nat) (last : Option Nat),
      findGo dfa rest s i last =
        match (matchPosFrom dfa s rest).getLast? with
        | some k => some (i + k)
        | none => last := by
  intro rest
  induction rest with
  | nil => intro s i last; simp [findGo, matchPosFrom]
  | cons b bs ih =>
    intro s i last
    by_cases h : transOf dfa s b = 0
    · rw [matchPosFrom_cons_dead dfa s b bs h]
      simp [findGo, h, DFA_DEAD]
    · rw [matchPosFrom_cons_live dfa s b bs h]
      simp only [findGo, DFA_DEAD, if_neg h]
      rw [ih]
      cases hF : (matchPosFrom dfa (transOf dfa s b) bs).getLast? with
      | some k =>
        have hmap : ((matchPosFrom dfa (transOf dfa s b) bs).map (· + 1)).getLast?
            = some (k + 1) := by
          rw [List.getLast?_map, hF]; rfl
        rw [List.getLast?_append, hmap]
        show some (i + 1 + k) = some (i + (k + 1))
        simp only [Option.some.injEq]
        omega
      | none =>
        have hnil : matchPosFrom dfa (transOf dfa s b) bs = [] :=
          List.getLast?_eq_none_iff.mp hF
        rw [hnil]
        cases hm : matchOf dfa (transOf dfa s b) <;> simp [hm]

/-- The full pipeline on a pattern without Unicode classes (the `useq`
collaborator is never consulted for such patterns). -/
def dfaOfPattern (e : Hir) (fuel : Nat) : Option DFA :=
  match fromHir (fun _ _ => []) e with
  | .error _ => none
  | .ok nfa => DFA.fromNFA nfa fuel

/-- The HIR of the pattern `a|zz|z`. -/
def hirAltAZZ : Hir :=
  .alternation [.litU 97, .concat [.litU 122, .litU 122], .litU 122]

/-- The HIR of the pattern `a`. -/
def hirLitA : Hir := .litU 97

/-- The NFA compiled from `a|zz|z`. -/
def nfaAltAZZ : NFA :=
  [.emptyS 1, .union [2, 3, 5] false, .range 97 97 6, .range 122 122 4,
   .range 122 122 6, .range 122 122 6, .emptyS 7, .matchS]

/-- The NFA compiled from `a`. -/
def nfaLitA : NFA := [.emptyS 1, .range 97 97 2, .matchS]



/-- Any result of `findGo` is the threaded `last` or a position greater than
`i` and bounded by `i` plus the number of remaining bytes. -/
theorem findGo_bounds (dfa : DFA) :
    ∀ (rest : List Nat) (s i : Nat) (last : Option Nat) (k : Nat),
      findGo dfa rest s i last = some k →
      last = some k ∨ (i + 1 ≤ k ∧ k ≤ i + rest.length) := by
  intro rest
  induction rest with
  | nil => intro s i last k h; exact Or.inl h
  | cons b bs ih =>
    intro s i last k h
    simp only [findGo] at h
    split at h
    · exact Or.inl h
    · rcases ih _ _ _ _ h with hl | ⟨h1, h2⟩
      · by_cases hm : matchOf dfa (transOf dfa s b) = true
        · rw [if_pos hm] at hl
          right
          injection hl with hk
          simp only [List.length_cons]
          omega
        · rw [if_neg hm] at hl
          exact Or.inl hl
      · right
        simp only [List.length_cons]
        omega

/-- C10.  The matcher never reports a zero-length match: every offset it
returns lies in `[1, bs.length]`; in particular the empty slice never
matches, whatever the DFA (matches are recorded only after consuming a
byte). -/
theorem find_offset_positive_and_bounded (dfa : DFA) (bs : List Nat)
    (k : Nat) (h : dfa.find bs = some k) : 1 ≤ k ∧ k ≤ bs.length := by
  rcases findGo_bounds dfa bs dfa.start 0 none k h with hl | ⟨h1, h2⟩
  · cases hl
  · omega


/-- The accumulating fold of `initial_partitions` splits a range into the
matching and non-matching ids, in order. -/
theorem initPartFold (dfa : DFA) (l : List Nat) :
    ∀ (a b : List Nat),
      l.foldl (fun acc i =>
        if matchOf dfa i then (acc.1 ++ [i], acc.2) else (acc.1, acc.2 ++ [i]))
        (a, b)
      = (a ++ l.filter (fun i => matchOf dfa i),
         b ++ l.filter (fun i => !(matchOf dfa i))) := by
  induction l with
  | nil => intro a b; simp
  | cons x xs ih =>
    intro a b
    cases hm : matchOf dfa x <;>
      simp [List.filter_cons, hm, List.foldl_cons, ih]

/-- C4.  Minimizing a DFA with no matching state hits the
`assert!(!is_match.is_empty(), ..)` in `initial_partitions` — a panic (a
caller-contract violation, `none` in the model), not a recoverable error;
with at least one matching state the assertion never fires and minimization
proceeds to the refinement loop. -/
theorem initial_partitions_assert_iff_no_match (dfa : DFA) :
    (initialPartitions dfa = none ↔ ∀ st ∈ dfa.states, st.isMatch = false) ∧
    ((∃ st ∈ dfa.states, st.isMatch = true) → (initialPartitions dfa).isSome) := by
  have hfold := initPartFold dfa (List.range dfa.states.length) [] []
  have hchar : initialPartitions dfa = none ↔
      (List.range dfa.states.length).filter (fun i => matchOf dfa i) = [] := by
    unfold initialPartitions
    simp only [hfold, List.nil_append]
    constructor
    · intro h
      by_contra hne
      rw [if_neg (by simpa [List.isEmpty_iff] using hne)] at h
      split at h
      · exact Option.noConfusion h
      · split at h <;> exact Option.noConfusion h
    · intro h
      rw [if_pos (by simpa [List.isEmpty_iff] using h)]
  constructor
  · rw [hchar]
    constructor
    · intro h st hst
      rcases List.getElem_of_mem hst with ⟨i, hi, rfl⟩
      have : i ∈ List.range dfa.states.length := List.mem_range.mpr hi
      rw [List.filter_eq_nil_iff] at h
      have hmi := h i this
      simp only [matchOf, Bool.not_eq_true] at hmi
      rwa [List.getD_eq_getElem?_getD, List.getElem?_eq_getElem hi] at hmi
    · intro h
      rw [List.filter_eq_nil_iff]
      intro i hi
      rw [List.mem_range] at hi
      have := h (dfa.states[i]) (List.getElem_mem hi)
      simp only [matchOf]
      rw [List.getD_eq_getElem?_getD, List.getElem?_eq_getElem hi]
      simp [this]
  · intro ⟨st, hst, hm⟩
    rw [Option.isSome_iff_ne_none]
    intro hnone
    rw [hchar] at hnone
    rcases List.getElem_of_mem hst with ⟨i, hi, rfl⟩
    rw [List.filter_eq_nil_iff] at hnone
    have := hnone i (List.mem_range.mpr hi)
    simp only [matchOf] at this
    rw [List.getD_eq_getElem?_getD, List.getElem?_eq_getElem hi] at this
    simp [hm] at this

mutual

/-- Whether an HIR contains an `Anchor` or `WordBoundary` anywhere. -/
def hasAnchorOrWB : Hir → Bool
  | .anchor | .wordB => true
  | .rep _ _ h => hasAnchorOrWB h
  | .group h => hasAnchorOrWB h
  | .concat hs => hasAnchorOrWBList hs
  | .alternation hs => hasAnchorOrWBList hs
  | _ => false

/-- `hasAnchorOrWB` over a list of subexpressions. -/
def hasAnchorOrWBList : List Hir → Bool
  | [] => false
  | h :: rest => hasAnchorOrWB h || hasAnchorOrWBList rest

end

mutual

/-- Whether an HIR contains an `Anchor` or `WordBoundary` at a position that
`NFA::compile` actually compiles: a repetition of exactly zero iterations
(`Exactly(0)`, or `Bounded(m, n)` with neither mandatory nor optional
copies, `m = 0` and `n ≤ m`) never compiles its body. -/
def visitsAnchorOrWB : Hir → Bool
  | .anchor | .wordB => true
  | .rep (.exactly 0) _ _ => false
  | .rep (.bounded m n) _ h =>
    (decide (0 < m) || decide (m < n)) && visitsAnchorOrWB h
  | .rep _ _ h => visitsAnchorOrWB h
  | .group h => visitsAnchorOrWB h
  | .concat hs => visitsAnchorOrWBList hs
  | .alternation hs => visitsAnchorOrWBList hs
  | _ => false

/-- `visitsAnchorOrWB` over a list of subexpressions. -/
def visitsAnchorOrWBList : List Hir → Bool
  | [] => false
  | h :: rest => visitsAnchorOrWB h || visitsAnchorOrWBList rest

end

/-- The HIR of the pattern `a*b*`. -/
def hirABstar : Hir :=
  .concat [.rep .zeroOrMore true (.litU 97), .rep .zeroOrMore true (.litU 98)]

/-- The NFA compiled from `a*b*`. -/
def nfaABstar : NFA :=
  [.emptyS 1, .union [2, 3] false, .range 97 97 1, .union [4, 5] false,
   .range 98 98 3, .matchS]



/-- C8 (amended).  The initial partition consists of the matching block and
the non-matching block (the latter dropped when empty), ordered
smallest-first with ties keeping the matching block first; the refinement
worklist is seeded with the first — i.e. smallest — of these blocks (the
matching block exactly when it is no larger than the non-matching one). -/
theorem initial_partition_smallest_first_seeds_worklist (dfa : DFA) :
    (initialPartitions dfa =
      (let isM := (List.range dfa.states.length).filter (fun i => matchOf dfa i)
       let noM := (List.range dfa.states.length).filter (fun i => !(matchOf dfa i))
       if isM.isEmpty then none
       else if noM.isEmpty then some [isM]
       else if noM.length < isM.length then some [noM, isM]
       else some [isM, noM])) ∧
    (∀ fuel, minimize dfa fuel = (initialPartitions dfa).bind (fun parts =>
      (minLoop (inTransitions dfa) fuel parts [parts.headD []]).map
        (rewritePhase dfa))) := by
  constructor
  · unfold initialPartitions
    simp only [initPartFold dfa (List.range dfa.states.length) [] [],
      List.nil_append]
  · intro fuel
    unfold minimize
    cases h : initialPartitions dfa with
    | none => rfl
    | some parts =>
      show (minLoop (inTransitions dfa) fuel parts [parts.headD []]).bind
          (fun final => some (rewritePhase dfa final))
        = Option.map (rewritePhase dfa)
            (minLoop (inTransitions dfa) fuel parts [parts.headD []])
      cases minLoop (inTransitions dfa) fuel parts [parts.headD []] <;> rfl

/-- An NFA on which two traversal orders produce the same canonical subset:
from the start union, byte `p` reaches the union `3` whose closure lists the
ranges as `[6, 7]`, while byte `q` fires the two ranges `4, 5` whose
successors are inserted as `[7, 6]`. -/
def nfaC3 : NFA :=
  [.union [1, 2] false, .range 112 112 3, .union [4, 5] false,
   .union [6, 7] false, .range 113 113 7, .range 113 113 6,
   .range 97 97 8, .range 98 98 8, .matchS]



/-! ### Invariants of the subset-construction builder -/

/-- `t` is reachable from `s` in the DFA by a sequence of byte values. -/
def Reaches (dfa : DFA) (s t : Nat) : Prop :=
  ∃ bs : List Nat, (∀ b ∈ bs, b < ALPHABET_SIZE) ∧ walkFrom dfa s bs = t

/-- The subset key `cached_state` computes for the pair `(s, b)` (a pure
function of the NFA, the closure fuel and the builder state `s`). -/
def canonKey (nfa : NFA) (fuel : Nat) (st : Builder) (s b : Nat) :
    Option BState :=
  (nextState nfa fuel (st.builderStates.getD s BState.dead) b
    (SparseSet.new nfa.length)).bind (newState nfa)

theorem cachedState_eq (nfa : NFA) (fuel : Nat) (st : Builder) (dfaId b : Nat) :
    cachedState nfa fuel st dfaId b =
      (canonKey nfa fuel st dfaId b).bind (fun key =>
        match assocGet st.cache key with
        | some cid => some (st, cid)
        | none => some (addState st key)) := by
  simp only [cachedState, canonKey, Option.bind_assoc, Option.bind_eq_bind]

theorem assocGet_cons (k' : BState) (v : Nat) (c : List (BState × Nat))
    (k : BState) :
    assocGet ((k', v) :: c) k = if k' = k then some v else assocGet c k := rfl

/-- Once a key resolves in the cache, prepending an entry whose key misses
the cache does not change the resolution. -/
theorem assocGet_stable {c : List (BState × Nat)} {k k' : BState} {v id : Nat}
    (h : assocGet c k = some v) (hmiss : assocGet c k' = none) :
    assocGet ((k', id) :: c) k = some v := by
  rw [assocGet_cons]
  split
  · rename_i he
    rw [he, h] at hmiss
    cases hmiss
  · exact h

theorem list_set_self {α : Type} (l : List α) (i : Nat) (a : α)
    (h : l[i]? = some a) : l.set i a = l := by
  obtain ⟨hlt, hv⟩ := List.getElem?_eq_some_iff.mp h
  apply List.ext_getElem?
  intro j
  by_cases hj : j = i
  · subst hj
    rw [List.getElem?_set_self hlt, h]
  · rw [List.getElem?_set_ne (by omega)]

theorem setTransition_states_length (dfa : DFA) (s0 b0 v : Nat) :
    (dfa.setTransition s0 b0 v).states.length = dfa.states.length := by
  unfold DFA.setTransition
  cases dfa.states[s0]? <;> simp

theorem setTransition_start (dfa : DFA) (s0 b0 v : Nat) :
    (dfa.setTransition s0 b0 v).start = dfa.start := by
  unfold DFA.setTransition
  cases dfa.states[s0]? <;> rfl

theorem setTransition_states_other (dfa : DFA) (s0 b0 v s : Nat)
    (h : s ≠ s0) :
    (dfa.setTransition s0 b0 v).states[s]? = dfa.states[s]? := by
  unfold DFA.setTransition
  cases dfa.states[s0]? with
  | none => rfl
  | some st0 =>
    simp only
    rw [List.getElem?_set_ne (by omega)]

theorem setTransition_matchOf (dfa : DFA) (s0 b0 v s : Nat) :
    matchOf (dfa.setTransition s0 b0 v) s = matchOf dfa s := by
  unfold matchOf DFA.setTransition
  cases hs0 : dfa.states[s0]? with
  | none => rfl
  | some st0 =>
    simp only
    by_cases h : s = s0
    · subst h
      obtain ⟨hlt, _⟩ := List.getElem?_eq_some_iff.mp hs0
      rw [List.getD_eq_getElem?_getD, List.getD_eq_getElem?_getD,
        List.getElem?_set_self (by simpa using hlt), hs0]
      rfl
    · rw [List.getD_eq_getElem?_getD, List.getD_eq_getElem?_getD,
        List.getElem?_set_ne (by omega)]

theorem transOf_setTransition_other (dfa : DFA) (s0 b0 v s b : Nat)
    (h : s ≠ s0) :
    transOf (dfa.setTransition s0 b0 v) s b = transOf dfa s b := by
  unfold transOf
  rw [List.getD_eq_getElem?_getD (dfa.setTransition s0 b0 v).states,
    setTransition_states_other dfa s0 b0 v s h,
    ← List.getD_eq_getElem?_getD]

theorem transOf_setTransition_same_ne (dfa : DFA) (s0 b0 v b : Nat)
    (h : b ≠ b0) :
    transOf (dfa.setTransition s0 b0 v) s0 b = transOf dfa s0 b := by
  unfold transOf DFA.setTransition
  cases hs0 : dfa.states[s0]? with
  | none => rfl
  | some st0 =>
    simp only
    obtain ⟨hlt, _⟩ := List.getElem?_eq_some_iff.mp hs0
    rw [List.getD_eq_getElem?_getD (dfa.states.set s0 _),
      List.getElem?_set_self (by simpa using hlt),
      List.getD_eq_getElem?_getD dfa.states, hs0]
    simp only [Option.getD_some]
    rw [List.getD_eq_getElem?_getD, List.getD_eq_getElem?_getD,
      List.getElem?_set_ne (by omega)]

theorem transOf_setTransition_same (dfa : DFA) (s0 b0 v : Nat)
    (hs : s0 < dfa.states.length)
    (hb : b0 < (dfa.states.getD s0 DFAState.emptyS).transitions.length) :
    transOf (dfa.setTransition s0 b0 v) s0 b0 = v := by
  have hs0 : dfa.states[s0]? = some (dfa.states.getD s0 DFAState.emptyS) := by
    rw [List.getD_eq_getElem?_getD, List.getElem?_eq_getElem hs]
    rfl
  unfold transOf DFA.setTransition
  rw [hs0]
  simp only
  rw [List.getD_eq_getElem?_getD (dfa.states.set s0 _),
    List.getElem?_set_self (by simpa using hs)]
  simp only [Option.getD_some]
  rw [List.getD_eq_getElem?_getD, List.getElem?_set_self (by simpa using hb)]
  simp

theorem transOf_zero_of_state0 (dfa : DFA)
    (h : dfa.states[0]? = some DFAState.emptyS) (b : Nat) :
    transOf dfa 0 b = 0 := by
  unfold transOf
  rw [List.getD_eq_getElem?_getD dfa.states, h]
  simp only [Option.getD_some, DFAState.emptyS]
  rcases Nat.lt_or_ge b ALPHABET_SIZE with hb | hb
  · rw [List.getD_eq_getElem?_getD, List.getElem?_replicate_of_lt hb]
    rfl
  · rw [List.getD_eq_getElem?_getD, List.getElem?_eq_none_iff.mpr (by simpa using hb)]
    rfl

theorem walkFrom_zero (dfa : DFA) (hz : ∀ b, transOf dfa 0 b = 0) :
    ∀ bs : List Nat, walkFrom dfa 0 bs = 0 := by
  intro bs
  induction bs with
  | nil => rfl
  | cons b rest ih => rw [walkFrom_cons, hz b]; exact ih

/-- Overwriting a dead-valued edge cannot change any walk that does not end
in the dead state. -/
theorem walkFrom_setTransition (dfa : DFA) (s0 b0 v : Nat)
    (h0 : transOf dfa s0 b0 = 0) (hz : ∀ b, transOf dfa 0 b = 0) :
    ∀ (bs : List Nat) (s : Nat), walkFrom dfa s bs ≠ 0 →
      walkFrom (dfa.setTransition s0 b0 v) s bs = walkFrom dfa s bs := by
  intro bs
  induction bs with
  | nil => intro s _; rfl
  | cons b rest ih =>
    intro s hw
    rw [walkFrom_cons, walkFrom_cons] at *
    by_cases hs : s = s0 ∧ b = b0
    · exfalso
      rcases hs with ⟨rfl, rfl⟩
      rw [h0, walkFrom_zero dfa hz rest] at hw
      exact hw rfl
    · have htr : transOf (dfa.setTransition s0 b0 v) s b = transOf dfa s b := by
        by_cases h1 : s = s0
        · subst h1
          exact transOf_setTransition_same_ne dfa s b0 v b (fun hb => hs ⟨rfl, hb⟩)
        · exact transOf_setTransition_other dfa s0 b0 v s b h1
      rw [htr]
      exact ih (transOf dfa s b) hw

theorem reaches_setTransition (dfa : DFA) (s0 b0 v : Nat)
    (h0 : transOf dfa s0 b0 = 0) (hz : ∀ b, transOf dfa 0 b = 0)
    {s t : Nat} (hr : Reaches dfa s t) (ht : t ≠ 0) :
    Reaches (dfa.setTransition s0 b0 v) s t := by
  obtain ⟨bs, hbs, hw⟩ := hr
  exact ⟨bs, hbs, by rw [walkFrom_setTransition dfa s0 b0 v h0 hz bs s (hw ▸ ht), hw]⟩

theorem setTransition_id (dfa : DFA) (s0 b0 v : Nat)
    (hv : transOf dfa s0 b0 = v)
    (hb : b0 < (dfa.states.getD s0 DFAState.emptyS).transitions.length) :
    dfa.setTransition s0 b0 v = dfa := by
  unfold DFA.setTransition
  cases hs0 : dfa.states[s0]? with
  | none => rfl
  | some st0 =>
    simp only
    have hget : dfa.states.getD s0 DFAState.emptyS = st0 := by
      rw [List.getD_eq_getElem?_getD, hs0]
      rfl
    have htr : st0.transitions[b0]? = some v := by
      rw [← hv]
      unfold transOf
      rw [hget, List.getD_eq_getElem?_getD]
      rw [hget] at hb
      rw [List.getElem?_eq_getElem hb]
      rfl
    rw [list_set_self st0.transitions b0 v htr]
    have : { st0 with transitions := st0.transitions } = st0 := rfl
    rw [this, list_set_self dfa.states s0 st0 hs0]

/-- Appending a state does not change reads of existing states. -/
theorem states_append_getElem (dfa : DFA) (x : DFAState) (i : Nat)
    (hi : i < dfa.states.length) :
    (dfa.states ++ [x])[i]? = dfa.states[i]? := by
  rw [List.getElem?_append_left hi]

theorem transOf_append (dfa : DFA) (x : DFAState) (st' : DFA)
    (hst : st'.states = dfa.states ++ [x]) (s b : Nat)
    (hs : s < dfa.states.length) :
    transOf st' s b = transOf dfa s b := by
  unfold transOf
  rw [hst, List.getD_eq_getElem?_getD (dfa.states ++ [x]),
    List.getElem?_append_left hs, ← List.getD_eq_getElem?_getD]

theorem walkFrom_append (dfa : DFA) (x : DFAState) (st' : DFA)
    (hst : st'.states = dfa.states ++ [x])
    (ht : ∀ i b, i < dfa.states.length → b < ALPHABET_SIZE →
      transOf dfa i b < dfa.states.length)
    (hlen0 : 0 < dfa.states.length) :
    ∀ (bs : List Nat) (s : Nat), s < dfa.states.length →
      (∀ b ∈ bs, b < ALPHABET_SIZE) →
      walkFrom st' s bs = walkFrom dfa s bs := by
  intro bs
  induction bs with
  | nil => intro s _ _; rfl
  | cons b rest ih =>
    intro s hs hbs
    rw [walkFrom_cons, walkFrom_cons,
      transOf_append dfa x st' hst s b hs]
    exact ih (transOf dfa s b) (ht s b hs (hbs b (by simp)))
      (fun c hc => hbs c (by simp [hc]))

theorem walkFrom_snoc (dfa : DFA) (s : Nat) (bs : List Nat) (b : Nat) :
    walkFrom dfa s (bs ++ [b]) = transOf dfa (walkFrom dfa s bs) b := by
  unfold walkFrom
  rw [List.foldl_append]
  rfl

/-- The invariant bundle maintained by `DFABuilder::build` over its builder
state: sizes agree, state 0 is the dead state, the cache is a sound and
complete index of the builder states (which are pairwise distinct, except
that the start state built by `add_start` without a cache lookup may
duplicate the dead subset), the transition table is shape-correct, match
flags agree with the subsets, every written edge stores the cache's answer
for its subset key, and every non-dead state is reachable from the start. -/
structure BFull (nfa : NFA) (fuel : Nat) (st : Builder) : Prop where
  len_eq : st.builderStates.length = st.dfa.states.length
  two_le : 2 ≤ st.dfa.states.length
  start1 : st.dfa.start = 1
  dead0 : st.builderStates[0]? = some BState.dead
  state0 : st.dfa.states[0]? = some DFAState.emptyS
  sound : ∀ (k : BState) (i : Nat), assocGet st.cache k = some i →
    st.builderStates[i]? = some k
  complete : ∀ (i : Nat) (k : BState), st.builderStates[i]? = some k →
    ∃ j, assocGet st.cache k = some j
  distinct : ∀ (i j : Nat) (k : BState), i < j →
    st.builderStates[i]? = some k → st.builderStates[j]? = some k →
    i = 0 ∧ j = 1
  tlen : ∀ i, i < st.dfa.states.length →
    (st.dfa.states.getD i DFAState.emptyS).transitions.length = ALPHABET_SIZE
  ttarget : ∀ i b, i < st.dfa.states.length → b < ALPHABET_SIZE →
    transOf st.dfa i b < st.dfa.states.length
  hmatch : ∀ i, i < st.dfa.states.length →
    matchOf st.dfa i = (st.builderStates.getD i BState.dead).isMatch
  edges : ∀ s b, s < st.dfa.states.length → b < ALPHABET_SIZE →
    transOf st.dfa s b = 0 ∨
    ∃ key, canonKey nfa fuel st s b = some key ∧
      assocGet st.cache key = some (transOf st.dfa s b)
  reach : ∀ i, 0 < i → i < st.dfa.states.length →
    Reaches st.dfa st.dfa.start i

theorem canonKey_setTransition (nfa : NFA) (fuel : Nat) (st : Builder)
    (d : DFA) (s b : Nat) :
    canonKey nfa fuel { st with dfa := d } s b = canonKey nfa fuel st s b := rfl

theorem canonKey_zero (nfa : NFA) (fuel : Nat) (st : Builder)
    (h : st.builderStates[0]? = some BState.dead) (b : Nat) :
    canonKey nfa fuel st 0 b = some BState.dead := by
  unfold canonKey
  have hg : st.builderStates.getD 0 BState.dead = BState.dead := by
    rw [List.getD_eq_getElem?_getD, h]
    rfl
  rw [hg]
  rfl

theorem addState_snd (st : Builder) (k : BState) :
    (addState st k).2 = st.dfa.states.length := rfl

theorem addState_dfa_states (st : Builder) (k : BState) :
    (addState st k).1.dfa.states
      = st.dfa.states ++ [⟨k.isMatch, DFAState.emptyS.transitions⟩] := rfl

theorem addState_builderStates (st : Builder) (k : BState) :
    (addState st k).1.builderStates = st.builderStates ++ [k] := rfl

theorem addState_cache (st : Builder) (k : BState) :
    (addState st k).1.cache = (k, st.dfa.states.length) :: st.cache := rfl

theorem addState_start (st : Builder) (k : BState) :
    (addState st k).1.dfa.start = st.dfa.start := rfl

theorem canonKey_addState (nfa : NFA) (fuel : Nat) (st : Builder) (k : BState)
    (s b : Nat) (hs : s < st.builderStates.length) :
    canonKey nfa fuel (addState st k).1 s b = canonKey nfa fuel st s b := by
  unfold canonKey
  rw [addState_builderStates, List.getD_eq_getElem?_getD,
    List.getElem?_append_left hs, ← List.getD_eq_getElem?_getD]

theorem setTransition_getD_same (dfa : DFA) (s0 b0 v : Nat)
    (hs0 : s0 < dfa.states.length) :
    (dfa.setTransition s0 b0 v).states.getD s0 DFAState.emptyS
      = { dfa.states.getD s0 DFAState.emptyS with
          transitions :=
            (dfa.states.getD s0 DFAState.emptyS).transitions.set b0 v } := by
  have hs0' : dfa.states[s0]? = some (dfa.states.getD s0 DFAState.emptyS) := by
    rw [List.getD_eq_getElem?_getD, List.getElem?_eq_getElem hs0]
    rfl
  unfold DFA.setTransition
  rw [hs0']
  simp only
  rw [List.getD_eq_getElem?_getD, List.getElem?_set_self (by simpa using hs0)]
  rfl

theorem setTransition_getD_other (dfa : DFA) (s0 b0 v s : Nat) (h : s ≠ s0) :
    (dfa.setTransition s0 b0 v).states.getD s DFAState.emptyS
      = dfa.states.getD s DFAState.emptyS := by
  rw [List.getD_eq_getElem?_getD, setTransition_states_other dfa s0 b0 v s h,
    ← List.getD_eq_getElem?_getD]

/-- Writing a previously dead edge of a non-dead existing state with a value
certified by the cache preserves the builder invariant. -/
theorem BFull_setTransition (nfa : NFA) (fuel : Nat) (st : Builder)
    (dfaId b v : Nat) (inv : BFull nfa fuel st)
    (hid : dfaId < st.dfa.states.length) (hb : b < ALPHABET_SIZE)
    (hdfa0 : dfaId ≠ 0) (hold0 : transOf st.dfa dfaId b = 0)
    (hv : v < st.dfa.states.length)
    (hkey : ∃ key, canonKey nfa fuel st dfaId b = some key ∧
      assocGet st.cache key = some v) :
    BFull nfa fuel { st with dfa := st.dfa.setTransition dfaId b v } := by
  have hz : ∀ b', transOf st.dfa 0 b' = 0 :=
    transOf_zero_of_state0 st.dfa inv.state0
  have hlen : (st.dfa.setTransition dfaId b v).states.length
      = st.dfa.states.length := setTransition_states_length _ _ _ _
  have htr : ∀ s b', transOf (st.dfa.setTransition dfaId b v) s b'
      = if s = dfaId ∧ b' = b then v else transOf st.dfa s b' := by
    intro s b'
    by_cases hs : s = dfaId
    · by_cases hbb : b' = b
      · rw [if_pos ⟨hs, hbb⟩, hs, hbb]
        exact transOf_setTransition_same st.dfa dfaId b v hid
          (by rw [inv.tlen dfaId hid]; exact hb)
      · rw [if_neg (by tauto), hs]
        exact transOf_setTransition_same_ne st.dfa dfaId b v b' hbb
    · rw [if_neg (by tauto)]
      exact transOf_setTransition_other st.dfa dfaId b v s b' hs
  constructor
  case len_eq => rw [hlen]; exact inv.len_eq
  case two_le => rw [hlen]; exact inv.two_le
  case start1 => rw [setTransition_start]; exact inv.start1
  case dead0 => exact inv.dead0
  case state0 =>
    rw [setTransition_states_other st.dfa dfaId b v 0 (by omega)]
    exact inv.state0
  case sound => exact inv.sound
  case complete => exact inv.complete
  case distinct => exact inv.distinct
  case tlen =>
    intro i hi
    rw [hlen] at hi
    by_cases hs : i = dfaId
    · rw [hs, setTransition_getD_same st.dfa dfaId b v hid]
      simp only [List.length_set]
      exact inv.tlen dfaId (hs ▸ hi)
    · rw [setTransition_getD_other st.dfa dfaId b v i hs]
      exact inv.tlen i hi
  case ttarget =>
    intro i b' hi hb'
    rw [hlen] at hi ⊢
    rw [htr]
    split
    · exact hv
    · exact inv.ttarget i b' hi hb'
  case hmatch =>
    intro i hi
    rw [hlen] at hi
    rw [setTransition_matchOf]
    exact inv.hmatch i hi
  case edges =>
    intro s b' hs hb'
    rw [hlen] at hs
    rw [htr]
    split
    · rename_i hsb
      rcases hsb with ⟨rfl, rfl⟩
      right
      obtain ⟨key, hck, hl⟩ := hkey
      exact ⟨key, by rw [canonKey_setTransition]; exact hck, hl⟩
    · rename_i hsb
      rcases inv.edges s b' hs hb' with h0 | ⟨key, hck, hl⟩
      · exact Or.inl h0
      · exact Or.inr ⟨key, by rw [canonKey_setTransition]; exact hck, hl⟩
  case reach =>
    intro i hi0 hi
    rw [hlen] at hi
    rw [setTransition_start]
    exact reaches_setTransition st.dfa dfaId b v hold0 hz
      (inv.reach i hi0 hi) (by omega)

theorem matchOf_states_append (dfa : DFA) (st' : DFA) (x : DFAState)
    (hst : st'.states = dfa.states ++ [x]) (i : Nat)
    (hi : i < dfa.states.length) : matchOf st' i = matchOf dfa i := by
  unfold matchOf
  rw [hst, List.getD_eq_getElem?_getD (dfa.states ++ [x]),
    List.getElem?_append_left hi, ← List.getD_eq_getElem?_getD]

theorem getElem_append_len {α : Type} (l : List α) (x : α) :
    (l ++ [x])[l.length]? = some x := by
  rw [List.getElem?_append_right (le_refl _)]
  simp

theorem matchOf_states_append_last (dfa : DFA) (st' : DFA) (x : DFAState)
    (hst : st'.states = dfa.states ++ [x]) :
    matchOf st' dfa.states.length = x.isMatch := by
  unfold matchOf
  rw [hst, List.getD_eq_getElem?_getD (dfa.states ++ [x]),
    getElem_append_len]
  rfl

theorem transOf_append_last (dfa : DFA) (st' : DFA) (x : DFAState)
    (hst : st'.states = dfa.states ++ [x]) (b : Nat) :
    transOf st' dfa.states.length b = x.transitions.getD b DFA_DEAD := by
  unfold transOf
  rw [hst, List.getD_eq_getElem?_getD (dfa.states ++ [x]),
    getElem_append_len]
  rfl

theorem getD_replicate_zero (n b : Nat) :
    (List.replicate n (0 : Nat)).getD b 0 = 0 := by
  rcases Nat.lt_or_ge b n with hb | hb
  · rw [List.getD_eq_getElem?_getD, List.getElem?_replicate_of_lt hb]
    rfl
  · rw [List.getD_eq_getElem?_getD,
      List.getElem?_eq_none_iff.mpr (by simpa using hb)]
    rfl

/-- A cache miss: `add_state` allocates a fresh state and the transition is
pointed at it; the builder invariant is preserved. -/
theorem BFull_addState_setTransition (nfa : NFA) (fuel : Nat) (st : Builder)
    (dfaId b : Nat) (key : BState) (inv : BFull nfa fuel st)
    (hid : dfaId < st.dfa.states.length) (hb : b < ALPHABET_SIZE)
    (hdfa0 : dfaId ≠ 0)
    (hck : canonKey nfa fuel st dfaId b = some key)
    (hmiss : assocGet st.cache key = none) :
    BFull nfa fuel
      { (addState st key).1 with
        dfa := (addState st key).1.dfa.setTransition dfaId b
          st.dfa.states.length } := by
  set n := st.dfa.states.length with hn
  set x : DFAState := ⟨key.isMatch, DFAState.emptyS.transitions⟩ with hx
  set st1 := (addState st key).1 with hst1
  have hst1s : st1.dfa.states = st.dfa.states ++ [x] := rfl
  have hst1b : st1.builderStates = st.builderStates ++ [key] := rfl
  have hst1c : st1.cache = (key, n) :: st.cache := rfl
  have hst1st : st1.dfa.start = st.dfa.start := rfl
  have hlen1 : st1.dfa.states.length = n + 1 := by
    rw [hst1s, List.length_append]
    rfl
  have hbl : st.builderStates.length = n := inv.len_eq
  -- the old edge must be dead, else its cached key would be in the cache
  have hold0 : transOf st.dfa dfaId b = 0 := by
    rcases inv.edges dfaId b hid hb with h0 | ⟨key', hck', hl'⟩
    · exact h0
    · rw [hck] at hck'
      injection hck' with hkk
      rw [← hkk, hmiss] at hl'
      cases hl'
  have hz : ∀ b', transOf st.dfa 0 b' = 0 :=
    transOf_zero_of_state0 st.dfa inv.state0
  -- reads of old states through the append
  have htrA : ∀ s b', s < n → transOf st1.dfa s b' = transOf st.dfa s b' :=
    fun s b' hs => transOf_append st.dfa x st1.dfa hst1s s b' hs
  have hzA : ∀ b', transOf st1.dfa 0 b' = 0 :=
    fun b' => by rw [htrA 0 b' (by omega)]; exact hz b'
  have hdfan : dfaId ≠ n := by omega
  -- the final transition function
  have htlen1 : (st1.dfa.states.getD dfaId DFAState.emptyS).transitions.length
      = ALPHABET_SIZE := by
    have : st1.dfa.states.getD dfaId DFAState.emptyS
        = st.dfa.states.getD dfaId DFAState.emptyS := by
      rw [hst1s, List.getD_eq_getElem?_getD (st.dfa.states ++ [x]),
        List.getElem?_append_left hid, ← List.getD_eq_getElem?_getD]
    rw [this]
    exact inv.tlen dfaId hid
  have htrF : ∀ s b',
      transOf (st1.dfa.setTransition dfaId b n) s b'
        = if s = dfaId ∧ b' = b then n
          else if s = n then 0
          else transOf st.dfa s b' := by
    intro s b'
    by_cases hs : s = dfaId
    · by_cases hbb : b' = b
      · rw [if_pos ⟨hs, hbb⟩, hs, hbb]
        exact transOf_setTransition_same st1.dfa dfaId b n
          (by rw [hlen1]; omega) (by rw [htlen1]; exact hb)
      · rw [if_neg (by tauto), if_neg (by omega), hs]
        rw [transOf_setTransition_same_ne st1.dfa dfaId b n b' hbb]
        exact htrA dfaId b' hid
    · rw [if_neg (by tauto)]
      rw [transOf_setTransition_other st1.dfa dfaId b n s b' hs]
      by_cases hsn : s = n
      · rw [if_pos hsn, hsn, transOf_append_last st.dfa st1.dfa x hst1s]
        simp only [hx, DFAState.emptyS]
        exact getD_replicate_zero _ _
      · rw [if_neg hsn]
        rcases Nat.lt_or_ge s n with hlt | hge
        · exact htrA s b' hlt
        · -- out of range on both sides: both reads default to the dead state
          have h1 : st1.dfa.states[s]? = none := by
            rw [List.getElem?_eq_none_iff, hlen1]
            omega
          have h2 : st.dfa.states[s]? = none := by
            rw [List.getElem?_eq_none_iff]
            omega
          unfold transOf
          rw [List.getD_eq_getElem?_getD st1.dfa.states, h1,
            List.getD_eq_getElem?_getD st.dfa.states, h2]
  have hlenF : (st1.dfa.setTransition dfaId b n).states.length = n + 1 := by
    rw [setTransition_states_length, hlen1]
  constructor
  case len_eq =>
    show st1.builderStates.length = _
    rw [hst1b, List.length_append, hbl, hlenF]
    rfl
  case two_le => rw [hlenF]; omega
  case start1 =>
    rw [setTransition_start, hst1st]
    exact inv.start1
  case dead0 =>
    show st1.builderStates[0]? = _
    rw [hst1b, List.getElem?_append_left (by omega), inv.dead0]
  case state0 =>
    rw [setTransition_states_other st1.dfa dfaId b n 0 (by omega), hst1s,
      List.getElem?_append_left (by omega)]
    exact inv.state0
  case sound =>
    intro k i hki
    show st1.builderStates[i]? = some k
    rw [hst1c, assocGet_cons] at hki
    rw [hst1b]
    split at hki
    · rename_i hkey
      injection hki with hki
      rw [← hki, ← hbl, getElem_append_len, hkey]
    · have := inv.sound k i hki
      have hilt : i < st.builderStates.length :=
        (List.getElem?_eq_some_iff.mp this).1
      rw [List.getElem?_append_left hilt]
      exact this
  case complete =>
    intro i k hik
    show ∃ j, assocGet st1.cache k = some j
    rw [hst1b] at hik
    rw [hst1c]
    by_cases hkk : key = k
    · exact ⟨n, by rw [assocGet_cons, if_pos hkk]⟩
    · rcases Nat.lt_or_ge i st.builderStates.length with hilt | hige
      · rw [List.getElem?_append_left hilt] at hik
        obtain ⟨j, hj⟩ := inv.complete i k hik
        exact ⟨j, by rw [assocGet_cons, if_neg hkk]; exact hj⟩
      · -- i can only be the appended index, whose key is `key`
        exfalso
        have : i = st.builderStates.length := by
          by_contra hne
          have : st.builderStates.length + 1 ≤ i := by
            rcases Nat.lt_or_ge i (st.builderStates.length + 1) with h1 | h1
            · omega
            · exact h1
          rw [List.getElem?_eq_none_iff.mpr (by simp; omega)] at hik
          cases hik
        rw [this, getElem_append_len] at hik
        injection hik with hik
        exact hkk hik
  case distinct =>
    intro i j k hij hik hjk
    show _ ∧ _
    rw [hst1b] at hik hjk
    rcases Nat.lt_or_ge j st.builderStates.length with hjlt | hjge
    · rw [List.getElem?_append_left (by omega)] at hik
      rw [List.getElem?_append_left hjlt] at hjk
      exact inv.distinct i j k hij hik hjk
    · -- j is the appended index: its key misses the old cache, so no old
      -- state can carry it
      exfalso
      have hj : j = st.builderStates.length := by
        by_contra hne
        rw [List.getElem?_eq_none_iff.mpr (by simp; omega)] at hjk
        cases hjk
      rw [hj, getElem_append_len] at hjk
      injection hjk with hjk
      rw [List.getElem?_append_left (by omega)] at hik
      obtain ⟨j', hj'⟩ := inv.complete i k hik
      rw [← hjk, hmiss] at hj'
      cases hj'
  case tlen =>
    intro i hi
    rw [hlenF] at hi
    by_cases hs : i = dfaId
    · rw [hs, setTransition_getD_same st1.dfa dfaId b n (by rw [hlen1]; omega)]
      simp only [List.length_set]
      exact htlen1
    · rw [setTransition_getD_other st1.dfa dfaId b n i hs]
      rcases Nat.lt_or_ge i n with hlt | hge
      · have : st1.dfa.states.getD i DFAState.emptyS
            = st.dfa.states.getD i DFAState.emptyS := by
          rw [hst1s, List.getD_eq_getElem?_getD (st.dfa.states ++ [x]),
            List.getElem?_append_left hlt, ← List.getD_eq_getElem?_getD]
        rw [this]
        exact inv.tlen i hlt
      · have hieq : i = n := by omega
        have : st1.dfa.states.getD i DFAState.emptyS = x := by
          rw [hieq, hst1s, List.getD_eq_getElem?_getD (st.dfa.states ++ [x]),
            hn, getElem_append_len]
          rfl
        rw [this]
        rfl
  case ttarget =>
    intro i b' hi hb'
    rw [hlenF] at hi ⊢
    rw [htrF]
    split
    · omega
    · split
      · omega
      · rename_i h1 h2
        rcases Nat.lt_or_ge i n with hlt | hge
        · have := inv.ttarget i b' hlt hb'
          omega
        · omega
  case hmatch =>
    intro i hi
    rw [hlenF] at hi
    rw [setTransition_matchOf]
    show matchOf st1.dfa i = (st1.builderStates.getD i BState.dead).isMatch
    rcases Nat.lt_or_ge i n with hlt | hge
    · rw [matchOf_states_append st.dfa st1.dfa x hst1s i hlt, hst1b,
        List.getD_eq_getElem?_getD (st.builderStates ++ [key]),
        List.getElem?_append_left (by omega), ← List.getD_eq_getElem?_getD]
      exact inv.hmatch i hlt
    · have hieq : i = n := by omega
      have hbl2 : st.dfa.states.length = st.builderStates.length := by
        rw [hbl]
      rw [hieq, hn, matchOf_states_append_last st.dfa st1.dfa x hst1s,
        hst1b, List.getD_eq_getElem?_getD (st.builderStates ++ [key]), hbl2,
        getElem_append_len]
      rfl
  case edges =>
    intro s b' hs hb'
    rw [hlenF] at hs
    rw [htrF]
    split
    · rename_i hsb
      right
      refine ⟨key, ?_, ?_⟩
      · rw [hsb.1, hsb.2]
        show canonKey nfa fuel st1 dfaId b = some key
        rw [hst1]
        rw [canonKey_addState nfa fuel st key dfaId b (by omega)]
        exact hck
      · rw [hst1c, assocGet_cons, if_pos rfl]
    · split
      · left; rfl
      · rename_i h1 h2
        have hslt : s < n := by omega
        rcases inv.edges s b' hslt hb' with h0 | ⟨key', hck', hl'⟩
        · exact Or.inl h0
        · right
          refine ⟨key', ?_, ?_⟩
          · show canonKey nfa fuel st1 s b' = some key'
            rw [hst1, canonKey_addState nfa fuel st key s b' (by omega)]
            exact hck'
          · rw [hst1c]
            exact assocGet_stable hl' hmiss
  case reach =>
    intro i hi0 hi
    rw [hlenF] at hi
    rw [setTransition_start, hst1st, inv.start1]
    have hreach1 : ∀ j, 0 < j → j < n → Reaches (st1.dfa.setTransition dfaId b n) 1 j := by
      intro j hj0 hj
      have hr := inv.reach j hj0 hj
      rw [inv.start1] at hr
      obtain ⟨bs, hbs, hw⟩ := hr
      have h1n : (1 : Nat) < n := by omega
      have hwalk1 : walkFrom st1.dfa 1 bs = walkFrom st.dfa 1 bs :=
        walkFrom_append st.dfa x st1.dfa hst1s inv.ttarget (by omega) bs 1
          h1n hbs
      have hold1 : transOf st1.dfa dfaId b = 0 := by
        rw [htrA dfaId b hid]
        exact hold0
      refine ⟨bs, hbs, ?_⟩
      rw [walkFrom_setTransition st1.dfa dfaId b n hold1 hzA bs 1
        (by rw [hwalk1, hw]; omega), hwalk1, hw]
    rcases Nat.lt_or_ge i n with hlt | hge
    · exact hreach1 i hi0 hlt
    · -- the fresh state: reach dfaId then take b
      have hieq : i = n := by omega
      have hrd : Reaches (st1.dfa.setTransition dfaId b n) 1 dfaId :=
        hreach1 dfaId (by omega) hid
      obtain ⟨bs, hbs, hw⟩ := hrd
      refine ⟨bs ++ [b], ?_, ?_⟩
      · intro c hc
        rcases List.mem_append.mp hc with h | h
        · exact hbs c h
        · rw [List.mem_singleton.mp h]
          exact hb
      · rw [walkFrom_snoc, hw, htrF, if_pos ⟨rfl, rfl⟩, hieq]

/-- One `cached_state` plus `set_transition` step preserves the builder
invariant, and the returned id is a valid state. -/
theorem buildStep_inv (nfa : NFA) (fuel : Nat) (st : Builder) (dfaId b : Nat)
    (inv : BFull nfa fuel st)
    (hid : dfaId < st.dfa.states.length) (hb : b < ALPHABET_SIZE)
    (hdead : dfaId = 0 → assocGet st.cache BState.dead = some 0)
    {st' : Builder} {nid : Nat}
    (h : cachedState nfa fuel st dfaId b = some (st', nid)) :
    BFull nfa fuel { st' with dfa := st'.dfa.setTransition dfaId b nid } ∧
    nid < st'.dfa.states.length ∧
    st.dfa.states.length ≤ st'.dfa.states.length ∧
    (∀ (k : BState) (v : Nat), assocGet st.cache k = some v →
      assocGet st'.cache k = some v) ∧
    (nid = 0 → assocGet st'.cache BState.dead = some 0) := by
  rw [cachedState_eq] at h
  cases hck : canonKey nfa fuel st dfaId b with
  | none => rw [hck] at h; cases h
  | some key =>
    rw [hck] at h
    simp only [Option.some_bind] at h
    cases hl : assocGet st.cache key with
    | some cid =>
      rw [hl] at h
      injection h with h
      have hpair : st' = st ∧ nid = cid := by
        constructor
        · exact congrArg Prod.fst h.symm
        · exact congrArg Prod.snd h.symm
      obtain ⟨rfl, rfl⟩ := hpair
      have hsk := inv.sound key nid hl
      have hnidb : nid < st'.builderStates.length :=
        (List.getElem?_eq_some_iff.mp hsk).1
      have hnid : nid < st'.dfa.states.length := by
        rw [← inv.len_eq]
        exact hnidb
      have hdcon : nid = 0 → assocGet st'.cache BState.dead = some 0 := by
        intro hc0
        rw [hc0] at hsk hl
        rw [inv.dead0] at hsk
        injection hsk with hsk
        rw [← hsk] at hl
        exact hl
      refine ⟨?_, hnid, le_refl _, fun k v hv => hv, hdcon⟩
      by_cases hold : transOf st'.dfa dfaId b = nid
      · have hEq : st'.dfa.setTransition dfaId b nid = st'.dfa :=
          setTransition_id st'.dfa dfaId b nid hold
            (by rw [inv.tlen dfaId hid]; exact hb)
        have : ({ st' with dfa := st'.dfa.setTransition dfaId b nid } : Builder)
            = st' := by rw [hEq]
        rw [this]
        exact inv
      · have hdfa0 : dfaId ≠ 0 := by
          intro h0
          rw [h0] at hck hold hid
          rw [canonKey_zero nfa fuel st' inv.dead0 b] at hck
          injection hck with hck
          rw [← hck] at hl
          rw [hdead h0] at hl
          injection hl with hl
          rw [transOf_zero_of_state0 st'.dfa inv.state0 b] at hold
          exact hold hl
        have hold0 : transOf st'.dfa dfaId b = 0 := by
          rcases inv.edges dfaId b hid hb with h0 | ⟨key', hck', hl'⟩
          · exact h0
          · rw [hck] at hck'
            injection hck' with hkk
            rw [← hkk, hl] at hl'
            injection hl' with hl'
            exact absurd hl'.symm hold
        exact BFull_setTransition nfa fuel st' dfaId b nid inv hid hb hdfa0
          hold0 hnid ⟨key, hck, hl⟩
    | none =>
      rw [hl] at h
      injection h with h
      have hpair : st' = (addState st key).1 ∧ nid = st.dfa.states.length := by
        constructor
        · exact congrArg Prod.fst h.symm
        · exact congrArg Prod.snd h.symm
      obtain ⟨rfl, rfl⟩ := hpair
      have hdfa0 : dfaId ≠ 0 := by
        intro h0
        rw [h0, canonKey_zero nfa fuel st inv.dead0 b] at hck
        injection hck with hck
        rw [← hck, hdead h0] at hl
        cases hl
      have hlen1 : (addState st key).1.dfa.states.length
          = st.dfa.states.length + 1 := by
        rw [addState_dfa_states, List.length_append]
        rfl
      refine ⟨?_, by omega, by omega, ?_, ?_⟩
      · exact BFull_addState_setTransition nfa fuel st dfaId b key inv hid hb
          hdfa0 hck hl
      · intro k v hv
        rw [addState_cache]
        exact assocGet_stable hv hl
      · intro h0
        exfalso
        have := inv.two_le
        omega

/-- The byte loop of `build` preserves the invariant; all enqueued ids are
valid states and an enqueued dead id certifies the dead cache entry. -/
theorem buildBytes_inv (nfa : NFA) (fuel dfaId : Nat) :
    ∀ (bl : List Nat) (st : Builder) (uncompiled queued : List Nat),
      BFull nfa fuel st →
      (∀ b ∈ bl, b < ALPHABET_SIZE) →
      dfaId < st.dfa.states.length →
      (dfaId = 0 → assocGet st.cache BState.dead = some 0) →
      (∀ id ∈ uncompiled, id < st.dfa.states.length ∧
        (id = 0 → assocGet st.cache BState.dead = some 0)) →
      ∀ {out : Builder × List Nat × List Nat},
      buildBytes nfa fuel dfaId bl st uncompiled queued = some out →
      BFull nfa fuel out.1 ∧
      st.dfa.states.length ≤ out.1.dfa.states.length ∧
      (∀ (k : BState) (v : Nat), assocGet st.cache k = some v →
        assocGet out.1.cache k = some v) ∧
      (∀ id ∈ out.2.1, id < out.1.dfa.states.length ∧
        (id = 0 → assocGet out.1.cache BState.dead = some 0)) := by
  intro bl
  induction bl with
  | nil =>
    intro st uncompiled queued inv _ _ _ hunc out h
    injection h with h
    rw [← h]
    exact ⟨inv, le_refl _, fun k v hv => hv, hunc⟩
  | cons b rest ih =>
    intro st uncompiled queued inv hbl hid hdead hunc out h
    simp only [buildBytes] at h
    cases hcs : cachedState nfa fuel st dfaId b with
    | none => rw [hcs] at h; cases h
    | some snid =>
      rw [hcs] at h
      simp only [Option.bind_eq_bind, Option.some_bind] at h
      obtain ⟨st', nid⟩ := snid
      have hstep := buildStep_inv nfa fuel st dfaId b inv hid
        (hbl b (by simp)) hdead hcs
      obtain ⟨invN, hnid, hmono, hcpres, hdnid⟩ := hstep
      have hlenN : ({ st' with dfa := st'.dfa.setTransition dfaId b nid }
          : Builder).dfa.states.length = st'.dfa.states.length :=
        setTransition_states_length _ _ _ _
      have hrest : ∀ b' ∈ rest, b' < ALPHABET_SIZE :=
        fun b' hb' => hbl b' (by simp [hb'])
      have hidN : dfaId <
          ({ st' with dfa := st'.dfa.setTransition dfaId b nid }
            : Builder).dfa.states.length := by
        rw [hlenN]; omega
      have hdeadN : dfaId = 0 →
          assocGet ({ st' with dfa := st'.dfa.setTransition dfaId b nid }
            : Builder).cache BState.dead = some 0 := by
        intro h0
        exact hcpres BState.dead 0 (hdead h0)
      by_cases hq : queued.contains nid
      · rw [if_pos hq] at h
        have huncN : ∀ id ∈ uncompiled,
            id < ({ st' with dfa := st'.dfa.setTransition dfaId b nid }
              : Builder).dfa.states.length ∧
            (id = 0 →
              assocGet ({ st' with dfa := st'.dfa.setTransition dfaId b nid }
                : Builder).cache BState.dead = some 0) := by
          intro id hidm
          obtain ⟨h1, h2⟩ := hunc id hidm
          refine ⟨by rw [hlenN]; omega, fun h0 => hcpres _ _ (h2 h0)⟩
        obtain ⟨o1, o2, o3, o4⟩ := ih _ uncompiled queued invN hrest hidN
          hdeadN huncN h
        refine ⟨o1, by rw [hlenN] at o2; omega, ?_, o4⟩
        intro k v hv
        exact o3 k v (hcpres k v hv)
      · rw [if_neg hq] at h
        have huncN : ∀ id ∈ uncompiled ++ [nid],
            id < ({ st' with dfa := st'.dfa.setTransition dfaId b nid }
              : Builder).dfa.states.length ∧
            (id = 0 →
              assocGet ({ st' with dfa := st'.dfa.setTransition dfaId b nid }
                : Builder).cache BState.dead = some 0) := by
          intro id hidm
          rcases List.mem_append.mp hidm with hm | hm
          · obtain ⟨h1, h2⟩ := hunc id hm
            refine ⟨by rw [hlenN]; omega, fun h0 => hcpres _ _ (h2 h0)⟩
          · rw [List.mem_singleton.mp hm]
            exact ⟨by rw [hlenN]; omega, hdnid⟩
        obtain ⟨o1, o2, o3, o4⟩ := ih _ (uncompiled ++ [nid])
          (queued ++ [nid]) invN hrest hidN hdeadN huncN h
        refine ⟨o1, by rw [hlenN] at o2; omega, ?_, o4⟩
        intro k v hv
        exact o3 k v (hcpres k v hv)

/-- The worklist loop of `build` preserves the invariant. -/
theorem buildLoop_inv (nfa : NFA) (fuel : Nat) :
    ∀ (f : Nat) (st : Builder) (uncompiled queued : List Nat),
      BFull nfa fuel st →
      (∀ id ∈ uncompiled, id < st.dfa.states.length ∧
        (id = 0 → assocGet st.cache BState.dead = some 0)) →
      ∀ {out : Builder},
      buildLoop nfa fuel f st uncompiled queued = some out →
      BFull nfa fuel out := by
  intro f
  induction f with
  | zero =>
    intro st uncompiled queued inv hunc out h
    cases h
  | succ f ih =>
    intro st uncompiled queued inv hunc out h
    simp only [buildLoop] at h
    split at h
    · injection h with h
      rw [← h]
      exact inv
    · rename_i dfaId hgl
      have hmem : dfaId ∈ uncompiled := List.mem_of_mem_getLast? hgl
      obtain ⟨hdlt, hddead⟩ := hunc dfaId hmem
      cases hbb : buildBytes nfa fuel dfaId (List.range ALPHABET_SIZE) st
          uncompiled.dropLast queued with
      | none => rw [hbb] at h; cases h
      | some trip =>
        rw [hbb] at h
        simp only [Option.bind_eq_bind, Option.some_bind] at h
        have hstep := buildBytes_inv nfa fuel dfaId
          (List.range ALPHABET_SIZE) st uncompiled.dropLast queued inv
          (fun b hb => List.mem_range.mp hb) hdlt hddead
          (fun id hid => hunc id (List.dropLast_subset _ hid)) hbb
        obtain ⟨invN, _, _, huncN⟩ := hstep
        exact ih trip.1 trip.2.1 trip.2.2 invN huncN h

/-- `add_start` on the fresh builder establishes the invariant and returns
start id 1. -/
theorem addStart_init_inv (nfa : NFA) (fuel : Nat) {st1 : Builder} {sid : Nat}
    (h : addStart nfa fuel Builder.init = some (st1, sid)) :
    BFull nfa fuel st1 ∧ sid = 1 := by
  simp only [addStart, Option.bind_eq_bind] at h
  cases hec : epsilonClosure nfa fuel 0 (SparseSet.new nfa.length) with
  | none => rw [hec] at h; cases h
  | some sparse =>
    rw [hec] at h
    simp only [Option.some_bind] at h
    cases hns : newState nfa sparse with
    | none => rw [hns] at h; cases h
    | some state =>
      rw [hns] at h
      simp only [Option.some_bind] at h
      injection h with h
      have hst : st1 = Builder.mk
          (DFA.mk [DFAState.emptyS,
            DFAState.mk state.isMatch DFAState.emptyS.transitions] 1)
          [BState.dead, state] [(state, 1), (BState.dead, 0)] :=
        (congrArg Prod.fst h).symm
      have hsid : sid = 1 := (congrArg Prod.snd h).symm
      subst hst
      refine ⟨?_, hsid⟩
      refine ⟨rfl, le_refl 2, rfl, rfl, rfl, ?_, ?_, ?_, ?_, ?_, ?_, ?_, ?_⟩
      · -- sound
        intro k i hk
        by_cases h1 : state = k
        · have hk' : (if state = k then some 1 else
              if BState.dead = k then some 0 else none) = some i := hk
          rw [if_pos h1] at hk'
          injection hk' with hk'
          rw [← hk', ← h1]
          rfl
        · have hk' : (if state = k then some 1 else
              if BState.dead = k then some 0 else none) = some i := hk
          rw [if_neg h1] at hk'
          by_cases h2 : BState.dead = k
          · rw [if_pos h2] at hk'
            injection hk' with hk'
            rw [← hk', ← h2]
            rfl
          · rw [if_neg h2] at hk'
            cases hk'
      · -- complete
        intro i k hik
        by_cases h1 : state = k
        · refine ⟨1, ?_⟩
          show (if state = k then some 1 else
            if BState.dead = k then some 0 else none) = some 1
          rw [if_pos h1]
        · have hdk : BState.dead = k := by
            cases i with
            | zero =>
              have h0 : some BState.dead = some k := hik
              exact Option.some.inj h0
            | succ n =>
              cases n with
              | zero =>
                have h0 : some state = some k := hik
                exact absurd (Option.some.inj h0) h1
              | succ m =>
                have h0 : (none : Option BState) = some k := hik
                cases h0
          refine ⟨0, ?_⟩
          show (if state = k then some 1 else
            if BState.dead = k then some 0 else none) = some 0
          rw [if_neg h1, if_pos hdk]
      · -- distinct
        intro i j k hij hi hj
        have hjlt : j < 2 := by
          by_contra hge
          have hnone : ([BState.dead, state] : List BState)[j]? = none := by
            apply List.getElem?_eq_none_iff.mpr
            simp only [List.length_cons, List.length_nil]
            omega
          rw [hnone] at hj
          cases hj
        omega
      · -- tlen
        intro i hi
        have hi2 : i < 2 := hi
        cases i with
        | zero => rfl
        | succ n =>
          cases n with
          | zero => rfl
          | succ m => exact absurd hi2 (by omega)
      · -- ttarget
        intro i b hi hb
        have hi2 : i < 2 := hi
        have htr : ∀ j, j < 2 →
            transOf (DFA.mk [DFAState.emptyS,
              DFAState.mk state.isMatch DFAState.emptyS.transitions] 1)
              j b = 0 := by
          intro j hj
          cases j with
          | zero => exact getD_replicate_zero ALPHABET_SIZE b
          | succ n =>
            cases n with
            | zero => exact getD_replicate_zero ALPHABET_SIZE b
            | succ m => exact absurd hj (by omega)
        rw [htr i hi2]
        exact (by omega : (0 : Nat) < 2)
      · -- hmatch
        intro i hi
        have hi2 : i < 2 := hi
        cases i with
        | zero => rfl
        | succ n =>
          cases n with
          | zero => rfl
          | succ m => exact absurd hi2 (by omega)
      · -- edges
        intro s b hs hb
        left
        have hs2 : s < 2 := hs
        cases s with
        | zero => exact getD_replicate_zero ALPHABET_SIZE b
        | succ n =>
          cases n with
          | zero => exact getD_replicate_zero ALPHABET_SIZE b
          | succ m => exact absurd hs2 (by omega)
      · -- reach
        intro i hipos hi
        have hi2 : i < 2 := hi
        have hieq : i = 1 := by omega
        rw [hieq]
        refine ⟨[], ?_, rfl⟩
        intro b hb
        cases hb

/-- `DFABuilder::build` always ends in a builder satisfying the
invariant. -/
theorem buildFull_inv (nfa : NFA) (fuel : Nat) {out : Builder}
    (h : buildFull nfa fuel = some out) : BFull nfa fuel out := by
  simp only [buildFull, Option.bind_eq_bind] at h
  cases has : addStart nfa fuel Builder.init with
  | none => rw [has] at h; cases h
  | some p =>
    rw [has] at h
    simp only [Option.some_bind] at h
    obtain ⟨st1, sid⟩ := p
    obtain ⟨inv1, hsid⟩ := addStart_init_inv nfa fuel has
    have hunc : ∀ id ∈ [sid], id < st1.dfa.states.length ∧
        (id = 0 → assocGet st1.cache BState.dead = some 0) := by
      intro id hid
      rw [List.mem_singleton.mp hid, hsid]
      refine ⟨?_, ?_⟩
      · have h2 := inv1.two_le
        omega
      · intro h0
        exact absurd h0 one_ne_zero
    exact buildLoop_inv nfa fuel fuel st1 [sid] [] inv1 hunc h

/-- The builder `build` produces for `nfaLitA` (pattern `a`). -/
def bLitA : Builder :=
  Builder.mk
    (DFA.mk
      [DFAState.mk false (List.replicate 256 0),
       DFAState.mk false ((List.replicate 256 0).set 97 2),
       DFAState.mk true (List.replicate 256 0)] 1)
    [BState.dead, BState.mk false [1], BState.mk true []]
    [(BState.mk true [], 2), (BState.mk false [1], 1), (BState.dead, 0)]

/-- C3 (amended): in any builder produced by `build`, state identity is the
insertion-ordered subset: a subset key already in the cache is reused (the
builder is unchanged and the cached id returned), the cache is a sound index
of the builder states, and no two builder states hold the identical ordered
subset, except that the start state (id 1) may duplicate the dead subset
(id 0). -/
theorem builder_states_deduplicated_by_ordered_subset
    (nfa : NFA) (fuel : Nat) (st : Builder)
    (h : buildFull nfa fuel = some st) :
    (∀ (dfaId b : Nat) (key : BState) (cid : Nat),
      canonKey nfa fuel st dfaId b = some key →
      assocGet st.cache key = some cid →
      cachedState nfa fuel st dfaId b = some (st, cid)) ∧
    (∀ (k : BState) (i : Nat), assocGet st.cache k = some i →
      st.builderStates[i]? = some k) ∧
    (∀ (i j : Nat) (k : BState), i < j →
      st.builderStates[i]? = some k → st.builderStates[j]? = some k →
      i = 0 ∧ j = 1) := by
  refine ⟨?_, ?_, ?_⟩
  · intro dfaId b key cid hck hcache
    rw [cachedState_eq, hck]
    show (match assocGet st.cache key with
      | some cid => some (st, cid)
      | none => some (addState st key)) = some (st, cid)
    rw [hcache]
  · exact (buildFull_inv nfa fuel h).sound
  · exact (buildFull_inv nfa fuel h).distinct

theorem builder_states_deduplicated_by_ordered_subset_witness :
    buildFull nfaLitA 50 = some bLitA ∧
    ((∀ (dfaId b : Nat) (key : BState) (cid : Nat),
      canonKey nfaLitA 50 bLitA dfaId b = some key →
      assocGet bLitA.cache key = some cid →
      cachedState nfaLitA 50 bLitA dfaId b = some (bLitA, cid)) ∧
    (∀ (k : BState) (i : Nat), assocGet bLitA.cache k = some i →
      bLitA.builderStates[i]? = some k) ∧
    (∀ (i j : Nat) (k : BState), i < j →
      bLitA.builderStates[i]? = some k → bLitA.builderStates[j]? = some k →
      i = 0 ∧ j = 1)) :=
  ⟨by decide!,
   builder_states_deduplicated_by_ordered_subset nfaLitA 50 bLitA (by decide!)⟩

/-! ### Classification of compilation outcomes by anchor content -/

/-- Every `compile` call on `e` succeeds, whatever the current table. -/
def OkAll (useq : Nat → Nat → List (List (Nat × Nat))) (e : Hir) : Prop :=
  ∀ nfa, ∃ r, compile useq nfa e = .ok r

/-- Every `compile` call on `e` fails with an unsupported-construct error. -/
def ErrUnsup (useq : Nat → Nat → List (List (Nat × Nat))) (e : Hir) : Prop :=
  ∀ nfa, ∃ m, compile useq nfa e = .error (.unsupported m)

/-- No `compile` call on `e` ever reports an unsupported construct. -/
def NoUnsup (useq : Nat → Nat → List (List (Nat × Nat))) (e : Hir) : Prop :=
  ∀ nfa m, compile useq nfa e ≠ .error (.unsupported m)

theorem exceptOk_bind {e a b : Type} (x : a) (f : a → Except e b) :
    (Except.ok x >>= f) = f x := rfl

theorem finishAlternation_ok (nfa : NFA) (uni : Nat) (ends : List Nat)
    (h : ends ≠ []) : ∃ r, finishAlternation nfa uni ends = .ok r := by
  unfold finishAlternation
  rw [if_neg (by simpa using h)]
  exact ⟨_, rfl⟩

theorem foldl_snd_append_length {α β : Type}
    (f : (β × List Nat) → α → (β × List Nat))
    (hf : ∀ p a, ((f p a).2).length = p.2.length + 1) :
    ∀ (l : List α) (p : β × List Nat),
      ((l.foldl f p).2).length = p.2.length + l.length := by
  intro l
  induction l with
  | nil => intro p; rfl
  | cons a rest ih =>
    intro p
    rw [List.foldl_cons, ih, hf, List.length_cons]
    omega

theorem foldl_snd_ne_nil {α β : Type} (f : (β × List Nat) → α → (β × List Nat))
    (hf : ∀ p a, ((f p a).2).length = p.2.length + 1) (l : List α)
    (hl : l ≠ []) (p : β × List Nat) : ((l.foldl f p).2) ≠ [] := by
  intro hnil
  have h0 := foldl_snd_append_length f hf l p
  rw [hnil] at h0
  have hlpos : 0 < l.length := List.length_pos.mpr hl
  simp only [List.length_nil] at h0
  omega

theorem compileClassBytes_ok (nfa : NFA) (rs : List (Nat × Nat))
    (hrs : rs ≠ []) : ∃ r, compileClassBytes nfa rs = .ok r := by
  unfold compileClassBytes
  apply finishAlternation_ok
  exact foldl_snd_ne_nil _
    (fun p a => by rcases p with ⟨x, y⟩; simp [compileRange, addRange])
    rs hrs _

theorem compileClassUnicode_ok (useq : Nat → Nat → List (List (Nat × Nat)))
    (hU : ∀ a b, useq a b ≠ []) (nfa : NFA) (rs : List (Nat × Nat))
    (hrs : rs ≠ []) : ∃ r, compileClassUnicode useq nfa rs = .ok r := by
  unfold compileClassUnicode
  apply finishAlternation_ok
  have hseqs : rs.flatMap (fun r => useq r.1 r.2) ≠ [] := by
    cases rs with
    | nil => exact absurd rfl hrs
    | cons r rest =>
      rw [List.flatMap_cons]
      intro hemp
      exact hU r.1 r.2 (List.append_eq_nil.mp hemp).1
  exact foldl_snd_ne_nil _
    (fun p a => by rcases p with ⟨x, y⟩; simp)
    (rs.flatMap (fun r => useq r.1 r.2)) hseqs _

theorem compileExactlyGo_ok (useq : Nat → Nat → List (List (Nat × Nat)))
    (h : Hir) (hok : OkAll useq h) :
    ∀ (k : Nat) (nfa : NFA) (s t : Nat),
      ∃ r, compileExactlyGo useq nfa h k s t = .ok r := by
  intro k
  induction k with
  | zero =>
    intro nfa s t
    refine ⟨(nfa, ⟨s, t⟩), ?_⟩
    simp only [compileExactlyGo]
  | succ k ih =>
    intro nfa s t
    obtain ⟨r, hr⟩ := hok nfa
    obtain ⟨r2, hr2⟩ := ih (patch r.1 t r.2.start) s r.2.stop
    refine ⟨r2, ?_⟩
    simp only [compileExactlyGo]
    rw [hr]
    exact hr2

theorem compileExactly_ok (useq : Nat → Nat → List (List (Nat × Nat)))
    (h : Hir) (hok : OkAll useq h) :
    ∀ (n : Nat) (nfa : NFA), ∃ r, compileExactly useq nfa h n = .ok r := by
  intro n nfa
  cases n with
  | zero =>
    refine ⟨compileEmpty nfa, ?_⟩
    simp only [compileExactly]
  | succ n =>
    obtain ⟨r, hr⟩ := hok nfa
    obtain ⟨r2, hr2⟩ := compileExactlyGo_ok useq h hok n r.1 r.2.start r.2.stop
    refine ⟨r2, ?_⟩
    simp only [compileExactly]
    rw [hr]
    exact hr2

theorem compileZeroOrOne_ok (useq : Nat → Nat → List (List (Nat × Nat)))
    (h : Hir) (hok : OkAll useq h) :
    ∀ (g : Bool) (nfa : NFA), ∃ r, compileZeroOrOne useq nfa h g = .ok r := by
  intro g nfa
  rcases hp : (if g = true then addUnion nfa else addReverseUnion nfa)
    with ⟨nfa1, uni⟩
  obtain ⟨c, hc⟩ := hok nfa1
  rw [compileZeroOrOne, hp]
  simp only []
  rw [hc]
  exact ⟨_, rfl⟩

theorem compileZoGo_ok (useq : Nat → Nat → List (List (Nat × Nat)))
    (h : Hir) (hok : OkAll useq h) :
    ∀ (k : Nat) (g : Bool) (nfa : NFA) (s t : Nat),
      ∃ r, compileZoGo useq nfa h g k s t = .ok r := by
  intro k
  induction k with
  | zero =>
    intro g nfa s t
    refine ⟨(nfa, ⟨s, t⟩), ?_⟩
    simp only [compileZoGo]
  | succ k ih =>
    intro g nfa s t
    obtain ⟨r, hr⟩ := compileZeroOrOne_ok useq h hok g nfa
    obtain ⟨r2, hr2⟩ := ih g (patch r.1 t r.2.start) s r.2.stop
    refine ⟨r2, ?_⟩
    simp only [compileZoGo]
    rw [hr]
    exact hr2

theorem compileZoChain_ok (useq : Nat → Nat → List (List (Nat × Nat)))
    (h : Hir) (hok : OkAll useq h) :
    ∀ (c : Nat) (g : Bool) (nfa : NFA),
      ∃ r, compileZoChain useq nfa h g c = .ok r := by
  intro c g nfa
  cases c with
  | zero =>
    refine ⟨compileEmpty nfa, ?_⟩
    simp only [compileZoChain]
  | succ k =>
    obtain ⟨r, hr⟩ := compileZeroOrOne_ok useq h hok g nfa
    obtain ⟨r2, hr2⟩ := compileZoGo_ok useq h hok k g r.1 r.2.start r.2.stop
    refine ⟨r2, ?_⟩
    simp only [compileZoChain]
    rw [hr]
    exact hr2

theorem compileBounded_ok (useq : Nat → Nat → List (List (Nat × Nat)))
    (h : Hir) (hok : OkAll useq h) :
    ∀ (g : Bool) (m n : Nat) (nfa : NFA),
      ∃ r, compileBounded useq nfa h g m n = .ok r := by
  intro g m n nfa
  obtain ⟨pre, hpre⟩ := compileExactly_ok useq h hok m nfa
  by_cases hmn : m = n
  · rw [compileBounded, hpre]
    simp only [exceptOk_bind]
    rw [if_pos hmn]
    exact ⟨_, rfl⟩
  · obtain ⟨suf, hsuf⟩ := compileZoChain_ok useq h hok (n - m) g pre.1
    rw [compileBounded, hpre]
    simp only [exceptOk_bind]
    rw [if_neg hmn, hsuf]
    exact ⟨_, rfl⟩

theorem compileAtLeast_ok (useq : Nat → Nat → List (List (Nat × Nat)))
    (h : Hir) (hok : OkAll useq h) :
    ∀ (g : Bool) (n : Nat) (nfa : NFA),
      ∃ r, compileAtLeast useq nfa h g n = .ok r := by
  intro g n nfa
  by_cases hn0 : n = 0
  · rcases hp : (if g = true then addUnion nfa else addReverseUnion nfa)
      with ⟨nfa1, uni⟩
    obtain ⟨c, hc⟩ := hok nfa1
    rw [compileAtLeast, if_pos hn0, hp]
    simp only []
    rw [hc]
    exact ⟨_, rfl⟩
  · by_cases hn1 : n = 1
    · obtain ⟨c, hc⟩ := hok nfa
      rw [compileAtLeast, if_neg hn0, if_pos hn1, hc]
      exact ⟨_, rfl⟩
    · obtain ⟨pre, hpre⟩ := compileExactly_ok useq h hok (n - 1) nfa
      obtain ⟨lst, hlst⟩ := hok pre.1
      rw [compileAtLeast, if_neg hn0, if_neg hn1, hpre]
      simp only [exceptOk_bind]
      rw [hlst]
      exact ⟨_, rfl⟩

mutual

/-- Wellformedness as the `regex-syntax` parser guarantees it: classes and
alternations are non-empty. -/
def wfHir : Hir → Bool
  | .classB rs => !rs.isEmpty
  | .classU rs => !rs.isEmpty
  | .rep _ _ h => wfHir h
  | .group h => wfHir h
  | .concat hs => wfHirList hs
  | .alternation hs => !hs.isEmpty && wfHirList hs
  | _ => true

/-- `wfHir` over a list of subexpressions. -/
def wfHirList : List Hir → Bool
  | [] => true
  | h :: rest => wfHir h && wfHirList rest

end

theorem compileConcatGo_ok (useq : Nat → Nat → List (List (Nat × Nat))) :
    ∀ (hs : List Hir), (∀ h ∈ hs, OkAll useq h) →
      ∀ (nfa : NFA) (s t : Nat),
        ∃ r, compileConcatGo useq nfa hs s t = .ok r := by
  intro hs
  induction hs with
  | nil =>
    intro _ nfa s t
    refine ⟨(nfa, ⟨s, t⟩), ?_⟩
    simp only [compileConcatGo]
  | cons h rest ih =>
    intro hall nfa s t
    obtain ⟨c, hc⟩ := hall h (by simp) nfa
    obtain ⟨r2, hr2⟩ := ih (fun h' hm => hall h' (by simp [hm]))
      (patch c.1 t c.2.start) s c.2.stop
    refine ⟨r2, ?_⟩
    simp only [compileConcatGo]
    rw [hc]
    simp only [exceptOk_bind]
    exact hr2

theorem compileConcatList_ok (useq : Nat → Nat → List (List (Nat × Nat)))
    (hs : List Hir) (hall : ∀ h ∈ hs, OkAll useq h) (nfa : NFA) :
    ∃ r, compileConcatList useq nfa hs = .ok r := by
  cases hs with
  | nil =>
    refine ⟨compileEmpty nfa, ?_⟩
    simp only [compileConcatList]
  | cons h rest =>
    obtain ⟨c, hc⟩ := hall h (by simp) nfa
    obtain ⟨r2, hr2⟩ := compileConcatGo_ok useq rest
      (fun h' hm => hall h' (by simp [hm])) c.1 c.2.start c.2.stop
    refine ⟨r2, ?_⟩
    simp only [compileConcatList]
    rw [hc]
    simp only [exceptOk_bind]
    exact hr2

theorem compileAltGo_ok (useq : Nat → Nat → List (List (Nat × Nat))) :
    ∀ (hs : List Hir), (∀ h ∈ hs, OkAll useq h) →
      ∀ (nfa : NFA) (uni : Nat) (ends : List Nat), (hs = [] → ends ≠ []) →
        ∃ r, compileAltGo useq nfa hs uni ends = .ok r := by
  intro hs
  induction hs with
  | nil =>
    intro _ nfa uni ends hne
    obtain ⟨r, hr⟩ := finishAlternation_ok nfa uni ends (hne rfl)
    refine ⟨r, ?_⟩
    simp only [compileAltGo]
    exact hr
  | cons h rest ih =>
    intro hall nfa uni ends _
    obtain ⟨c, hc⟩ := hall h (by simp) nfa
    obtain ⟨r2, hr2⟩ := ih (fun h' hm => hall h' (by simp [hm]))
      (patch c.1 uni c.2.start) uni (ends ++ [c.2.stop])
      (fun _ => by simp)
    refine ⟨r2, ?_⟩
    simp only [compileAltGo]
    rw [hc]
    simp only [exceptOk_bind]
    exact hr2

theorem compileAltList_ok (useq : Nat → Nat → List (List (Nat × Nat)))
    (hs : List Hir) (hall : ∀ h ∈ hs, OkAll useq h) (hne : hs ≠ [])
    (nfa : NFA) : ∃ r, compileAltList useq nfa hs = .ok r := by
  obtain ⟨r, hr⟩ := compileAltGo_ok useq hs hall (addUnion nfa).1
    (addUnion nfa).2 [] (fun hh => absurd hh hne)
  refine ⟨r, ?_⟩
  simp only [compileAltList]
  exact hr

theorem exceptError_bind {e a b : Type} (x : e) (f : a → Except e b) :
    ((Except.error x : Except e a) >>= f) = Except.error x := rfl

theorem compileZeroOrOne_err (useq : Nat → Nat → List (List (Nat × Nat)))
    (h : Hir) (herr : ErrUnsup useq h) :
    ∀ (g : Bool) (nfa : NFA),
      ∃ m, compileZeroOrOne useq nfa h g = .error (.unsupported m) := by
  intro g nfa
  rcases hp : (if g = true then addUnion nfa else addReverseUnion nfa)
    with ⟨nfa1, uni⟩
  obtain ⟨m, hm⟩ := herr nfa1
  rw [compileZeroOrOne, hp]
  simp only []
  rw [hm]
  exact ⟨m, exceptError_bind _ _⟩

theorem compileExactly_err (useq : Nat → Nat → List (List (Nat × Nat)))
    (h : Hir) (herr : ErrUnsup useq h) :
    ∀ (n : Nat), 0 < n → ∀ (nfa : NFA),
      ∃ m, compileExactly useq nfa h n = .error (.unsupported m) := by
  intro n hn nfa
  cases n with
  | zero => exact absurd hn (by omega)
  | succ n =>
    obtain ⟨m, hm⟩ := herr nfa
    refine ⟨m, ?_⟩
    simp only [compileExactly]
    rw [hm]
    exact exceptError_bind _ _

theorem compileAtLeast_err (useq : Nat → Nat → List (List (Nat × Nat)))
    (h : Hir) (herr : ErrUnsup useq h) :
    ∀ (g : Bool) (n : Nat) (nfa : NFA),
      ∃ m, compileAtLeast useq nfa h g n = .error (.unsupported m) := by
  intro g n nfa
  by_cases hn0 : n = 0
  · rcases hp : (if g = true then addUnion nfa else addReverseUnion nfa)
      with ⟨nfa1, uni⟩
    obtain ⟨m, hm⟩ := herr nfa1
    rw [compileAtLeast, if_pos hn0, hp]
    simp only []
    rw [hm]
    exact ⟨m, exceptError_bind _ _⟩
  · by_cases hn1 : n = 1
    · obtain ⟨m, hm⟩ := herr nfa
      rw [compileAtLeast, if_neg hn0, if_pos hn1, hm]
      exact ⟨m, exceptError_bind _ _⟩
    · obtain ⟨m, hm⟩ := compileExactly_err useq h herr (n - 1) (by omega) nfa
      rw [compileAtLeast, if_neg hn0, if_neg hn1, hm]
      exact ⟨m, exceptError_bind _ _⟩

theorem compileZoChain_err (useq : Nat → Nat → List (List (Nat × Nat)))
    (h : Hir) (herr : ErrUnsup useq h) :
    ∀ (c : Nat), 0 < c → ∀ (g : Bool) (nfa : NFA),
      ∃ m, compileZoChain useq nfa h g c = .error (.unsupported m) := by
  intro c hc g nfa
  cases c with
  | zero => exact absurd hc (by omega)
  | succ k =>
    obtain ⟨m, hm⟩ := compileZeroOrOne_err useq h herr g nfa
    refine ⟨m, ?_⟩
    simp only [compileZoChain]
    rw [hm]
    exact exceptError_bind _ _

theorem compileBounded_err (useq : Nat → Nat → List (List (Nat × Nat)))
    (h : Hir) (herr : ErrUnsup useq h) :
    ∀ (g : Bool) (m n : Nat), (0 < m ∨ m < n) → ∀ (nfa : NFA),
      ∃ w, compileBounded useq nfa h g m n = .error (.unsupported w) := by
  intro g m n hvis nfa
  by_cases hm0 : 0 < m
  · obtain ⟨w, hw⟩ := compileExactly_err useq h herr m hm0 nfa
    rw [compileBounded, hw]
    exact ⟨w, exceptError_bind _ _⟩
  · have hm : m = 0 := by omega
    have hmn : m < n := by
      rcases hvis with hv | hv
      · exact absurd hv hm0
      · exact hv
    subst hm
    have hex0 : compileExactly useq nfa h 0 = .ok (compileEmpty nfa) := by
      simp only [compileExactly]
    obtain ⟨w, hw⟩ := compileZoChain_err useq h herr (n - 0) (by omega) g
      (compileEmpty nfa).1
    rw [compileBounded, hex0]
    simp only [exceptOk_bind]
    rw [if_neg (show ¬(0 = n) by omega), hw]
    exact ⟨w, exceptError_bind _ _⟩

theorem compileConcatGo_err (useq : Nat → Nat → List (List (Nat × Nat))) :
    ∀ (hs : List Hir),
      (∀ h ∈ hs, (visitsAnchorOrWB h = false → OkAll useq h) ∧
        (visitsAnchorOrWB h = true → ErrUnsup useq h)) →
      visitsAnchorOrWBList hs = true →
      ∀ (nfa : NFA) (s t : Nat),
        ∃ m, compileConcatGo useq nfa hs s t = .error (.unsupported m) := by
  intro hs
  induction hs with
  | nil =>
    intro _ hv
    simp only [visitsAnchorOrWBList] at hv
    exact absurd hv (by decide)
  | cons h rest ih =>
    intro hall hv nfa s t
    cases hvh : visitsAnchorOrWB h with
    | true =>
      obtain ⟨m, hm⟩ := (hall h (by simp)).2 hvh nfa
      refine ⟨m, ?_⟩
      simp only [compileConcatGo]
      rw [hm]
      exact exceptError_bind _ _
    | false =>
      have hvr : visitsAnchorOrWBList rest = true := by
        simp only [visitsAnchorOrWBList, hvh, Bool.false_or] at hv
        exact hv
      obtain ⟨c, hc⟩ := (hall h (by simp)).1 hvh nfa
      obtain ⟨m, hm⟩ := ih (fun h' hm' => hall h' (by simp [hm'])) hvr
        (patch c.1 t c.2.start) s c.2.stop
      refine ⟨m, ?_⟩
      simp only [compileConcatGo]
      rw [hc]
      simp only [exceptOk_bind]
      exact hm

theorem compileConcatList_err (useq : Nat → Nat → List (List (Nat × Nat)))
    (hs : List Hir)
    (hall : ∀ h ∈ hs, (visitsAnchorOrWB h = false → OkAll useq h) ∧
      (visitsAnchorOrWB h = true → ErrUnsup useq h))
    (hv : visitsAnchorOrWBList hs = true) (nfa : NFA) :
    ∃ m, compileConcatList useq nfa hs = .error (.unsupported m) := by
  cases hs with
  | nil =>
    simp only [visitsAnchorOrWBList] at hv
    exact absurd hv (by decide)
  | cons h rest =>
    cases hvh : visitsAnchorOrWB h with
    | true =>
      obtain ⟨m, hm⟩ := (hall h (by simp)).2 hvh nfa
      refine ⟨m, ?_⟩
      simp only [compileConcatList]
      rw [hm]
      exact exceptError_bind _ _
    | false =>
      have hvr : visitsAnchorOrWBList rest = true := by
        simp only [visitsAnchorOrWBList, hvh, Bool.false_or] at hv
        exact hv
      obtain ⟨c, hc⟩ := (hall h (by simp)).1 hvh nfa
      obtain ⟨m, hm⟩ := compileConcatGo_err useq rest
        (fun h' hm' => hall h' (by simp [hm'])) hvr c.1 c.2.start c.2.stop
      refine ⟨m, ?_⟩
      simp only [compileConcatList]
      rw [hc]
      simp only [exceptOk_bind]
      exact hm

theorem compileAltGo_err (useq : Nat → Nat → List (List (Nat × Nat))) :
    ∀ (hs : List Hir),
      (∀ h ∈ hs, (visitsAnchorOrWB h = false → OkAll useq h) ∧
        (visitsAnchorOrWB h = true → ErrUnsup useq h)) →
      visitsAnchorOrWBList hs = true →
      ∀ (nfa : NFA) (uni : Nat) (ends : List Nat),
        ∃ m, compileAltGo useq nfa hs uni ends = .error (.unsupported m) := by
  intro hs
  induction hs with
  | nil =>
    intro _ hv
    simp only [visitsAnchorOrWBList] at hv
    exact absurd hv (by decide)
  | cons h rest ih =>
    intro hall hv nfa uni ends
    cases hvh : visitsAnchorOrWB h with
    | true =>
      obtain ⟨m, hm⟩ := (hall h (by simp)).2 hvh nfa
      refine ⟨m, ?_⟩
      simp only [compileAltGo]
      rw [hm]
      exact exceptError_bind _ _
    | false =>
      have hvr : visitsAnchorOrWBList rest = true := by
        simp only [visitsAnchorOrWBList, hvh, Bool.false_or] at hv
        exact hv
      obtain ⟨c, hc⟩ := (hall h (by simp)).1 hvh nfa
      obtain ⟨m, hm⟩ := ih (fun h' hm' => hall h' (by simp [hm'])) hvr
        (patch c.1 uni c.2.start) uni (ends ++ [c.2.stop])
      refine ⟨m, ?_⟩
      simp only [compileAltGo]
      rw [hc]
      simp only [exceptOk_bind]
      exact hm

theorem compileAltList_err (useq : Nat → Nat → List (List (Nat × Nat)))
    (hs : List Hir)
    (hall : ∀ h ∈ hs, (visitsAnchorOrWB h = false → OkAll useq h) ∧
      (visitsAnchorOrWB h = true → ErrUnsup useq h))
    (hv : visitsAnchorOrWBList hs = true) (nfa : NFA) :
    ∃ m, compileAltList useq nfa hs = .error (.unsupported m) := by
  obtain ⟨m, hm⟩ := compileAltGo_err useq hs hall hv (addUnion nfa).1
    (addUnion nfa).2 []
  refine ⟨m, ?_⟩
  simp only [compileAltList]
  exact hm

theorem notUnsup_bind {α β : Type} {x : Except CErr α} {f : α → Except CErr β}
    (hx : ∀ m, x ≠ .error (.unsupported m))
    (hf : ∀ a m, f a ≠ .error (.unsupported m)) :
    ∀ m, (x >>= f) ≠ .error (.unsupported m) := by
  intro m
  cases x with
  | error e =>
    intro hcon
    have h2 : (Except.error e : Except CErr β) = .error (.unsupported m) := hcon
    injection h2 with h2
    exact hx m (by rw [h2])
  | ok a =>
    intro hcon
    exact hf a m hcon

theorem finishAlternation_notUnsup (nfa : NFA) (uni : Nat) (ends : List Nat) :
    ∀ m, finishAlternation nfa uni ends ≠ .error (.unsupported m) := by
  intro m
  unfold finishAlternation
  split
  · intro hcon
    injection hcon with hcon
    cases hcon
  · intro hcon
    cases hcon

theorem compileClassBytes_nu (nfa : NFA) (rs : List (Nat × Nat)) :
    ∀ m, compileClassBytes nfa rs ≠ .error (.unsupported m) := by
  unfold compileClassBytes
  exact finishAlternation_notUnsup _ _ _

theorem compileClassUnicode_nu (useq : Nat → Nat → List (List (Nat × Nat)))
    (nfa : NFA) (rs : List (Nat × Nat)) :
    ∀ m, compileClassUnicode useq nfa rs ≠ .error (.unsupported m) := by
  unfold compileClassUnicode
  exact finishAlternation_notUnsup _ _ _

theorem compileZeroOrOne_nu (useq : Nat → Nat → List (List (Nat × Nat)))
    (h : Hir) (hno : NoUnsup useq h) :
    ∀ (g : Bool) (nfa : NFA) (m : String),
      compileZeroOrOne useq nfa h g ≠ .error (.unsupported m) := by
  intro g nfa
  rcases hp : (if g = true then addUnion nfa else addReverseUnion nfa)
    with ⟨nfa1, uni⟩
  rw [compileZeroOrOne, hp]
  simp only []
  exact notUnsup_bind (hno nfa1) (fun a m hcon => Except.noConfusion hcon)

theorem compileExactlyGo_nu (useq : Nat → Nat → List (List (Nat × Nat)))
    (h : Hir) (hno : NoUnsup useq h) :
    ∀ (k : Nat) (nfa : NFA) (s t : Nat) (m : String),
      compileExactlyGo useq nfa h k s t ≠ .error (.unsupported m) := by
  intro k
  induction k with
  | zero =>
    intro nfa s t m
    simp only [compileExactlyGo]
    intro hcon
    cases hcon
  | succ k ih =>
    intro nfa s t
    simp only [compileExactlyGo]
    exact notUnsup_bind (hno nfa)
      (fun a => ih (patch a.1 t a.2.start) s a.2.stop)

theorem compileExactly_nu (useq : Nat → Nat → List (List (Nat × Nat)))
    (h : Hir) (hno : NoUnsup useq h) :
    ∀ (n : Nat) (nfa : NFA) (m : String),
      compileExactly useq nfa h n ≠ .error (.unsupported m) := by
  intro n nfa
  cases n with
  | zero =>
    intro m
    simp only [compileExactly]
    intro hcon
    cases hcon
  | succ n =>
    simp only [compileExactly]
    exact notUnsup_bind (hno nfa)
      (fun a => compileExactlyGo_nu useq h hno n a.1 a.2.start a.2.stop)

theorem compileZoGo_nu (useq : Nat → Nat → List (List (Nat × Nat)))
    (h : Hir) (hno : NoUnsup useq h) :
    ∀ (k : Nat) (g : Bool) (nfa : NFA) (s t : Nat) (m : String),
      compileZoGo useq nfa h g k s t ≠ .error (.unsupported m) := by
  intro k
  induction k with
  | zero =>
    intro g nfa s t m
    simp only [compileZoGo]
    intro hcon
    cases hcon
  | succ k ih =>
    intro g nfa s t
    simp only [compileZoGo]
    exact notUnsup_bind (compileZeroOrOne_nu useq h hno g nfa)
      (fun a => ih g (patch a.1 t a.2.start) s a.2.stop)

theorem compileZoChain_nu (useq : Nat → Nat → List (List (Nat × Nat)))
    (h : Hir) (hno : NoUnsup useq h) :
    ∀ (c : Nat) (g : Bool) (nfa : NFA) (m : String),
      compileZoChain useq nfa h g c ≠ .error (.unsupported m) := by
  intro c g nfa
  cases c with
  | zero =>
    intro m
    simp only [compileZoChain]
    intro hcon
    cases hcon
  | succ k =>
    simp only [compileZoChain]
    exact notUnsup_bind (compileZeroOrOne_nu useq h hno g nfa)
      (fun a => compileZoGo_nu useq h hno k g a.1 a.2.start a.2.stop)

theorem compileBounded_nu (useq : Nat → Nat → List (List (Nat × Nat)))
    (h : Hir) (hno : NoUnsup useq h) :
    ∀ (g : Bool) (mm n : Nat) (nfa : NFA) (m : String),
      compileBounded useq nfa h g mm n ≠ .error (.unsupported m) := by
  intro g mm n nfa
  rw [compileBounded]
  refine notUnsup_bind (compileExactly_nu useq h hno mm nfa) (fun a m => ?_)
  obtain ⟨nfa1, pre⟩ := a
  simp only []
  by_cases hmn : mm = n
  · rw [if_pos hmn]
    intro hcon
    cases hcon
  · rw [if_neg hmn]
    exact notUnsup_bind (compileZoChain_nu useq h hno (n - mm) g nfa1)
      (fun b m' hcon => Except.noConfusion hcon) m

theorem compileAtLeast_nu (useq : Nat → Nat → List (List (Nat × Nat)))
    (h : Hir) (hno : NoUnsup useq h) :
    ∀ (g : Bool) (n : Nat) (nfa : NFA) (m : String),
      compileAtLeast useq nfa h g n ≠ .error (.unsupported m) := by
  intro g n nfa
  by_cases hn0 : n = 0
  · rcases hp : (if g = true then addUnion nfa else addReverseUnion nfa)
      with ⟨nfa1, uni⟩
    rw [compileAtLeast, if_pos hn0, hp]
    simp only []
    exact notUnsup_bind (hno nfa1) (fun a m hcon => Except.noConfusion hcon)
  · by_cases hn1 : n = 1
    · rw [compileAtLeast, if_neg hn0, if_pos hn1]
      exact notUnsup_bind (hno nfa) (fun a m hcon => Except.noConfusion hcon)
    · rw [compileAtLeast, if_neg hn0, if_neg hn1]
      exact notUnsup_bind (compileExactly_nu useq h hno (n - 1) nfa)
        (fun a => notUnsup_bind (hno a.1)
          (fun b m hcon => Except.noConfusion hcon))

theorem compileConcatGo_nu (useq : Nat → Nat → List (List (Nat × Nat))) :
    ∀ (hs : List Hir), (∀ h ∈ hs, NoUnsup useq h) →
      ∀ (nfa : NFA) (s t : Nat) (m : String),
        compileConcatGo useq nfa hs s t ≠ .error (.unsupported m) := by
  intro hs
  induction hs with
  | nil =>
    intro _ nfa s t m
    simp only [compileConcatGo]
    intro hcon
    cases hcon
  | cons h rest ih =>
    intro hall nfa s t
    simp only [compileConcatGo]
    exact notUnsup_bind (hall h (by simp) nfa)
      (fun a => ih (fun h' hm => hall h' (by simp [hm]))
        (patch a.1 t a.2.start) s a.2.stop)

theorem compileConcatList_nu (useq : Nat → Nat → List (List (Nat × Nat)))
    (hs : List Hir) (hall : ∀ h ∈ hs, NoUnsup useq h) :
    ∀ (nfa : NFA) (m : String),
      compileConcatList useq nfa hs ≠ .error (.unsupported m) := by
  cases hs with
  | nil =>
    intro nfa m
    simp only [compileConcatList]
    intro hcon
    cases hcon
  | cons h rest =>
    intro nfa
    simp only [compileConcatList]
    exact notUnsup_bind (hall h (by simp) nfa)
      (fun a => compileConcatGo_nu useq rest
        (fun h' hm => hall h' (by simp [hm])) a.1 a.2.start a.2.stop)

theorem compileAltGo_nu (useq : Nat → Nat → List (List (Nat × Nat))) :
    ∀ (hs : List Hir), (∀ h ∈ hs, NoUnsup useq h) →
      ∀ (nfa : NFA) (uni : Nat) (ends : List Nat) (m : String),
        compileAltGo useq nfa hs uni ends ≠ .error (.unsupported m) := by
  intro hs
  induction hs with
  | nil =>
    intro _ nfa uni ends
    simp only [compileAltGo]
    exact finishAlternation_notUnsup nfa uni ends
  | cons h rest ih =>
    intro hall nfa uni ends
    simp only [compileAltGo]
    exact notUnsup_bind (hall h (by simp) nfa)
      (fun a => ih (fun h' hm => hall h' (by simp [hm]))
        (patch a.1 uni a.2.start) uni (ends ++ [a.2.stop]))

theorem compileAltList_nu (useq : Nat → Nat → List (List (Nat × Nat)))
    (hs : List Hir) (hall : ∀ h ∈ hs, NoUnsup useq h) :
    ∀ (nfa : NFA) (m : String),
      compileAltList useq nfa hs ≠ .error (.unsupported m) := by
  intro nfa
  simp only [compileAltList]
  exact compileAltGo_nu useq hs hall (addUnion nfa).1 (addUnion nfa).2 []

theorem hasAnchorOrWBList_false {hs : List Hir}
    (h : hasAnchorOrWBList hs = false) : ∀ x ∈ hs, hasAnchorOrWB x = false := by
  induction hs with
  | nil => intro x hx; cases hx
  | cons a rest ih =>
    simp only [hasAnchorOrWBList, Bool.or_eq_false_iff] at h
    intro x hx
    rcases List.mem_cons.mp hx with hx | hx
    · rw [hx]; exact h.1
    · exact ih h.2 x hx

theorem visitsAnchorOrWBList_false {hs : List Hir}
    (h : visitsAnchorOrWBList hs = false) :
    ∀ x ∈ hs, visitsAnchorOrWB x = false := by
  induction hs with
  | nil => intro x hx; cases hx
  | cons a rest ih =>
    simp only [visitsAnchorOrWBList, Bool.or_eq_false_iff] at h
    intro x hx
    rcases List.mem_cons.mp hx with hx | hx
    · rw [hx]; exact h.1
    · exact ih h.2 x hx

theorem wfHirList_mem {hs : List Hir} (h : wfHirList hs = true) :
    ∀ x ∈ hs, wfHir x = true := by
  induction hs with
  | nil => intro x hx; cases hx
  | cons a rest ih =>
    simp only [wfHirList, Bool.and_eq_true] at h
    intro x hx
    rcases List.mem_cons.mp hx with hx | hx
    · rw [hx]; exact h.1
    · exact ih h.2 x hx

/-- No anchors or word boundaries anywhere: `compile` never reports an
unsupported construct (it may still fail with an assertion violation). -/
theorem compile_noUnsup (useq : Nat → Nat → List (List (Nat × Nat))) :
    ∀ (N : Nat) (e : Hir), sizeOf e < N → hasAnchorOrWB e = false →
      NoUnsup useq e := by
  intro N
  induction N with
  | zero => intro e he; exact absurd he (by omega)
  | succ N ih =>
    intro e he hfree
    cases e with
    | hempty =>
      intro nfa m
      simp only [compile, addEmpty]
      intro hcon
      cases hcon
    | litU c =>
      intro nfa m
      simp only [compile]
      intro hcon
      cases hcon
    | litB b =>
      intro nfa m
      simp only [compile]
      intro hcon
      cases hcon
    | classB rs =>
      intro nfa m
      simp only [compile]
      exact compileClassBytes_nu nfa rs m
    | classU rs =>
      intro nfa m
      simp only [compile]
      exact compileClassUnicode_nu useq nfa rs m
    | rep k g h =>
      have hfh : hasAnchorOrWB h = false := by
        simpa only [hasAnchorOrWB] using hfree
      have hszh : sizeOf h < N := by
        have hspec : sizeOf (Hir.rep k g h) = 1 + sizeOf k + sizeOf g + sizeOf h :=
          Hir.rep.sizeOf_spec k g h
        omega
      have hno := ih h hszh hfh
      intro nfa m
      cases k with
      | zeroOrOne =>
        simp only [compile]
        exact compileZeroOrOne_nu useq h hno g nfa m
      | zeroOrMore =>
        simp only [compile]
        exact compileAtLeast_nu useq h hno g 0 nfa m
      | oneOrMore =>
        simp only [compile]
        exact compileAtLeast_nu useq h hno g 1 nfa m
      | exactly n =>
        simp only [compile]
        exact compileExactly_nu useq h hno n nfa m
      | atLeast n =>
        simp only [compile]
        exact compileAtLeast_nu useq h hno g n nfa m
      | bounded mm nn =>
        simp only [compile]
        exact compileBounded_nu useq h hno g mm nn nfa m
    | group h =>
      have hfh : hasAnchorOrWB h = false := by
        simpa only [hasAnchorOrWB] using hfree
      have hszh : sizeOf h < N := by
        have hspec : sizeOf (Hir.group h) = 1 + sizeOf h :=
          Hir.group.sizeOf_spec h
        omega
      intro nfa m
      simp only [compile]
      exact ih h hszh hfh nfa m
    | concat hs =>
      have hfl : hasAnchorOrWBList hs = false := by
        simpa only [hasAnchorOrWB] using hfree
      have hall : ∀ x ∈ hs, NoUnsup useq x := by
        intro x hx
        have hsx : sizeOf x < sizeOf hs := List.sizeOf_lt_of_mem hx
        have hspec : sizeOf (Hir.concat hs) = 1 + sizeOf hs :=
          Hir.concat.sizeOf_spec hs
        exact ih x (by omega) (hasAnchorOrWBList_false hfl x hx)
      intro nfa m
      simp only [compile]
      exact compileConcatList_nu useq hs hall nfa m
    | alternation hs =>
      have hfl : hasAnchorOrWBList hs = false := by
        simpa only [hasAnchorOrWB] using hfree
      have hall : ∀ x ∈ hs, NoUnsup useq x := by
        intro x hx
        have hsx : sizeOf x < sizeOf hs := List.sizeOf_lt_of_mem hx
        have hspec : sizeOf (Hir.alternation hs) = 1 + sizeOf hs :=
          Hir.alternation.sizeOf_spec hs
        exact ih x (by omega) (hasAnchorOrWBList_false hfl x hx)
      intro nfa m
      simp only [compile]
      exact compileAltList_nu useq hs hall nfa m
    | anchor =>
      simp only [hasAnchorOrWB] at hfree
      exact absurd hfree (by decide)
    | wordB =>
      simp only [hasAnchorOrWB] at hfree
      exact absurd hfree (by decide)

/-- Classification of compilation on well-formed patterns: a pattern whose
visited positions are anchor-free always compiles; a pattern with a visited
anchor or word boundary always fails with an unsupported-construct error. -/
theorem compile_wf_classify (useq : Nat → Nat → List (List (Nat × Nat)))
    (hU : ∀ a b, useq a b ≠ []) :
    ∀ (N : Nat) (e : Hir), sizeOf e < N → wfHir e = true →
      (visitsAnchorOrWB e = false → OkAll useq e) ∧
      (visitsAnchorOrWB e = true → ErrUnsup useq e) := by
  intro N
  induction N with
  | zero => intro e he; exact absurd he (by omega)
  | succ N ih =>
    intro e he hwf
    cases e with
    | hempty =>
      constructor
      · intro _ nfa
        rw [compile]
        simp only [addEmpty]
        exact ⟨_, rfl⟩
      · intro hv
        simp only [visitsAnchorOrWB] at hv
        exact absurd hv (by decide)
    | litU c =>
      constructor
      · intro _ nfa
        rw [compile]
        exact ⟨_, rfl⟩
      · intro hv
        simp only [visitsAnchorOrWB] at hv
        exact absurd hv (by decide)
    | litB b =>
      constructor
      · intro _ nfa
        rw [compile]
        exact ⟨_, rfl⟩
      · intro hv
        simp only [visitsAnchorOrWB] at hv
        exact absurd hv (by decide)
    | classB rs =>
      have hne : rs ≠ [] := by
        simp only [wfHir, Bool.not_eq_true'] at hwf
        exact fun hn => by rw [hn] at hwf; cases hwf
      constructor
      · intro _ nfa
        simp only [compile]
        exact compileClassBytes_ok nfa rs hne
      · intro hv
        simp only [visitsAnchorOrWB] at hv
        exact absurd hv (by decide)
    | classU rs =>
      have hne : rs ≠ [] := by
        simp only [wfHir, Bool.not_eq_true'] at hwf
        exact fun hn => by rw [hn] at hwf; cases hwf
      constructor
      · intro _ nfa
        simp only [compile]
        exact compileClassUnicode_ok useq hU nfa rs hne
      · intro hv
        simp only [visitsAnchorOrWB] at hv
        exact absurd hv (by decide)
    | rep k g h =>
      have hwfh : wfHir h = true := by simpa only [wfHir] using hwf
      have hszh : sizeOf h < N := by
        have hspec : sizeOf (Hir.rep k g h)
            = 1 + sizeOf k + sizeOf g + sizeOf h := Hir.rep.sizeOf_spec k g h
        omega
      obtain ⟨hokImp, herrImp⟩ := ih h hszh hwfh
      cases k with
      | zeroOrOne =>
        constructor
        · intro hv nfa
          simp only [visitsAnchorOrWB] at hv
          simp only [compile]
          exact compileZeroOrOne_ok useq h (hokImp hv) g nfa
        · intro hv nfa
          simp only [visitsAnchorOrWB] at hv
          simp only [compile]
          exact compileZeroOrOne_err useq h (herrImp hv) g nfa
      | zeroOrMore =>
        constructor
        · intro hv nfa
          simp only [visitsAnchorOrWB] at hv
          simp only [compile]
          exact compileAtLeast_ok useq h (hokImp hv) g 0 nfa
        · intro hv nfa
          simp only [visitsAnchorOrWB] at hv
          simp only [compile]
          exact compileAtLeast_err useq h (herrImp hv) g 0 nfa
      | oneOrMore =>
        constructor
        · intro hv nfa
          simp only [visitsAnchorOrWB] at hv
          simp only [compile]
          exact compileAtLeast_ok useq h (hokImp hv) g 1 nfa
        · intro hv nfa
          simp only [visitsAnchorOrWB] at hv
          simp only [compile]
          exact compileAtLeast_err useq h (herrImp hv) g 1 nfa
      | exactly n =>
        cases n with
        | zero =>
          constructor
          · intro _ nfa
            simp only [compile]
            refine ⟨compileEmpty nfa, ?_⟩
            simp only [compileExactly]
          · intro hv
            simp only [visitsAnchorOrWB] at hv
            exact absurd hv (by decide)
        | succ n =>
          constructor
          · intro hv nfa
            simp only [visitsAnchorOrWB] at hv
            simp only [compile]
            exact compileExactly_ok useq h (hokImp hv) (n + 1) nfa
          · intro hv nfa
            simp only [visitsAnchorOrWB] at hv
            simp only [compile]
            exact compileExactly_err useq h (herrImp hv) (n + 1) (by omega) nfa
      | atLeast n =>
        constructor
        · intro hv nfa
          simp only [visitsAnchorOrWB] at hv
          simp only [compile]
          exact compileAtLeast_ok useq h (hokImp hv) g n nfa
        · intro hv nfa
          simp only [visitsAnchorOrWB] at hv
          simp only [compile]
          exact compileAtLeast_err useq h (herrImp hv) g n nfa
      | bounded mm nn =>
        constructor
        · intro hv
          simp only [visitsAnchorOrWB, Bool.and_eq_false_iff] at hv
          rcases hv with hv | hv
          · have hmm : mm = 0 ∧ ¬(mm < nn) := by
              simp only [Bool.or_eq_false_iff, decide_eq_false_iff_not] at hv
              omega
            intro nfa
            simp only [compile]
            rw [compileBounded]
            have hex0 : compileExactly useq nfa h 0 = .ok (compileEmpty nfa) := by
              simp only [compileExactly]
            rw [hmm.1, hex0]
            simp only [exceptOk_bind]
            have hnn : (0 : Nat) = nn := by omega
            rw [if_pos hnn]
            exact ⟨_, rfl⟩
          · intro nfa
            simp only [compile]
            exact compileBounded_ok useq h (hokImp hv) g mm nn nfa
        · intro hv
          simp only [visitsAnchorOrWB, Bool.and_eq_true] at hv
          have hcond : 0 < mm ∨ mm < nn := by
            have h1 := hv.1
            simp only [Bool.or_eq_true, decide_eq_true_eq] at h1
            exact h1
          intro nfa
          simp only [compile]
          exact compileBounded_err useq h (herrImp hv.2) g mm nn hcond nfa
    | group h =>
      have hwfh : wfHir h = true := by simpa only [wfHir] using hwf
      have hszh : sizeOf h < N := by
        have hspec : sizeOf (Hir.group h) = 1 + sizeOf h :=
          Hir.group.sizeOf_spec h
        omega
      obtain ⟨hokImp, herrImp⟩ := ih h hszh hwfh
      constructor
      · intro hv nfa
        simp only [visitsAnchorOrWB] at hv
        simp only [compile]
        obtain ⟨r, hr⟩ := hokImp hv nfa
        exact ⟨r, hr⟩
      · intro hv nfa
        simp only [visitsAnchorOrWB] at hv
        simp only [compile]
        obtain ⟨m, hm⟩ := herrImp hv nfa
        exact ⟨m, hm⟩
    | concat hs =>
      have hwfl : wfHirList hs = true := by simpa only [wfHir] using hwf
      have hall : ∀ x ∈ hs, (visitsAnchorOrWB x = false → OkAll useq x) ∧
          (visitsAnchorOrWB x = true → ErrUnsup useq x) := by
        intro x hx
        have hsx : sizeOf x < sizeOf hs := List.sizeOf_lt_of_mem hx
        have hspec : sizeOf (Hir.concat hs) = 1 + sizeOf hs :=
          Hir.concat.sizeOf_spec hs
        exact ih x (by omega) (wfHirList_mem hwfl x hx)
      constructor
      · intro hv nfa
        simp only [visitsAnchorOrWB] at hv
        simp only [compile]
        exact compileConcatList_ok useq hs
          (fun x hx => (hall x hx).1 (visitsAnchorOrWBList_false hv x hx)) nfa
      · intro hv nfa
        simp only [visitsAnchorOrWB] at hv
        simp only [compile]
        exact compileConcatList_err useq hs hall hv nfa
    | alternation hs =>
      have hwf2 : ¬hs.isEmpty ∧ wfHirList hs = true := by
        simp only [wfHir, Bool.and_eq_true, Bool.not_eq_true'] at hwf
        exact ⟨by rw [hwf.1]; exact Bool.false_ne_true, hwf.2⟩
      have hne : hs ≠ [] := by
        intro hn
        rw [hn] at hwf2
        exact hwf2.1 rfl
      have hall : ∀ x ∈ hs, (visitsAnchorOrWB x = false → OkAll useq x) ∧
          (visitsAnchorOrWB x = true → ErrUnsup useq x) := by
        intro x hx
        have hsx : sizeOf x < sizeOf hs := List.sizeOf_lt_of_mem hx
        have hspec : sizeOf (Hir.alternation hs) = 1 + sizeOf hs :=
          Hir.alternation.sizeOf_spec hs
        exact ih x (by omega) (wfHirList_mem hwf2.2 x hx)
      constructor
      · intro hv nfa
        simp only [visitsAnchorOrWB] at hv
        simp only [compile]
        exact compileAltList_ok useq hs
          (fun x hx => (hall x hx).1 (visitsAnchorOrWBList_false hv x hx))
          hne nfa
      · intro hv nfa
        simp only [visitsAnchorOrWB] at hv
        simp only [compile]
        exact compileAltList_err useq hs hall hv nfa
    | anchor =>
      constructor
      · intro hv
        simp only [visitsAnchorOrWB] at hv
        exact absurd hv (by decide)
      · intro _ nfa
        rw [compile]
        exact ⟨_, rfl⟩
    | wordB =>
      constructor
      · intro hv
        simp only [visitsAnchorOrWB] at hv
        exact absurd hv (by decide)
      · intro _ nfa
        rw [compile]
        exact ⟨_, rfl⟩

/-- A degenerate but admissible UTF-8 sequence collaborator: one byte-range
sequence per scalar range. -/
def useqOne : Nat → Nat → List (List (Nat × Nat)) := fun a b => [[(a, b)]]

/-- C6 (amended): for every well-formed pattern (non-empty alternations and
classes, every scalar range covered by at least one byte sequence) holding
an anchor or word-boundary assertion at a position compilation visits,
`NFA::from_hir` returns an unsupported-construct error and produces no
automaton; and for every pattern free of anchors and word boundaries,
compilation never reports an unsupported construct. -/
theorem compile_errors_on_visited_anchors
    (useq : Nat → Nat → List (List (Nat × Nat))) (hU : ∀ a b, useq a b ≠ [])
    (e : Hir) :
    (wfHir e = true → visitsAnchorOrWB e = true →
      ∃ msg, fromHir useq e = .error (.unsupported msg)) ∧
    (hasAnchorOrWB e = false →
      ∀ msg, fromHir useq e ≠ .error (.unsupported msg)) := by
  constructor
  · intro hwf hv
    obtain ⟨m, hm⟩ := (compile_wf_classify useq hU (sizeOf e + 1) e
      (by omega) hwf).2 hv ([] ++ [.emptyS 0])
    rw [fromHir]
    simp only [addEmpty]
    rw [hm]
    exact ⟨m, exceptError_bind _ _⟩
  · intro hfree msg
    rw [fromHir]
    simp only [addEmpty]
    apply notUnsup_bind
    · exact compile_noUnsup useq (sizeOf e + 1) e (by omega) hfree
        ([] ++ [.emptyS 0])
    · intro a m hcon
      obtain ⟨nfa1, c⟩ := a
      exact Except.noConfusion hcon

theorem compile_errors_on_visited_anchors_witness :
    (wfHir (Hir.concat [Hir.litU 97, Hir.anchor]) = true →
      visitsAnchorOrWB (Hir.concat [Hir.litU 97, Hir.anchor]) = true →
      ∃ msg, fromHir useqOne (Hir.concat [Hir.litU 97, Hir.anchor])
        = .error (.unsupported msg)) ∧
    (hasAnchorOrWB (Hir.concat [Hir.litU 97, Hir.anchor]) = false →
      ∀ msg, fromHir useqOne (Hir.concat [Hir.litU 97, Hir.anchor])
        ≠ .error (.unsupported msg)) :=
  compile_errors_on_visited_anchors useqOne
    (fun a b => List.cons_ne_nil _ _) (Hir.concat [Hir.litU 97, Hir.anchor])

/-! ### Sortedness of the minimizer's partition blocks -/

theorem interGo_sublist :
    ∀ (fuel : Nat) (ra : List Nat) (a : Nat) (rb : List Nat) (b : Nat)
      (acc : List Nat),
      ∃ l, interGo fuel ra a rb b acc = acc ++ l ∧ l.Sublist (a :: ra) := by
  intro fuel
  induction fuel with
  | zero =>
    intro ra a rb b acc
    exact ⟨[], by simp [interGo], List.nil_sublist _⟩
  | succ fuel ih =>
    intro ra a rb b acc
    by_cases hab : a = b
    · cases ra with
      | nil =>
        refine ⟨[a], ?_, List.Sublist.refl _⟩
        simp only [interGo, if_pos hab]
      | cons a' ra' =>
        cases rb with
        | nil =>
          refine ⟨[a], ?_, by
            exact (List.singleton_sublist.mpr (by simp))⟩
          simp only [interGo, if_pos hab]
        | cons b' rb' =>
          obtain ⟨l', hl', hs'⟩ := ih ra' a' rb' b' (acc ++ [a])
          refine ⟨a :: l', ?_, List.Sublist.cons₂ a hs'⟩
          simp only [interGo, if_pos hab]
          rw [hl', List.append_assoc]
          rfl
    · by_cases hlt : a < b
      · cases ra with
        | nil =>
          refine ⟨[], ?_, List.nil_sublist _⟩
          simp only [interGo, if_neg hab, if_pos hlt]
          rw [List.append_nil]
        | cons a' ra' =>
          obtain ⟨l', hl', hs'⟩ := ih ra' a' rb b acc
          refine ⟨l', ?_, List.Sublist.cons a hs'⟩
          simp only [interGo, if_neg hab, if_pos hlt]
          exact hl'
      · cases rb with
        | nil =>
          refine ⟨[], ?_, List.nil_sublist _⟩
          simp only [interGo, if_neg hab, if_neg hlt]
          rw [List.append_nil]
        | cons b' rb' =>
          obtain ⟨l', hl', hs'⟩ := ih ra a rb' b' acc
          refine ⟨l', ?_, hs'⟩
          simp only [interGo, if_neg hab, if_neg hlt]
          exact hl'

theorem subGo_sublist :
    ∀ (fuel : Nat) (ra : List Nat) (a : Nat) (rb : List Nat) (b : Nat)
      (acc : List Nat),
      ∃ l, subGo fuel ra a rb b acc = acc ++ l ∧ l.Sublist (a :: ra) := by
  intro fuel
  induction fuel with
  | zero =>
    intro ra a rb b acc
    exact ⟨[], by simp [subGo], List.nil_sublist _⟩
  | succ fuel ih =>
    intro ra a rb b acc
    by_cases hab : a = b
    · cases ra with
      | nil =>
        refine ⟨[], ?_, List.nil_sublist _⟩
        simp only [subGo, if_pos hab]
        rw [List.append_nil]
      | cons a' ra' =>
        cases rb with
        | nil =>
          refine ⟨a' :: ra', ?_, List.Sublist.cons a (List.Sublist.refl _)⟩
          simp only [subGo, if_pos hab]
          rw [List.append_assoc]
          rfl
        | cons b' rb' =>
          obtain ⟨l', hl', hs'⟩ := ih ra' a' rb' b' acc
          refine ⟨l', ?_, List.Sublist.cons a hs'⟩
          simp only [subGo, if_pos hab]
          exact hl'
    · by_cases hlt : a < b
      · cases ra with
        | nil =>
          refine ⟨[a], ?_, List.Sublist.refl _⟩
          simp only [subGo, if_neg hab, if_pos hlt]
        | cons a' ra' =>
          obtain ⟨l', hl', hs'⟩ := ih ra' a' rb b (acc ++ [a])
          refine ⟨a :: l', ?_, List.Sublist.cons₂ a hs'⟩
          simp only [subGo, if_neg hab, if_pos hlt]
          rw [hl', List.append_assoc]
          rfl
      · cases rb with
        | nil =>
          refine ⟨a :: ra, ?_, List.Sublist.refl _⟩
          simp only [subGo, if_neg hab, if_neg hlt]
          rw [List.append_assoc]
          rfl
        | cons b' rb' =>
          obtain ⟨l', hl', hs'⟩ := ih ra a rb' b' acc
          refine ⟨l', ?_, hs'⟩
          simp only [subGo, if_neg hab, if_neg hlt]
          exact hl'

theorem intersectionL_sublist (x y : List Nat) :
    (intersectionL x y).Sublist x := by
  cases x with
  | nil => simp [intersectionL]
  | cons a ra =>
    cases y with
    | nil => simp [intersectionL]
    | cons b rb =>
      obtain ⟨l, hl, hs⟩ := interGo_sublist (ra.length + rb.length + 1)
        ra a rb b []
      simp only [intersectionL]
      rw [hl]
      simpa using hs

theorem subtractL_sublist (x y : List Nat) :
    (subtractL x y).Sublist x := by
  cases x with
  | nil => simp [subtractL]
  | cons a ra =>
    cases y with
    | nil => simp [subtractL]
    | cons b rb =>
      obtain ⟨l, hl, hs⟩ := subGo_sublist (ra.length + rb.length + 1)
        ra a rb b []
      simp only [subtractL]
      rw [hl]
      simpa using hs

theorem initialPartitions_sorted (dfa : DFA) (parts : List (List Nat))
    (h : initialPartitions dfa = some parts) :
    ∀ p ∈ parts, p.Pairwise (· < ·) := by
  have hM : ((List.range dfa.states.length).filter
      (fun i => matchOf dfa i)).Pairwise (· < ·) :=
    (List.pairwise_lt_range _).filter _
  have hN : ((List.range dfa.states.length).filter
      (fun i => !(matchOf dfa i))).Pairwise (· < ·) :=
    (List.pairwise_lt_range _).filter _
  unfold initialPartitions at h
  rw [initPartFold dfa _ [] []] at h
  simp only [List.nil_append] at h
  split at h
  · cases h
  · split at h
    · injection h with h
      intro p hp
      rw [← h] at hp
      rw [List.mem_singleton.mp hp]
      exact hM
    · split at h
      · injection h with h
        intro p hp
        rw [← h] at hp
        rcases List.mem_cons.mp hp with hp | hp
        · rw [hp]; exact hN
        · rw [List.mem_singleton.mp hp]; exact hM
      · injection h with h
        intro p hp
        rw [← h] at hp
        rcases List.mem_cons.mp hp with hp | hp
        · rw [hp]; exact hM
        · rw [List.mem_singleton.mp hp]; exact hN

theorem refineStep_sorted (incoming : List Nat)
    (acc : List (List Nat) × List (List Nat)) (p : List Nat)
    (hacc1 : ∀ q ∈ acc.1, q.Pairwise (· < ·))
    (hacc2 : ∀ q ∈ acc.2, q.Pairwise (· < ·))
    (hp : p.Pairwise (· < ·)) :
    (∀ q ∈ (refineStep incoming acc p).1, q.Pairwise (· < ·)) ∧
    (∀ q ∈ (refineStep incoming acc p).2, q.Pairwise (· < ·)) := by
  obtain ⟨newparts, waiting⟩ := acc
  have hx : (intersectionL p incoming).Pairwise (· < ·) :=
    hp.sublist (intersectionL_sublist p incoming)
  have hy : (subtractL p incoming).Pairwise (· < ·) :=
    hp.sublist (subtractL_sublist p incoming)
  unfold refineStep
  simp only []
  split
  · constructor
    · intro q hq
      rcases List.mem_append.mp hq with hq | hq
      · exact hacc1 q hq
      · rw [List.mem_singleton.mp hq]; exact hp
    · exact hacc2
  · split
    · constructor
      · intro q hq
        rcases List.mem_append.mp hq with hq | hq
        · exact hacc1 q hq
        · rw [List.mem_singleton.mp hq]; exact hp
      · exact hacc2
    · constructor
      · intro q hq
        rcases List.mem_append.mp hq with hq | hq
        · exact hacc1 q hq
        · rcases List.mem_cons.mp hq with hq | hq
          · rw [hq]; exact hx
          · rw [List.mem_singleton.mp hq]; exact hy
      · split
        · intro q hq
          rcases List.mem_append.mp hq with hq | hq
          · rcases List.mem_or_eq_of_mem_set hq with hq | hq
            · exact hacc2 q hq
            · rw [hq]; exact hx
          · rw [List.mem_singleton.mp hq]; exact hy
        · intro q hq
          rcases List.mem_append.mp hq with hq | hq
          · exact hacc2 q hq
          · rw [List.mem_singleton.mp hq]
            split
            · exact hx
            · exact hy

theorem foldl_preserve {α β : Type} (P : β → Prop) (f : β → α → β)
    (hf : ∀ (b : β) (a : α), P b → P (f b a)) :
    ∀ (l : List α) (b : β), P b → P (l.foldl f b) := by
  intro l
  induction l with
  | nil => intro b hb; exact hb
  | cons a rest ih =>
    intro b hb
    rw [List.foldl_cons]
    exact ih (f b a) (hf b a hb)

theorem refineFold_sorted (incoming : List Nat) :
    ∀ (ps : List (List Nat)) (acc : List (List Nat) × List (List Nat)),
      (∀ q ∈ acc.1, q.Pairwise (· < ·)) →
      (∀ q ∈ acc.2, q.Pairwise (· < ·)) →
      (∀ p ∈ ps, p.Pairwise (· < ·)) →
      (∀ q ∈ (ps.foldl (refineStep incoming) acc).1, q.Pairwise (· < ·)) ∧
      (∀ q ∈ (ps.foldl (refineStep incoming) acc).2, q.Pairwise (· < ·)) := by
  intro ps
  induction ps with
  | nil => intro acc h1 h2 _; exact ⟨h1, h2⟩
  | cons p rest ih =>
    intro acc h1 h2 hps
    rw [List.foldl_cons]
    obtain ⟨h1', h2'⟩ := refineStep_sorted incoming acc p h1 h2
      (hps p (by simp))
    exact ih _ h1' h2' (fun q hq => hps q (by simp [hq]))

theorem byteStep_sorted (inT : List (List (List Nat))) (set : List Nat)
    (pw : List (List Nat) × List (List Nat)) (b : Nat)
    (h1 : ∀ q ∈ pw.1, q.Pairwise (· < ·))
    (h2 : ∀ q ∈ pw.2, q.Pairwise (· < ·)) :
    (∀ q ∈ (byteStep inT set pw b).1, q.Pairwise (· < ·)) ∧
    (∀ q ∈ (byteStep inT set pw b).2, q.Pairwise (· < ·)) := by
  unfold byteStep
  exact refineFold_sorted _ pw.1 ([], pw.2) (fun q hq => nomatch hq) h2 h1

theorem minLoop_sorted (inT : List (List (List Nat))) :
    ∀ (fuel : Nat) (parts waiting : List (List Nat))
      (out : List (List Nat)),
      (∀ p ∈ parts, p.Pairwise (· < ·)) →
      (∀ p ∈ waiting, p.Pairwise (· < ·)) →
      minLoop inT fuel parts waiting = some out →
      ∀ p ∈ out, p.Pairwise (· < ·) := by
  intro fuel
  induction fuel with
  | zero =>
    intro parts waiting out hp hw h
    rw [minLoop] at h
    split at h
    · injection h with h
      rw [← h]
      exact hp
    · cases h
  | succ f ih =>
    intro parts waiting out hp hw h
    rw [minLoop] at h
    split at h
    · injection h with h
      rw [← h]
      exact hp
    · rename_i set hgl
      have hset : set.Pairwise (· < ·) :=
        hw set (List.mem_of_mem_getLast? hgl)
      have hfold := foldl_preserve
        (fun pw : List (List Nat) × List (List Nat) =>
          (∀ q ∈ pw.1, q.Pairwise (· < ·)) ∧
          (∀ q ∈ pw.2, q.Pairwise (· < ·)))
        (byteStep inT set)
        (fun pw b hb => byteStep_sorted inT set pw b hb.1 hb.2)
        (List.range ALPHABET_SIZE) (parts, waiting.dropLast)
        ⟨hp, fun q hq => hw q (List.dropLast_subset _ hq)⟩
      exact ih _ _ out hfold.1 hfold.2 h

/-! ### The renumbering phase keeps the dead state at id 0 -/

theorem sorted_head_zero {p : List Nat} (hp : p.Pairwise (· < ·))
    (h0 : 0 ∈ p) : p.headD 0 = 0 := by
  cases p with
  | nil => cases h0
  | cons a t =>
    rcases List.mem_cons.mp h0 with h | h
    · rw [← h]; rfl
    · have := (List.pairwise_cons.mp hp).1 0 h
      omega

theorem setFold_getD0 (v : Nat) :
    ∀ (l : List Nat) (arr : List Nat), (0 ∈ l → v = 0) →
      arr.getD 0 0 = 0 →
      ((l.foldl (fun arr id => arr.set id v) arr).getD 0 0) = 0 := by
  intro l
  induction l with
  | nil => intro arr _ h; exact h
  | cons id rest ih =>
    intro arr hv h
    rw [List.foldl_cons]
    apply ih _ (fun h0 => hv (by simp [h0]))
    by_cases hid : id = 0
    · rw [hid]
      have hv0 : v = 0 := hv (by rw [hid]; simp)
      rw [hv0]
      cases arr with
      | nil => rfl
      | cons a t => rfl
    · rw [List.getD_eq_getElem?_getD, List.getElem?_set_ne (by omega),
        ← List.getD_eq_getElem?_getD]
      exact h

theorem stpOf_getD0 (n : Nat) (parts : List (List Nat))
    (hsorted : ∀ p ∈ parts, p.Pairwise (· < ·)) :
    (stpOf n parts).getD 0 0 = 0 := by
  unfold stpOf
  have hgen : ∀ (ps : List (List Nat)) (arr : List Nat),
      (∀ p ∈ ps, p.Pairwise (· < ·)) → arr.getD 0 0 = 0 →
      ((ps.foldl
        (fun arr p => p.foldl (fun arr id => arr.set id (p.headD 0)) arr)
        arr).getD 0 0) = 0 := by
    intro ps
    induction ps with
    | nil => intro arr _ h; exact h
    | cons p rest ih =>
      intro arr hps h
      rw [List.foldl_cons]
      apply ih _ (fun q hq => hps q (by simp [hq]))
      exact setFold_getD0 (p.headD 0) p arr
        (fun h0 => sorted_head_zero (hps p (by simp)) h0) h
  apply hgen parts _ hsorted
  cases n with
  | zero => rfl
  | succ m => rfl

theorem getD_set_ne (l : List Nat) (i j v : Nat) (h : i ≠ j) :
    (l.set i v).getD j 0 = l.getD j 0 := by
  rw [List.getD_eq_getElem?_getD, List.getElem?_set_ne h,
    ← List.getD_eq_getElem?_getD]

theorem idsFoldGo (stp : List Nat) :
    ∀ (l : List Nat) (acc : List Nat × Nat),
      (∀ j ∈ l, 1 ≤ j) → 1 ≤ acc.2 →
      ((l.foldl (fun (acc : List Nat × Nat) id =>
          if stp.getD id 0 = id then (acc.1.set id acc.2, acc.2 + 1) else acc)
        acc).1.length = acc.1.length) ∧
      ((l.foldl (fun (acc : List Nat × Nat) id =>
          if stp.getD id 0 = id then (acc.1.set id acc.2, acc.2 + 1) else acc)
        acc).1.getD 0 0 = acc.1.getD 0 0) ∧
      (acc.2 ≤ (l.foldl (fun (acc : List Nat × Nat) id =>
          if stp.getD id 0 = id then (acc.1.set id acc.2, acc.2 + 1) else acc)
        acc).2) ∧
      (∀ j, 1 ≤ acc.1.getD j 0 →
        1 ≤ (l.foldl (fun (acc : List Nat × Nat) id =>
          if stp.getD id 0 = id then (acc.1.set id acc.2, acc.2 + 1) else acc)
        acc).1.getD j 0) ∧
      (∀ j ∈ l, stp.getD j 0 = j → j < acc.1.length →
        1 ≤ (l.foldl (fun (acc : List Nat × Nat) id =>
          if stp.getD id 0 = id then (acc.1.set id acc.2, acc.2 + 1) else acc)
        acc).1.getD j 0) := by
  intro l
  induction l with
  | nil =>
    intro acc _ h2
    exact ⟨rfl, rfl, le_refl _, fun j h => h, fun j hj => nomatch hj⟩
  | cons id rest ih =>
    intro acc hl h2
    have hid1 : 1 ≤ id := hl id (by simp)
    rw [List.foldl_cons]
    by_cases hrep : stp.getD id 0 = id
    · rw [if_pos hrep]
      obtain ⟨ihl, ih0, ih2, ihpos, ihmem⟩ :=
        ih (acc.1.set id acc.2, acc.2 + 1)
          (fun j hj => hl j (by simp [hj])) (by omega)
      refine ⟨?_, ?_, ?_, ?_, ?_⟩
      · rw [ihl]
        exact List.length_set acc.1 id acc.2
      · rw [ih0]
        exact getD_set_ne acc.1 id 0 acc.2 (by omega)
      · omega
      · intro j hj
        apply ihpos
        by_cases hji : j = id
        · rw [hji]
          by_cases hlt : id < acc.1.length
          · rw [List.getD_eq_getElem?_getD,
              List.getElem?_set_eq_of_lt acc.2 hlt]
            simpa using h2
          · rw [List.getD_eq_getElem?_getD, List.set_eq_of_length_le (by omega),
              ← List.getD_eq_getElem?_getD]
            rw [hji] at hj
            exact hj
        · rw [getD_set_ne acc.1 id j acc.2 (fun he => hji he.symm)]
          exact hj
      · intro j hj hjrep hjlt
        rcases List.mem_cons.mp hj with hj | hj
        · apply ihpos
          rw [hj, List.getD_eq_getElem?_getD,
            List.getElem?_set_eq_of_lt acc.2 (by omega)]
          simpa using h2
        · exact ihmem j hj hjrep (by
            rw [List.length_set]
            exact hjlt)
    · rw [if_neg hrep]
      obtain ⟨ihl, ih0, ih2, ihpos, ihmem⟩ :=
        ih acc (fun j hj => hl j (by simp [hj])) h2
      refine ⟨ihl, ih0, ih2, ihpos, ?_⟩
      intro j hj hjrep hjlt
      rcases List.mem_cons.mp hj with hj | hj
      · rw [hj] at hjrep
        exact absurd hjrep hrep
      · exact ihmem j hj hjrep hjlt

theorem minIdsOf_facts (n : Nat) (stp : List Nat) (hn : 0 < n)
    (h0 : stp.getD 0 0 = 0) :
    (minIdsOf n stp).1.getD 0 0 = 0 ∧
    1 ≤ (minIdsOf n stp).2 ∧
    (minIdsOf n stp).1.length = n ∧
    (∀ j, 1 ≤ j → j < n → stp.getD j 0 = j →
      1 ≤ (minIdsOf n stp).1.getD j 0) := by
  obtain ⟨m, rfl⟩ : ∃ m, n = m + 1 := ⟨n - 1, by omega⟩
  unfold minIdsOf
  rw [List.range_succ_eq_map, List.foldl_cons, if_pos h0]
  simp only []
  have hmem1 : ∀ j ∈ (List.range m).map Nat.succ, 1 ≤ j := by
    intro j hj
    obtain ⟨k, _, hk⟩ := List.mem_map.mp hj
    omega
  obtain ⟨ihl, ih0, ih2, ihpos, ihmem⟩ := idsFoldGo stp
    ((List.range m).map Nat.succ)
    ((List.replicate (m + 1) DFA_DEAD).set 0 0, 0 + 1) hmem1 (by omega)
  have hlen0 : ((List.replicate (m + 1) DFA_DEAD).set 0 0).length = m + 1 := by
    rw [List.length_set, List.length_replicate]
  refine ⟨?_, le_trans (by omega) ih2, by rw [ihl]; exact hlen0, ?_⟩
  · rw [ih0, List.getD_eq_getElem?_getD,
      List.getElem?_set_eq_of_lt 0
        (by rw [List.length_replicate]; omega)]
    rfl
  · intro j hj1 hjn hjrep
    apply ihmem j ?_ hjrep (by
      show j < ((List.replicate (m + 1) DFA_DEAD).set 0 0).length
      rw [hlen0]
      omega)
    rw [List.mem_map]
    exact ⟨j - 1, by rw [List.mem_range]; omega, by omega⟩

theorem listSwap_getElem0 {α : Type} (l : List α) (i j : Nat) (hi : i ≠ 0)
    (hj : j ≠ 0) : (listSwap l i j)[0]? = l[0]? := by
  unfold listSwap
  split
  · rename_i a b h1 h2
    rw [List.getElem?_set_ne (fun he => hj he),
      List.getElem?_set_ne (fun he => hi he)]
  · rfl

theorem listSwap_length {α : Type} (l : List α) (i j : Nat) :
    (listSwap l i j).length = l.length := by
  unfold listSwap
  split
  · rw [List.length_set, List.length_set]
  · rfl

theorem listSwap_zero_zero_getElem0 {α : Type} (l : List α) :
    (listSwap l 0 0)[0]? = l[0]? := by
  unfold listSwap
  split
  · rename_i a b h1 h2
    have hlt : 0 < (l.set 0 b).length := by
      rw [List.length_set]
      exact (List.getElem?_eq_some_iff.mp h1).1
    rw [List.getElem?_set_eq_of_lt a hlt, h1]
  · rfl

theorem statesFoldGo (stp minIds : List Nat) :
    ∀ (l : List Nat) (sts : List DFAState),
      (∀ j ∈ l, 1 ≤ j) →
      (∀ id ∈ l, stp.getD id 0 = id → 1 ≤ minIds.getD id 0) →
      sts[0]? = some DFAState.emptyS →
      ((l.foldl (fun (sts : List DFAState) id =>
          if stp.getD id 0 = id then
            listSwap (sts.set id
              { sts.getD id DFAState.emptyS with
                transitions := (sts.getD id DFAState.emptyS).transitions.map
                  (fun nxt => minIds.getD (stp.getD nxt 0) 0) })
              id (minIds.getD id 0)
          else sts) sts)[0]? = some DFAState.emptyS) := by
  intro l
  induction l with
  | nil => intro sts _ _ h; exact h
  | cons id rest ih =>
    intro sts hl hm h0
    rw [List.foldl_cons]
    by_cases hrep : stp.getD id 0 = id
    · rw [if_pos hrep]
      apply ih _ (fun j hj => hl j (by simp [hj]))
        (fun j hj => hm j (by simp [hj]))
      have hid1 : (1 : Nat) ≤ id := hl id (by simp)
      have hmid : 1 ≤ minIds.getD id 0 := hm id (by simp) hrep
      rw [listSwap_getElem0 _ _ _ (by omega) (by omega),
        List.getElem?_set_ne (by omega)]
      exact h0
    · rw [if_neg hrep]
      exact ih _ (fun j hj => hl j (by simp [hj]))
        (fun j hj => hm j (by simp [hj])) h0

theorem statesOf_state0 (n : Nat) (stp minIds : List Nat)
    (states : List DFAState) (hn : 0 < n)
    (hrep0 : stp.getD 0 0 = 0) (hm0 : minIds.getD 0 0 = 0)
    (hmpos : ∀ j, 1 ≤ j → j < n → stp.getD j 0 = j → 1 ≤ minIds.getD j 0)
    (h0 : states[0]? = some DFAState.emptyS) :
    (statesOf n stp minIds states)[0]? = some DFAState.emptyS := by
  obtain ⟨m, rfl⟩ : ∃ m, n = m + 1 := ⟨n - 1, by omega⟩
  have hg : states.getD 0 DFAState.emptyS = DFAState.emptyS := by
    rw [List.getD_eq_getElem?_getD, h0]
    rfl
  have hf0 : minIds.getD (stp.getD DFA_DEAD 0) 0 = DFA_DEAD := by
    show minIds.getD (stp.getD 0 0) 0 = 0
    rw [hrep0, hm0]
  have hcur : ({ states.getD 0 DFAState.emptyS with
      transitions := (states.getD 0 DFAState.emptyS).transitions.map
        (fun nxt => minIds.getD (stp.getD nxt 0) 0) } : DFAState)
      = DFAState.emptyS := by
    rw [hg]
    show (DFAState.mk false ((List.replicate ALPHABET_SIZE DFA_DEAD).map
        (fun nxt => minIds.getD (stp.getD nxt 0) 0)))
      = DFAState.emptyS
    rw [List.map_replicate, hf0]
    rfl
  have h0lt : 0 < states.length := (List.getElem?_eq_some_iff.mp h0).1
  have hinit : (listSwap (states.set 0
      ({ states.getD 0 DFAState.emptyS with
        transitions := (states.getD 0 DFAState.emptyS).transitions.map
          (fun nxt => minIds.getD (stp.getD nxt 0) 0) } : DFAState))
      0 (minIds.getD 0 0))[0]? = some DFAState.emptyS := by
    rw [hm0, listSwap_zero_zero_getElem0,
      List.getElem?_set_eq_of_lt _ h0lt, hcur]
  unfold statesOf
  rw [List.range_succ_eq_map, List.foldl_cons, if_pos hrep0]
  apply statesFoldGo stp minIds ((List.range m).map Nat.succ)
  · intro j hj
    obtain ⟨k, _, hk⟩ := List.mem_map.mp hj
    omega
  · intro j hj hjrep
    obtain ⟨k, hkm, hk⟩ := List.mem_map.mp hj
    exact hmpos j (by omega) (by rw [List.mem_range] at hkm; omega) hjrep
  · exact hinit

theorem rewritePhase_state0 (dfa : DFA) (parts : List (List Nat))
    (hsorted : ∀ p ∈ parts, p.Pairwise (· < ·))
    (hn : 0 < dfa.states.length)
    (h0 : dfa.states[0]? = some DFAState.emptyS) :
    (rewritePhase dfa parts).states[0]? = some DFAState.emptyS := by
  unfold rewritePhase
  simp only []
  have hstp0 := stpOf_getD0 dfa.states.length parts hsorted
  obtain ⟨hm0, hcnt, hmlen, hmpos⟩ :=
    minIdsOf_facts dfa.states.length (stpOf dfa.states.length parts) hn hstp0
  have hs0 := statesOf_state0 dfa.states.length (stpOf dfa.states.length parts)
    (minIdsOf dfa.states.length (stpOf dfa.states.length parts)).1
    dfa.states hn hstp0 hm0 hmpos h0
  rw [List.getElem?_take_of_lt (by omega), hs0]

theorem minimize_eq (dfa : DFA) (fuel : Nat) :
    minimize dfa fuel = (initialPartitions dfa).bind (fun parts =>
      (minLoop (inTransitions dfa) fuel parts [parts.headD []]).map
        (rewritePhase dfa)) := by
  unfold minimize
  cases h : initialPartitions dfa with
  | none => rfl
  | some parts =>
    show (minLoop (inTransitions dfa) fuel parts [parts.headD []]).bind
        (fun final => some (rewritePhase dfa final))
      = Option.map (rewritePhase dfa)
          (minLoop (inTransitions dfa) fuel parts [parts.headD []])
    cases minLoop (inTransitions dfa) fuel parts [parts.headD []] <;> rfl

/-- After a successful `minimize`, state 0 still holds the dead state. -/
theorem minimize_state0 (dfa : DFA) (fuel2 : Nat) (dmin : DFA)
    (hn : 0 < dfa.states.length)
    (h0 : dfa.states[0]? = some DFAState.emptyS)
    (hmin : minimize dfa fuel2 = some dmin) :
    dmin.states[0]? = some DFAState.emptyS := by
  rw [minimize_eq] at hmin
  cases hip : initialPartitions dfa with
  | none => rw [hip] at hmin; cases hmin
  | some parts =>
    rw [hip] at hmin
    simp only [Option.some_bind] at hmin
    cases hloop : minLoop (inTransitions dfa) fuel2 parts [parts.headD []] with
    | none => rw [hloop] at hmin; cases hmin
    | some final =>
      rw [hloop] at hmin
      injection hmin with hmin
      have hpsort := initialPartitions_sorted dfa parts hip
      have hwsort : ∀ p ∈ [parts.headD []], p.Pairwise (· < ·) := by
        intro p hp
        rw [List.mem_singleton.mp hp]
        cases parts with
        | nil => exact List.Pairwise.nil
        | cons q qs => exact hpsort q (by simp)
      have hfsort := minLoop_sorted (inTransitions dfa) fuel2 parts
        [parts.headD []] final hpsort hwsort hloop
      rw [← hmin]
      exact rewritePhase_state0 dfa final hfsort hn h0

/-- C5: in every DFA produced by subset construction state 0 is the dead
state — non-matching with every byte transition leading back to 0 — and
after every successful minimization of such a DFA, state 0 still holds the
dead state, non-matching and self-looping on every byte: the renumbering
never moves a different state into id 0. -/
theorem dead_state_zero_after_build_and_minimize
    (nfa : NFA) (fuel : Nat) (st : Builder)
    (hb : buildFull nfa fuel = some st) :
    (st.dfa.states[0]? = some DFAState.emptyS ∧
      matchOf st.dfa 0 = false ∧ ∀ b, transOf st.dfa 0 b = 0) ∧
    (∀ (fuel2 : Nat) (dmin : DFA), minimize st.dfa fuel2 = some dmin →
      dmin.states[0]? = some DFAState.emptyS ∧
      matchOf dmin 0 = false ∧ ∀ b, transOf dmin 0 b = 0) := by
  have inv := buildFull_inv nfa fuel hb
  have h0 := inv.state0
  constructor
  · refine ⟨h0, ?_, transOf_zero_of_state0 st.dfa h0⟩
    unfold matchOf
    rw [List.getD_eq_getElem?_getD, h0]
    rfl
  · intro fuel2 dmin hmin
    have hd0 : dmin.states[0]? = some DFAState.emptyS :=
      minimize_state0 st.dfa fuel2 dmin (by have := inv.two_le; omega) h0 hmin
    refine ⟨hd0, ?_, transOf_zero_of_state0 dmin hd0⟩
    unfold matchOf
    rw [List.getD_eq_getElem?_getD, hd0]
    rfl

theorem dead_state_zero_after_build_and_minimize_witness :
    buildFull nfaLitA 50 = some bLitA ∧
    (((bLitA.dfa.states[0]? = some DFAState.emptyS ∧
      matchOf bLitA.dfa 0 = false ∧ ∀ b, transOf bLitA.dfa 0 b = 0) ∧
    (∀ (fuel2 : Nat) (dmin : DFA), minimize bLitA.dfa fuel2 = some dmin →
      dmin.states[0]? = some DFAState.emptyS ∧
      matchOf dmin 0 = false ∧ ∀ b, transOf dmin 0 b = 0))) :=
  ⟨by decide!,
   dead_state_zero_after_build_and_minimize nfaLitA 50 bLitA (by decide!)⟩

/-! ### Termination of the epsilon closure -/

/-- A state table is well-formed when every referenced state id is in
bounds (as the compiler guarantees for the tables it emits). -/
def wfNFAState (n : Nat) : NFAState → Bool
  | .emptyS next => next < n
  | .range _ _ next => next < n
  | .union alts _ => alts.all (· < n)
  | .matchS => true

/-- Wellformedness of a whole NFA. -/
def wfNFA (nfa : NFA) : Bool := nfa.all (wfNFAState nfa.length)

/-- The largest alternation fan-out of the NFA (0 if none). -/
def maxAlts (nfa : NFA) : Nat :=
  nfa.foldr
    (fun s acc =>
      match s with
      | .union alts _ => max alts.length acc
      | _ => acc) 0

/-- The representation invariant of `SparseSet` stated in the source:
`sparse[ip]` locates `ip` inside `dense`. -/
def SetInv (n : Nat) (s : SparseSet) : Prop :=
  s.sparse.length = n ∧ (∀ v ∈ s.dense, v < n) ∧
  (∀ k, k < s.dense.length → s.sparse.getD (s.dense.getD k 0) 0 = k)

theorem maxAlts_bound (nfa : NFA) :
    ∀ s ∈ nfa, ∀ alts rev, s = NFAState.union alts rev →
      alts.length ≤ maxAlts nfa := by
  unfold maxAlts
  induction nfa with
  | nil => intro s hs; cases hs
  | cons x rest ih =>
    intro s hs alts rev hseq
    rw [List.foldr_cons]
    rcases List.mem_cons.mp hs with hx | hx
    · rw [← hx, hseq]
      exact le_max_left _ _
    · have := ih s hx alts rev hseq
      cases x with
      | union alts' rev' => exact le_trans this (le_max_right _ _)
      | emptyS next => exact this
      | range a b next => exact this
      | matchS => exact this

theorem SetInv_nodup {n : Nat} {s : SparseSet} (h : SetInv n s) :
    s.dense.Nodup := by
  obtain ⟨hlen, hel, hidx⟩ := h
  rw [List.nodup_iff_injective_get]
  intro ⟨k1, h1⟩ ⟨k2, h2⟩ heq
  have hg1 : s.dense.getD k1 0 = s.dense.get ⟨k1, h1⟩ := by
    rw [List.getD_eq_getElem?_getD, List.getElem?_eq_getElem h1]
    rfl
  have hg2 : s.dense.getD k2 0 = s.dense.get ⟨k2, h2⟩ := by
    rw [List.getD_eq_getElem?_getD, List.getElem?_eq_getElem h2]
    rfl
  have e1 := hidx k1 h1
  have e2 := hidx k2 h2
  rw [hg1, heq, ← hg2] at e1
  rw [e2] at e1
  exact Fin.ext e1.symm

theorem SetInv_length_le {n : Nat} {s : SparseSet} (h : SetInv n s) :
    s.dense.length ≤ n := by
  have hnd := SetInv_nodup h
  have hsub : s.dense.toFinset ⊆ Finset.range n := by
    intro v hv
    rw [Finset.mem_range]
    exact h.2.1 v (List.mem_toFinset.mp hv)
  have hcard := Finset.card_le_card hsub
  rw [List.toFinset_card_of_nodup hnd, Finset.card_range] at hcard
  exact hcard

theorem SetInv_mem_of_full {n : Nat} {s : SparseSet} (h : SetInv n s)
    (hfull : s.dense.length = n) (v : Nat) (hv : v < n) : v ∈ s.dense := by
  have hnd := SetInv_nodup h
  have hsub : s.dense.toFinset ⊆ Finset.range n := by
    intro w hw
    rw [Finset.mem_range]
    exact h.2.1 w (List.mem_toFinset.mp hw)
  have heq : s.dense.toFinset = Finset.range n := by
    apply Finset.eq_of_subset_of_card_le hsub
    rw [List.toFinset_card_of_nodup hnd, Finset.card_range, hfull]
  have : v ∈ s.dense.toFinset := by
    rw [heq, Finset.mem_range]
    exact hv
  exact List.mem_toFinset.mp this

theorem SetInv_contains_of_mem {n : Nat} {s : SparseSet} (h : SetInv n s)
    (v : Nat) (hv : v ∈ s.dense) : s.containsS v = true := by
  obtain ⟨k, hk⟩ := List.mem_iff_getElem?.mp hv
  have hklt : k < s.dense.length := (List.getElem?_eq_some_iff.mp hk).1
  have hgd : s.dense.getD k 0 = v := by
    rw [List.getD_eq_getElem?_getD, hk]
    rfl
  have hidx := h.2.2 k hklt
  rw [hgd] at hidx
  unfold SparseSet.containsS
  simp only [hidx]
  rw [hk]
  simp

theorem SetInv_not_mem {n : Nat} {s : SparseSet} (h : SetInv n s) (v : Nat)
    (hnc : s.containsS v = false) : v ∉ s.dense := by
  intro hmem
  rw [SetInv_contains_of_mem h v hmem] at hnc
  cases hnc

theorem SetInv_insert {n : Nat} {s : SparseSet} (h : SetInv n s) (v : Nat)
    (hv : v < n) (hnc : s.containsS v = false) :
    ∃ s', s.insert v = some s' ∧ SetInv n s' ∧
      s'.dense.length = s.dense.length + 1 := by
  have hnm := SetInv_not_mem h v hnc
  have hlt : s.dense.length < n := by
    rcases Nat.lt_or_ge s.dense.length n with hl | hl
    · exact hl
    · have hle := SetInv_length_le h
      have hfull : s.dense.length = n := by omega
      exact absurd (SetInv_mem_of_full h hfull v hv) hnm
  refine ⟨⟨s.dense ++ [v], s.sparse.set v s.dense.length⟩, ?_, ?_, ?_⟩
  · unfold SparseSet.insert
    rw [if_pos ⟨by rw [h.1]; omega, by rw [h.1]; omega⟩]
  · refine ⟨by rw [List.length_set]; exact h.1, ?_, ?_⟩
    · intro w hw
      rcases List.mem_append.mp hw with hw | hw
      · exact h.2.1 w hw
      · rw [List.mem_singleton.mp hw]
        exact hv
    · intro k hk
      simp only [List.length_append, List.length_singleton] at hk
      by_cases hkl : k < s.dense.length
      · have hgd : (s.dense ++ [v]).getD k 0 = s.dense.getD k 0 := by
          rw [List.getD_eq_getElem?_getD, List.getElem?_append_left hkl,
            ← List.getD_eq_getElem?_getD]
        rw [hgd]
        have hw : s.dense.getD k 0 ∈ s.dense := by
          rw [List.getD_eq_getElem?_getD, List.getElem?_eq_getElem hkl]
          exact List.getElem_mem hkl
        have hwv : s.dense.getD k 0 ≠ v := fun he => hnm (he ▸ hw)
        rw [getD_set_ne _ _ _ _ (fun he => hwv he.symm)]
        exact h.2.2 k hkl
      · have hkeq : k = s.dense.length := by omega
        have hgd : (s.dense ++ [v]).getD k 0 = v := by
          rw [hkeq, List.getD_eq_getElem?_getD, getElem_append_len]
          rfl
        rw [hgd, List.getD_eq_getElem?_getD,
          List.getElem?_set_eq_of_lt _ (by rw [h.1]; omega)]
        rw [hkeq]
        rfl
  · simp

theorem wfNFA_lookup {nfa : NFA} {id : Nat} {st : NFAState}
    (hwf : wfNFA nfa = true) (h : nfa[id]? = some st) :
    wfNFAState nfa.length st = true := by
  have hmem : st ∈ nfa := List.getElem?_mem h
  unfold wfNFA at hwf
  rw [List.all_eq_true] at hwf
  exact hwf st hmem

/-- The closure loop drains within fuel `1 + |stack| + U * (maxAlts + 2)`
where `U` counts the states not yet in the sparse set: every step pops the
stack or visits an unseen state, and a visit pushes at most `maxAlts`
further entries. -/
theorem closure_drains (nfa : NFA) (hwf : wfNFA nfa = true) :
    ∀ (f : Nat),
      (∀ (stack : List Nat) (set : SparseSet),
        SetInv nfa.length set → (∀ v ∈ stack, v < nfa.length) →
        1 + 2 * stack.length +
          (nfa.length - set.dense.length) * (2 * maxAlts nfa + 2) ≤ f →
        (closureLoop nfa f stack set).isSome) ∧
      (∀ (id : Nat) (stack : List Nat) (set : SparseSet),
        SetInv nfa.length set → id < nfa.length →
        (∀ v ∈ stack, v < nfa.length) →
        2 + 2 * stack.length +
          (nfa.length - set.dense.length) * (2 * maxAlts nfa + 2) ≤ f →
        (closureVisit nfa f id stack set).isSome) := by
  intro f
  induction f with
  | zero =>
    constructor
    · intro stack set _ _ hb
      exact absurd hb (by omega)
    · intro id stack set _ _ _ hb
      exact absurd hb (by omega)
  | succ f ih =>
    constructor
    · intro stack set hinv hst hb
      cases stack with
      | nil => simp [closureLoop]
      | cons id rest =>
        simp only [closureLoop]
        apply ih.2 id rest set hinv (hst id (by simp))
          (fun v hv => hst v (by simp [hv]))
        simp only [List.length_cons] at hb
        omega
    · intro id stack set hinv hid hst hb
      simp only [closureVisit]
      by_cases hc : set.containsS id = true
      · rw [if_pos hc]
        apply ih.1 stack set hinv hst
        omega
      · rw [if_neg hc]
        have hnc : set.containsS id = false := by
          revert hc
          cases set.containsS id <;> simp
        obtain ⟨set', hins, hinv', hlen'⟩ := SetInv_insert hinv id hid hnc
        rw [hins]
        have hlt : set.dense.length < nfa.length := by
          have := SetInv_length_le hinv'
          omega
        have hU : nfa.length - set.dense.length
            = (nfa.length - set'.dense.length) + 1 := by omega
        rw [hU, Nat.add_mul, Nat.one_mul] at hb
        have hlook : nfa[id]? = some nfa[id] := List.getElem?_eq_getElem hid
        rw [hlook]
        have hwfst := wfNFA_lookup hwf hlook
        cases hnfaid : nfa[id] with
        | emptyS next =>
          rw [hnfaid] at hwfst
          simp only [wfNFAState, decide_eq_true_eq] at hwfst
          apply ih.2 next stack set' hinv' hwfst hst
          omega
        | union alts rev =>
          rw [hnfaid] at hwfst
          simp only [wfNFAState, List.all_eq_true, decide_eq_true_eq] at hwfst
          have halts : alts.length ≤ maxAlts nfa :=
            maxAlts_bound nfa nfa[id] (List.getElem_mem hid) alts rev hnfaid
          cases alts with
          | nil =>
            apply ih.1 stack set' hinv' hst
            omega
          | cons a restAlts =>
            apply ih.2 a (restAlts ++ stack) set' hinv'
              (hwfst a (by simp))
            · intro v hv
              rcases List.mem_append.mp hv with hv | hv
              · exact hwfst v (by simp [hv])
              · exact hst v hv
            · rw [List.length_append]
              simp only [List.length_cons] at halts
              omega
        | range a b next =>
          apply ih.1 stack set' hinv' hst
          omega
        | matchS =>
          apply ih.1 stack set' hinv' hst
          omega

/-- C7: on every well-formed NFA — in particular every table the compiler
emits, including the cyclic epsilon structure produced by `*`/`+` — the
explicit work-stack and the sparse-set visited-tracking make
`epsilon_closure` drain: each state is expanded at most once, so fuel
`3 + n * (2 * maxAlts + 2)` always suffices, whatever valid set it starts
from. -/
theorem epsilon_closure_always_drains (nfa : NFA) (hwf : wfNFA nfa = true)
    (start : Nat) (hs : start < nfa.length) (set : SparseSet)
    (hinv : SetInv nfa.length set) (hroom : set.dense.length < nfa.length) :
    ∀ fuel, 3 + nfa.length * (2 * maxAlts nfa + 2) ≤ fuel →
      (epsilonClosure nfa fuel start set).isSome := by
  intro fuel hf
  unfold epsilonClosure
  cases hlook : nfa[start]? with
  | none =>
    rw [List.getElem?_eq_none_iff] at hlook
    omega
  | some st =>
    simp only []
    by_cases he : st.isEpsilon = true
    · rw [if_neg (not_not_intro he)]
      apply (closure_drains nfa hwf fuel).1 [start] set hinv
        (fun v hv => by rw [List.mem_singleton.mp hv]; exact hs)
      have hmul := Nat.mul_le_mul_right (2 * maxAlts nfa + 2)
        (Nat.sub_le nfa.length set.dense.length)
      simp only [List.length_singleton]
      omega
    · rw [if_pos he]
      unfold SparseSet.insert
      rw [if_pos ⟨by rw [hinv.1]; omega, by rw [hinv.1]; omega⟩]
      rfl

/-- The NFA of `(a*)*`, whose unions 1 and 2 form an epsilon cycle. -/
def nfaCyc : NFA :=
  [.emptyS 1, .union [2, 4] false, .union [3, 1] false,
   .range 97 97 2, .matchS]

theorem epsilon_closure_always_drains_witness :
    wfNFA nfaCyc = true ∧
    (epsilonClosure nfaCyc 33 0 (SparseSet.new nfaCyc.length)).isSome :=
  ⟨by decide,
   epsilon_closure_always_drains nfaCyc (by decide) 0 (by decide)
    (SparseSet.new nfaCyc.length)
    (by
      unfold SetInv
      refine ⟨by decide, ?_, ?_⟩
      · intro v hv
        have hv2 : v ∈ ([] : List Nat) := hv
        cases hv2
      · intro k hk
        have hk2 : k < 0 := hk
        omega)
    (by decide) 33 (by decide)⟩

/-! ### Membership semantics of the sorted-merge set operations -/

theorem pairwise_lt_head_le {x : Nat} {xs : List Nat}
    (h : (x :: xs).Pairwise (· < ·)) : ∀ v ∈ xs, x < v :=
  (List.pairwise_cons.mp h).1

theorem interGo_mem :
    ∀ (fuel : Nat) (ra : List Nat) (a : Nat) (rb : List Nat) (b : Nat)
      (acc : List Nat),
      (a :: ra).Pairwise (· < ·) → (b :: rb).Pairwise (· < ·) →
      ra.length + rb.length + 1 ≤ fuel →
      ∃ l, interGo fuel ra a rb b acc = acc ++ l ∧
        (∀ v, v ∈ l ↔ v ∈ a :: ra ∧ v ∈ b :: rb) := by
  intro fuel
  induction fuel with
  | zero =>
    intro ra a rb b acc _ _ hf
    exact absurd hf (by omega)
  | succ fuel ih =>
    intro ra a rb b acc hsa hsb hf
    by_cases hab : a = b
    · cases ra with
      | nil =>
        refine ⟨[a], by simp only [interGo, if_pos hab], ?_⟩
        intro v
        constructor
        · intro hv
          rw [List.mem_singleton.mp hv]
          exact ⟨by simp, by rw [hab]; simp⟩
        · intro ⟨hv1, _⟩
          exact hv1
      | cons a' ra' =>
        cases rb with
        | nil =>
          refine ⟨[a], by simp only [interGo, if_pos hab], ?_⟩
          intro v
          constructor
          · intro hv
            rw [List.mem_singleton.mp hv]
            exact ⟨by simp, by rw [hab]; simp⟩
          · intro ⟨_, hv2⟩
            rw [← hab] at hv2
            exact hv2
        | cons b' rb' =>
          obtain ⟨l', hl', hm'⟩ := ih ra' a' rb' b' (acc ++ [a])
            (List.Pairwise.sublist (List.Sublist.cons a (List.Sublist.refl _)) hsa)
            (List.Pairwise.sublist (List.Sublist.cons b (List.Sublist.refl _)) hsb)
            (by simp only [List.length_cons] at hf ⊢; omega)
          refine ⟨a :: l', ?_, ?_⟩
          · simp only [interGo, if_pos hab]
            rw [hl', List.append_assoc]
            rfl
          · intro v
            constructor
            · intro hv
              rcases List.mem_cons.mp hv with hv | hv
              · rw [hv]
                exact ⟨by simp, by rw [hab]; simp⟩
              · obtain ⟨h1, h2⟩ := (hm' v).mp hv
                exact ⟨by simp [h1], by simp [h2]⟩
            · intro ⟨hv1, hv2⟩
              by_cases hva : v = a
              · rw [hva]; simp
              · have hv1' : v ∈ a' :: ra' := by
                  rcases List.mem_cons.mp hv1 with h | h
                  · exact absurd h hva
                  · exact h
                have hvb : v ≠ b := by rw [← hab]; exact hva
                have hv2' : v ∈ b' :: rb' := by
                  rcases List.mem_cons.mp hv2 with h | h
                  · exact absurd h hvb
                  · exact h
                exact List.mem_cons_of_mem a ((hm' v).mpr ⟨hv1', hv2'⟩)
    · by_cases hlt : a < b
      · cases ra with
        | nil =>
          refine ⟨[], ?_, ?_⟩
          · simp only [interGo, if_neg hab, if_pos hlt]
            rw [List.append_nil]
          intro v
          constructor
          · intro hv; cases hv
          · intro ⟨hv1, hv2⟩
            have hva : v = a := List.mem_singleton.mp hv1
            have : b ≤ v := by
              rcases List.mem_cons.mp hv2 with h | h
              · omega
              · have := pairwise_lt_head_le hsb v h
                omega
            omega
        | cons a' ra' =>
          obtain ⟨l', hl', hm'⟩ := ih ra' a' rb b acc
            (List.Pairwise.sublist (List.Sublist.cons a (List.Sublist.refl _)) hsa)
            hsb
            (by simp only [List.length_cons] at hf ⊢; omega)
          refine ⟨l', ?_, ?_⟩
          · simp only [interGo, if_neg hab, if_pos hlt]
            exact hl'
          intro v
          rw [hm' v]
          constructor
          · intro ⟨h1, h2⟩
            exact ⟨List.mem_cons_of_mem a h1, h2⟩
          · intro ⟨h1, h2⟩
            refine ⟨?_, h2⟩
            rcases List.mem_cons.mp h1 with h | h
            · exfalso
              have : b ≤ v := by
                rcases List.mem_cons.mp h2 with hh | hh
                · omega
                · have := pairwise_lt_head_le hsb v hh
                  omega
              omega
            · exact h
      · have hgt : b < a := by omega
        cases rb with
        | nil =>
          refine ⟨[], ?_, ?_⟩
          · simp only [interGo, if_neg hab, if_neg hlt]
            rw [List.append_nil]
          intro v
          constructor
          · intro hv; cases hv
          · intro ⟨hv1, hv2⟩
            have hvb : v = b := List.mem_singleton.mp hv2
            have : a ≤ v := by
              rcases List.mem_cons.mp hv1 with h | h
              · omega
              · have := pairwise_lt_head_le hsa v h
                omega
            omega
        | cons b' rb' =>
          obtain ⟨l', hl', hm'⟩ := ih ra a rb' b' acc hsa
            (List.Pairwise.sublist (List.Sublist.cons b (List.Sublist.refl _)) hsb)
            (by simp only [List.length_cons] at hf ⊢; omega)
          refine ⟨l', ?_, ?_⟩
          · simp only [interGo, if_neg hab, if_neg hlt]
            exact hl'
          intro v
          rw [hm' v]
          constructor
          · intro ⟨h1, h2⟩
            exact ⟨h1, List.mem_cons_of_mem b h2⟩
          · intro ⟨h1, h2⟩
            refine ⟨h1, ?_⟩
            rcases List.mem_cons.mp h2 with h | h
            · exfalso
              have : a ≤ v := by
                rcases List.mem_cons.mp h1 with hh | hh
                · omega
                · have := pairwise_lt_head_le hsa v hh
                  omega
              omega
            · exact h

theorem subGo_mem :
    ∀ (fuel : Nat) (ra : List Nat) (a : Nat) (rb : List Nat) (b : Nat)
      (acc : List Nat),
      (a :: ra).Pairwise (· < ·) → (b :: rb).Pairwise (· < ·) →
      ra.length + rb.length + 1 ≤ fuel →
      ∃ l, subGo fuel ra a rb b acc = acc ++ l ∧
        (∀ v, v ∈ l ↔ v ∈ a :: ra ∧ v ∉ b :: rb) := by
  intro fuel
  induction fuel with
  | zero =>
    intro ra a rb b acc _ _ hf
    exact absurd hf (by omega)
  | succ fuel ih =>
    intro ra a rb b acc hsa hsb hf
    by_cases hab : a = b
    · cases ra with
      | nil =>
        refine ⟨[], ?_, ?_⟩
        · simp only [subGo, if_pos hab]
          rw [List.append_nil]
        intro v
        constructor
        · intro hv; cases hv
        · intro ⟨hv1, hv2⟩
          have hva : v = a := List.mem_singleton.mp hv1
          exact absurd (show v ∈ b :: rb by rw [hva, hab]; simp) hv2
      | cons a' ra' =>
        cases rb with
        | nil =>
          refine ⟨a' :: ra', ?_, ?_⟩
          · simp only [subGo, if_pos hab]
            rw [List.append_assoc]
            rfl
          intro v
          constructor
          · intro hv
            refine ⟨List.mem_cons_of_mem a hv, ?_⟩
            have hva : a < v := pairwise_lt_head_le hsa v hv
            intro hb
            have hvb : v = b := List.mem_singleton.mp hb
            omega
          · intro ⟨hv1, _⟩
            rcases List.mem_cons.mp hv1 with h | h
            · exfalso
              rename_i hv2
              exact hv2 (by rw [h, hab]; simp)
            · exact h
        | cons b' rb' =>
          obtain ⟨l', hl', hm'⟩ := ih ra' a' rb' b' acc
            (List.Pairwise.sublist (List.Sublist.cons a (List.Sublist.refl _)) hsa)
            (List.Pairwise.sublist (List.Sublist.cons b (List.Sublist.refl _)) hsb)
            (by simp only [List.length_cons] at hf ⊢; omega)
          refine ⟨l', ?_, ?_⟩
          · simp only [subGo, if_pos hab]
            exact hl'
          intro v
          rw [hm' v]
          constructor
          · intro ⟨h1, h2⟩
            have hva : a < v := pairwise_lt_head_le hsa v h1
            refine ⟨List.mem_cons_of_mem a h1, ?_⟩
            intro hb
            rcases List.mem_cons.mp hb with h | h
            · omega
            · exact h2 h
          · intro ⟨h1, h2⟩
            have hv1 : v ∈ a' :: ra' := by
              rcases List.mem_cons.mp h1 with h | h
              · exfalso
                exact h2 (by rw [h, hab]; simp)
              · exact h
            exact ⟨hv1, fun hb => h2 (List.mem_cons_of_mem b hb)⟩
    · by_cases hlt : a < b
      · cases ra with
        | nil =>
          refine ⟨[a], ?_, ?_⟩
          · simp only [subGo, if_neg hab, if_pos hlt]
          intro v
          constructor
          · intro hv
            rw [List.mem_singleton.mp hv]
            refine ⟨by simp, ?_⟩
            intro hb
            have : b ≤ a := by
              rcases List.mem_cons.mp hb with h | h
              · omega
              · have := pairwise_lt_head_le hsb a h
                omega
            omega
          · intro ⟨hv1, _⟩
            exact hv1
        | cons a' ra' =>
          obtain ⟨l', hl', hm'⟩ := ih ra' a' rb b (acc ++ [a])
            (List.Pairwise.sublist (List.Sublist.cons a (List.Sublist.refl _)) hsa)
            hsb
            (by simp only [List.length_cons] at hf ⊢; omega)
          refine ⟨a :: l', ?_, ?_⟩
          · simp only [subGo, if_neg hab, if_pos hlt]
            rw [hl', List.append_assoc]
            rfl
          intro v
          constructor
          · intro hv
            rcases List.mem_cons.mp hv with hv | hv
            · rw [hv]
              refine ⟨by simp, ?_⟩
              intro hb
              have : b ≤ a := by
                rcases List.mem_cons.mp hb with h | h
                · omega
                · have := pairwise_lt_head_le hsb a h
                  omega
              omega
            · obtain ⟨h1, h2⟩ := (hm' v).mp hv
              exact ⟨List.mem_cons_of_mem a h1, h2⟩
          · intro ⟨hv1, hv2⟩
            by_cases hva : v = a
            · rw [hva]; simp
            · have hv1' : v ∈ a' :: ra' := by
                rcases List.mem_cons.mp hv1 with h | h
                · exact absurd h hva
                · exact h
              exact List.mem_cons_of_mem a ((hm' v).mpr ⟨hv1', hv2⟩)
      · have hgt : b < a := by omega
        cases rb with
        | nil =>
          refine ⟨a :: ra, ?_, ?_⟩
          · simp only [subGo, if_neg hab, if_neg hlt]
            rw [List.append_assoc]
            rfl
          intro v
          constructor
          · intro hv
            refine ⟨hv, ?_⟩
            intro hb
            have hvb : v = b := List.mem_singleton.mp hb
            have : a ≤ v := by
              rcases List.mem_cons.mp hv with h | h
              · omega
              · have := pairwise_lt_head_le hsa v h
                omega
            omega
          · intro ⟨hv1, _⟩
            exact hv1
        | cons b' rb' =>
          obtain ⟨l', hl', hm'⟩ := ih ra a rb' b' acc hsa
            (List.Pairwise.sublist (List.Sublist.cons b (List.Sublist.refl _)) hsb)
            (by simp only [List.length_cons] at hf ⊢; omega)
          refine ⟨l', ?_, ?_⟩
          · simp only [subGo, if_neg hab, if_neg hlt]
            exact hl'
          intro v
          rw [hm' v]
          constructor
          · intro ⟨h1, h2⟩
            refine ⟨h1, ?_⟩
            intro hb
            rcases List.mem_cons.mp hb with h | h
            · have : a ≤ v := by
                rcases List.mem_cons.mp h1 with hh | hh
                · omega
                · have := pairwise_lt_head_le hsa v hh
                  omega
              omega
            · exact h2 h
          · intro ⟨h1, h2⟩
            exact ⟨h1, fun hb => h2 (List.mem_cons_of_mem b hb)⟩

theorem intersectionL_mem (x y : List Nat) (hx : x.Pairwise (· < ·))
    (hy : y.Pairwise (· < ·)) :
    ∀ v, v ∈ intersectionL x y ↔ v ∈ x ∧ v ∈ y := by
  cases x with
  | nil => intro v; simp [intersectionL]
  | cons a ra =>
    cases y with
    | nil => intro v; simp [intersectionL]
    | cons b rb =>
      obtain ⟨l, hl, hm⟩ := interGo_mem (ra.length + rb.length + 1)
        ra a rb b [] hx hy (le_refl _)
      intro v
      simp only [intersectionL]
      rw [hl]
      simpa using hm v

theorem subtractL_mem (x y : List Nat) (hx : x.Pairwise (· < ·))
    (hy : y.Pairwise (· < ·)) :
    ∀ v, v ∈ subtractL x y ↔ v ∈ x ∧ v ∉ y := by
  cases x with
  | nil => intro v; simp [subtractL]
  | cons a ra =>
    cases y with
    | nil => intro v; simp [subtractL]
    | cons b rb =>
      obtain ⟨l, hl, hm⟩ := subGo_mem (ra.length + rb.length + 1)
        ra a rb b [] hx hy (le_refl _)
      intro v
      simp only [subtractL]
      rw [hl]
      simpa using hm v

theorem dedupGo_spec :
    ∀ (l : List Nat) (prev : Nat), (prev :: l).Pairwise (· ≤ ·) →
      (dedupGo prev l).Pairwise (· < ·) ∧
      (∀ v, v ∈ dedupGo prev l ↔ v ∈ l ∧ prev < v) := by
  intro l
  induction l with
  | nil =>
    intro prev _
    exact ⟨List.Pairwise.nil, fun v => by simp [dedupGo]⟩
  | cons x xs ih =>
    intro prev hs
    have hpx : prev ≤ x := (List.pairwise_cons.mp hs).1 x (by simp)
    have hsx : (x :: xs).Pairwise (· ≤ ·) :=
      List.Pairwise.sublist (List.Sublist.cons prev (List.Sublist.refl _)) hs
    by_cases hxp : x = prev
    · have hsp : (prev :: xs).Pairwise (· ≤ ·) := by
        rw [← hxp]
        exact hsx
      obtain ⟨ihp, ihm⟩ := ih prev hsp
      refine ⟨by simpa [dedupGo, if_pos hxp] using ihp, ?_⟩
      intro v
      simp only [dedupGo, if_pos hxp]
      rw [ihm v]
      constructor
      · intro ⟨h1, h2⟩
        exact ⟨List.mem_cons_of_mem x h1, h2⟩
      · intro ⟨h1, h2⟩
        refine ⟨?_, h2⟩
        rcases List.mem_cons.mp h1 with h | h
        · exfalso
          rw [h, hxp] at h2
          omega
        · exact h
    · obtain ⟨ihp, ihm⟩ := ih x hsx
      have hplt : prev < x := by omega
      constructor
      · simp only [dedupGo, if_neg hxp]
        rw [List.pairwise_cons]
        refine ⟨?_, ihp⟩
        intro v hv
        exact ((ihm v).mp hv).2
      · intro v
        simp only [dedupGo, if_neg hxp]
        rw [List.mem_cons, ihm v]
        constructor
        · intro h
          rcases h with h | ⟨h1, h2⟩
          · rw [h]
            exact ⟨by simp, hplt⟩
          · have := (List.pairwise_cons.mp hsx).1 v h1
            exact ⟨List.mem_cons_of_mem x h1, by omega⟩
        · intro ⟨h1, h2⟩
          rcases List.mem_cons.mp h1 with h | h
          · exact Or.inl h
          · by_cases hvx : v = x
            · exact Or.inl hvx
            · have := (List.pairwise_cons.mp hsx).1 v h
              exact Or.inr ⟨h, by omega⟩

theorem dedupAdj_spec (l : List Nat) (hs : l.Pairwise (· ≤ ·)) :
    (dedupAdj l).Pairwise (· < ·) ∧ (∀ v, v ∈ dedupAdj l ↔ v ∈ l) := by
  cases l with
  | nil => exact ⟨List.Pairwise.nil, fun v => by simp [dedupAdj]⟩
  | cons a xs =>
    obtain ⟨hp, hm⟩ := dedupGo_spec xs a hs
    constructor
    · simp only [dedupAdj]
      rw [List.pairwise_cons]
      refine ⟨?_, hp⟩
      intro v hv
      exact ((hm v).mp hv).2
    · intro v
      simp only [dedupAdj]
      rw [List.mem_cons, hm v, List.mem_cons]
      constructor
      · intro h
        rcases h with h | ⟨h1, _⟩
        · exact Or.inl h
        · exact Or.inr h1
      · intro h
        rcases h with h | h
        · exact Or.inl h
        · by_cases hva : v = a
          · exact Or.inl hva
          · have hle := (List.pairwise_cons.mp hs).1 v h
            exact Or.inr ⟨h, by omega⟩

theorem canonicalizeL_spec (l : List Nat) :
    (canonicalizeL l).Pairwise (· < ·) ∧
    (∀ v, v ∈ canonicalizeL l ↔ v ∈ l) := by
  have hsorted : (l.insertionSort (· ≤ ·)).Pairwise (· ≤ ·) :=
    List.sorted_insertionSort (· ≤ ·) l
  have hperm : List.Perm (l.insertionSort (· ≤ ·)) l :=
    List.perm_insertionSort (· ≤ ·) l
  obtain ⟨hp, hm⟩ := dedupAdj_spec (l.insertionSort (· ≤ ·)) hsorted
  refine ⟨hp, ?_⟩
  intro v
  unfold canonicalizeL
  rw [hm v]
  exact hperm.mem_iff

/-! ### Characterization of the incoming-transition index -/

theorem inTr_inner_fold (dfa : DFA) (n i : Nat)
    (htar : ∀ b, b < ALPHABET_SIZE → transOf dfa i b < n) :
    ∀ (bl : List Nat) (acc : List (List (List Nat))),
      bl.Nodup → (∀ b ∈ bl, b < ALPHABET_SIZE) →
      acc.length = n → (∀ t, t < n → (acc.getD t []).length = ALPHABET_SIZE) →
      (bl.foldl (fun acc b =>
          acc.set (transOf dfa i b)
            ((acc.getD (transOf dfa i b) []).set b
              ((acc.getD (transOf dfa i b) []).getD b [] ++ [i]))) acc).length
        = n ∧
      (∀ t, t < n →
        (((bl.foldl (fun acc b =>
          acc.set (transOf dfa i b)
            ((acc.getD (transOf dfa i b) []).set b
              ((acc.getD (transOf dfa i b) []).getD b [] ++ [i]))) acc).getD t
          []).length = ALPHABET_SIZE)) ∧
      (∀ t b, t < n → b < ALPHABET_SIZE →
        (((bl.foldl (fun acc b =>
          acc.set (transOf dfa i b)
            ((acc.getD (transOf dfa i b) []).set b
              ((acc.getD (transOf dfa i b) []).getD b [] ++ [i]))) acc).getD t
          []).getD b [])
        = (acc.getD t []).getD b []
          ++ (if b ∈ bl ∧ transOf dfa i b = t then [i] else [])) := by
  intro bl
  induction bl with
  | nil =>
    intro acc _ _ hlen hrow
    refine ⟨hlen, hrow, ?_⟩
    intro t b _ _
    simp
  | cons b1 rest ih =>
    intro acc hnd hbl hlen hrow
    rw [List.foldl_cons]
    have hb1 : b1 < ALPHABET_SIZE := hbl b1 (by simp)
    have htar1 : transOf dfa i b1 < n := htar b1 hb1
    have hnd' : rest.Nodup := (List.nodup_cons.mp hnd).2
    have hb1nr : b1 ∉ rest := (List.nodup_cons.mp hnd).1
    have hlen' : (acc.set (transOf dfa i b1)
        ((acc.getD (transOf dfa i b1) []).set b1
          ((acc.getD (transOf dfa i b1) []).getD b1 [] ++ [i]))).length = n := by
      rw [List.length_set]
      exact hlen
    have hrow' : ∀ t, t < n →
        ((acc.set (transOf dfa i b1)
          ((acc.getD (transOf dfa i b1) []).set b1
            ((acc.getD (transOf dfa i b1) []).getD b1 [] ++ [i]))).getD t
          []).length = ALPHABET_SIZE := by
      intro t ht
      by_cases hteq : t = transOf dfa i b1
      · rw [hteq, List.getD_eq_getElem?_getD,
          List.getElem?_set_eq_of_lt _ (by omega)]
        simp only [Option.getD_some]
        rw [List.length_set]
        exact hrow _ htar1
      · rw [List.getD_eq_getElem?_getD,
          List.getElem?_set_ne (fun he => hteq he.symm),
          ← List.getD_eq_getElem?_getD]
        exact hrow t ht
    obtain ⟨fl, fr, fe⟩ := ih _ hnd' (fun b hb => hbl b (by simp [hb]))
      hlen' hrow'
    refine ⟨fl, fr, ?_⟩
    intro t b ht hb
    rw [fe t b ht hb]
    by_cases hteq : t = transOf dfa i b1
    · have hacc : ((acc.set (transOf dfa i b1)
          ((acc.getD (transOf dfa i b1) []).set b1
            ((acc.getD (transOf dfa i b1) []).getD b1 [] ++ [i]))).getD t [])
          = (acc.getD t []).set b1 ((acc.getD t []).getD b1 [] ++ [i]) := by
        rw [hteq, List.getD_eq_getElem?_getD,
          List.getElem?_set_eq_of_lt _ (by omega)]
        rfl
      rw [hacc]
      by_cases hbeq : b = b1
      · rw [hbeq, List.getD_eq_getElem?_getD,
          List.getElem?_set_eq_of_lt _ (by rw [hrow _ ht]; omega)]
        simp only [Option.getD_some]
        rw [if_neg (fun hcon => hb1nr hcon.1),
          if_pos ⟨by simp, hteq.symm⟩]
        simp
      · rw [List.getD_eq_getElem?_getD,
          List.getElem?_set_ne (fun he => hbeq he.symm),
          ← List.getD_eq_getElem?_getD]
        by_cases hbr : b ∈ rest ∧ transOf dfa i b = t
        · rw [if_pos hbr, if_pos ⟨by simp [hbr.1], hbr.2⟩]
        · rw [if_neg hbr, if_neg (fun hcon => by
            rcases List.mem_cons.mp hcon.1 with h | h
            · exact hbeq h
            · exact hbr ⟨h, hcon.2⟩)]
    · have hacc : ((acc.set (transOf dfa i b1)
          ((acc.getD (transOf dfa i b1) []).set b1
            ((acc.getD (transOf dfa i b1) []).getD b1 [] ++ [i]))).getD t [])
          = acc.getD t [] := by
        rw [List.getD_eq_getElem?_getD,
          List.getElem?_set_ne (fun he => hteq he.symm),
          ← List.getD_eq_getElem?_getD]
      rw [hacc]
      by_cases hbr : b ∈ rest ∧ transOf dfa i b = t
      · rw [if_pos hbr, if_pos ⟨by simp [hbr.1], hbr.2⟩]
      · rw [if_neg hbr, if_neg (fun hcon => by
          rcases List.mem_cons.mp hcon.1 with h | h
          · rw [h] at hcon
            exact hteq hcon.2.symm
          · exact hbr ⟨h, hcon.2⟩)]

theorem inTr_outer_fold (dfa : DFA) (n : Nat)
    (hw : ∀ i b, b < ALPHABET_SIZE → transOf dfa i b < n) :
    ∀ (il : List Nat) (acc : List (List (List Nat))),
      acc.length = n → (∀ t, t < n → (acc.getD t []).length = ALPHABET_SIZE) →
      (il.foldl (fun acc i =>
        (List.range ALPHABET_SIZE).foldl (fun acc b =>
          acc.set (transOf dfa i b)
            ((acc.getD (transOf dfa i b) []).set b
              ((acc.getD (transOf dfa i b) []).getD b [] ++ [i]))) acc)
        acc).length = n ∧
      (∀ t, t < n →
        ((il.foldl (fun acc i =>
          (List.range ALPHABET_SIZE).foldl (fun acc b =>
            acc.set (transOf dfa i b)
              ((acc.getD (transOf dfa i b) []).set b
                ((acc.getD (transOf dfa i b) []).getD b [] ++ [i]))) acc)
          acc).getD t []).length = ALPHABET_SIZE) ∧
      (∀ t b, t < n → b < ALPHABET_SIZE →
        (((il.foldl (fun acc i =>
          (List.range ALPHABET_SIZE).foldl (fun acc b =>
            acc.set (transOf dfa i b)
              ((acc.getD (transOf dfa i b) []).set b
                ((acc.getD (transOf dfa i b) []).getD b [] ++ [i]))) acc)
          acc).getD t []).getD b [])
        = (acc.getD t []).getD b []
          ++ (il.filter (fun u => transOf dfa u b = t))) := by
  intro il
  induction il with
  | nil =>
    intro acc hlen hrow
    refine ⟨hlen, hrow, ?_⟩
    intro t b _ _
    simp
  | cons i rest ih =>
    intro acc hlen hrow
    rw [List.foldl_cons]
    obtain ⟨al, ar, ae⟩ := inTr_inner_fold dfa n i (fun b hb => hw i b hb)
      (List.range ALPHABET_SIZE) acc (List.nodup_range _)
      (fun b hb => List.mem_range.mp hb) hlen hrow
    obtain ⟨fl, fr, fe⟩ := ih _ al ar
    refine ⟨fl, fr, ?_⟩
    intro t b ht hb
    rw [fe t b ht hb, ae t b ht hb, List.filter_cons]
    by_cases hit : transOf dfa i b = t
    · rw [if_pos ⟨List.mem_range.mpr hb, hit⟩, if_pos (by simpa using hit)]
      rw [List.append_assoc]
      rfl
    · rw [if_neg (fun hcon => hit hcon.2), if_neg (by simpa using hit)]
      rw [List.append_nil]

theorem inTransitions_spec (dfa : DFA)
    (hw : ∀ i b, b < ALPHABET_SIZE → transOf dfa i b < dfa.states.length) :
    (inTransitions dfa).length = dfa.states.length ∧
    (∀ t, t < dfa.states.length →
      ((inTransitions dfa).getD t []).length = ALPHABET_SIZE) ∧
    (∀ t b, t < dfa.states.length → b < ALPHABET_SIZE →
      ((inTransitions dfa).getD t []).getD b []
        = (List.range dfa.states.length).filter
            (fun u => transOf dfa u b = t)) := by
  unfold inTransitions
  obtain ⟨fl, fr, fe⟩ := inTr_outer_fold dfa dfa.states.length hw
    (List.range dfa.states.length)
    (List.replicate dfa.states.length
      (List.replicate ALPHABET_SIZE ([] : List Nat)))
    (by rw [List.length_replicate])
    (by
      intro t ht
      rw [List.getD_eq_getElem?_getD
          (List.replicate dfa.states.length
            (List.replicate ALPHABET_SIZE ([] : List Nat))),
        List.getElem?_replicate_of_lt ht]
      simp)
  refine ⟨fl, fr, ?_⟩
  intro t b ht hb
  rw [fe t b ht hb]
  have hinit : ((List.replicate dfa.states.length
      (List.replicate ALPHABET_SIZE ([] : List Nat))).getD t []).getD b []
      = ([] : List Nat) := by
    rw [List.getD_eq_getElem?_getD
        (List.replicate dfa.states.length
          (List.replicate ALPHABET_SIZE ([] : List Nat))),
      List.getElem?_replicate_of_lt ht]
    simp only [Option.getD_some]
    rcases Nat.lt_or_ge b ALPHABET_SIZE with h | h
    · rw [List.getD_eq_getElem?_getD, List.getElem?_replicate_of_lt h]
      rfl
    · rw [List.getD_eq_getElem?_getD,
        List.getElem?_eq_none_iff.mpr (by simpa using h)]
      rfl
  rw [hinit]
  rfl

theorem foldl_append_mem {α : Type} (g : Nat → List α) :
    ∀ (S : List Nat) (acc : List α) (v : α),
      (v ∈ S.foldl (fun acc id => acc ++ g id) acc ↔
        v ∈ acc ∨ ∃ id ∈ S, v ∈ g id) := by
  intro S
  induction S with
  | nil => intro acc v; simp
  | cons s rest ih =>
    intro acc v
    rw [List.foldl_cons, ih]
    constructor
    · intro h
      rcases h with h | ⟨id, hid, hv⟩
      · rcases List.mem_append.mp h with h | h
        · exact Or.inl h
        · exact Or.inr ⟨s, by simp, h⟩
      · exact Or.inr ⟨id, by simp [hid], hv⟩
    · intro h
      rcases h with h | ⟨id, hid, hv⟩
      · exact Or.inl (List.mem_append.mpr (Or.inl h))
      · rcases List.mem_cons.mp hid with hh | hh
        · exact Or.inl (List.mem_append.mpr (Or.inr (hh ▸ hv)))
        · exact Or.inr ⟨id, hh, hv⟩

theorem findIncomingTo_mem (dfa : DFA)
    (hw : ∀ i b, b < ALPHABET_SIZE → transOf dfa i b < dfa.states.length)
    (b : Nat) (hb : b < ALPHABET_SIZE) (S : List Nat)
    (hS : ∀ s ∈ S, s < dfa.states.length) :
    (findIncomingTo (inTransitions dfa) b S).Pairwise (· < ·) ∧
    (∀ u, u ∈ findIncomingTo (inTransitions dfa) b S ↔
      u < dfa.states.length ∧ transOf dfa u b ∈ S) := by
  obtain ⟨_, _, he⟩ := inTransitions_spec dfa hw
  unfold findIncomingTo
  obtain ⟨hp, hm⟩ := canonicalizeL_spec
    (S.foldl (fun acc id => acc ++ ((inTransitions dfa).getD id []).getD b []) [])
  refine ⟨hp, ?_⟩
  intro u
  rw [hm u, foldl_append_mem]
  constructor
  · intro h
    rcases h with h | ⟨id, hid, hv⟩
    · cases h
    · have hidn : id < dfa.states.length := hS id hid
      rw [he id b hidn hb] at hv
      rw [List.mem_filter] at hv
      obtain ⟨h1, h2⟩ := hv
      refine ⟨List.mem_range.mp h1, ?_⟩
      rw [decide_eq_true_eq] at h2
      rw [h2]
      exact hid
  · intro ⟨h1, h2⟩
    refine Or.inr ⟨transOf dfa u b, h2, ?_⟩
    rw [he (transOf dfa u b) b (hw u b hb) hb, List.mem_filter]
    exact ⟨List.mem_range.mpr h1, by simp⟩

/-! ### The partition-refinement invariants of `Minimizer::run` -/

/-- `u` and `v` lie in a common block of `parts`. -/
def SameBlock (parts : List (List Nat)) (u v : Nat) : Prop :=
  ∃ P ∈ parts, u ∈ P ∧ v ∈ P

/-- `S` separates `u` from `v`. -/
def Separates (S : List Nat) (u v : Nat) : Prop :=
  (u ∈ S ∧ v ∉ S) ∨ (u ∉ S ∧ v ∈ S)

/-- Some waiting set separates `u` from `v`. -/
def Disch (waiting : List (List Nat)) (u v : Nat) : Prop :=
  ∃ S ∈ waiting, Separates S u v

/-- A byte string on which the languages of `p` and `q` differ. -/
def Distinguish (dfa : DFA) (p q : Nat) : Prop :=
  ∃ bs : List Nat, (∀ x ∈ bs, x < ALPHABET_SIZE) ∧
    matchOf dfa (walkFrom dfa p bs) ≠ matchOf dfa (walkFrom dfa q bs)

/-- `S` is a union of blocks of `parts`. -/
def BlockClosed (parts : List (List Nat)) (S : List Nat) : Prop :=
  ∀ P ∈ parts, (∃ s ∈ P, s ∈ S) → ∀ s ∈ P, s ∈ S

/-- The structural invariant of the partition list maintained by
`Minimizer::run`: sorted non-empty blocks that partition the state set,
match-uniform, and pairwise distinguishable across blocks. -/
structure PartInv (dfa : DFA) (parts : List (List Nat)) : Prop where
  sorted : ∀ P ∈ parts, P.Pairwise (· < ·)
  nonempty : ∀ P ∈ parts, P ≠ []
  cover : ∀ s, s < dfa.states.length → s ∈ parts.flatten
  bound : ∀ s ∈ parts.flatten, s < dfa.states.length
  nodupF : parts.flatten.Nodup
  muniform : ∀ P ∈ parts, ∀ p ∈ P, ∀ q ∈ P, matchOf dfa p = matchOf dfa q
  sound : ∀ p q, p < dfa.states.length → q < dfa.states.length →
    ¬SameBlock parts p q → Distinguish dfa p q

/-- The waiting-list invariant: every waiting set is a bounded union of
current blocks. -/
def WInv (dfa : DFA) (parts waiting : List (List Nat)) : Prop :=
  ∀ S ∈ waiting, (∀ s ∈ S, s < dfa.states.length) ∧ BlockClosed parts S

/-- The completeness obligation: same-block states with successors in
different blocks are separated by a waiting set. -/
def Complete (dfa : DFA) (parts waiting : List (List Nat)) : Prop :=
  ∀ P ∈ parts, ∀ u ∈ P, ∀ v ∈ P, ∀ b, b < ALPHABET_SIZE →
    SameBlock parts (transOf dfa u b) (transOf dfa v b) ∨
    Disch waiting (transOf dfa u b) (transOf dfa v b)

/-- Stability: the partition is a congruence for the transition function. -/
def Congruence (dfa : DFA) (parts : List (List Nat)) : Prop :=
  ∀ P ∈ parts, ∀ u ∈ P, ∀ v ∈ P, ∀ b, b < ALPHABET_SIZE →
    SameBlock parts (transOf dfa u b) (transOf dfa v b)

/-- No block of `parts` is cut by `S` at byte `b`. -/
def NoSep (dfa : DFA) (parts : List (List Nat)) (S : List Nat) (b : Nat) :
    Prop :=
  ∀ P ∈ parts, ∀ u ∈ P, ∀ v ∈ P,
    ¬Separates S (transOf dfa u b) (transOf dfa v b)

theorem sameBlock_symm {parts : List (List Nat)} {u v : Nat}
    (h : SameBlock parts u v) : SameBlock parts v u := by
  obtain ⟨P, hP, h1, h2⟩ := h
  exact ⟨P, hP, h2, h1⟩

theorem unique_block {parts : List (List Nat)} (hnd : parts.flatten.Nodup)
    {P Q : List Nat} (hP : P ∈ parts) (hQ : Q ∈ parts) {s : Nat}
    (hsP : s ∈ P) (hsQ : s ∈ Q) : P = Q := by
  by_contra hne
  obtain ⟨l1, l2, hsplit⟩ := List.append_of_mem hP
  rw [hsplit] at hQ hnd
  rcases List.mem_append.mp hQ with hQ1 | hQ2
  · rw [List.flatten_append, List.flatten_cons] at hnd
    have h1 : s ∈ l1.flatten := List.mem_flatten.mpr ⟨Q, hQ1, hsQ⟩
    have hd := List.disjoint_of_nodup_append hnd
    exact hd h1 (List.mem_append.mpr (Or.inl hsP))
  · rcases List.mem_cons.mp hQ2 with hQ2 | hQ2
    · exact hne hQ2.symm
    · rw [List.flatten_append, List.flatten_cons] at hnd
      have hnd2 := (List.nodup_append.mp hnd).2.1
      have hd2 := List.disjoint_of_nodup_append hnd2
      exact hd2 hsP (List.mem_flatten.mpr ⟨Q, hQ2, hsQ⟩)

/-! ### Partition-refinement correctness: the final partition is a sound congruence -/

/-- Every block of `new` is contained in a block of `old`. -/
def Refines (new old : List (List Nat)) : Prop :=
  ∀ q ∈ new, ∃ p ∈ old, ∀ v ∈ q, v ∈ p

theorem refines_refl (parts : List (List Nat)) : Refines parts parts :=
  fun q hq => ⟨q, hq, fun _ hv => hv⟩

theorem refines_trans {a b c : List (List Nat)} (h1 : Refines b a)
    (h2 : Refines c b) : Refines c a := by
  intro q hq
  obtain ⟨m, hm, hqm⟩ := h2 q hq
  obtain ⟨p, hp, hmp⟩ := h1 m hm
  exact ⟨p, hp, fun v hv => hmp v (hqm v hv)⟩

theorem blockClosed_refines {new old : List (List Nat)} {S : List Nat}
    (hr : Refines new old) (hc : BlockClosed old S) : BlockClosed new S := by
  intro P hP hex s hs
  obtain ⟨Q, hQ, hPQ⟩ := hr P hP
  obtain ⟨t, htP, htS⟩ := hex
  exact hc Q hQ ⟨t, hPQ t htP, htS⟩ s (hPQ s hs)

theorem blockClosed_self {parts : List (List Nat)}
    (hnd : parts.flatten.Nodup) {T : List Nat} (hT : T ∈ parts) :
    BlockClosed parts T := by
  intro P hP hex s hs
  obtain ⟨t, htP, htT⟩ := hex
  rw [← unique_block hnd hP hT htP htT]
  exact hs

theorem sameBlock_refines {new old : List (List Nat)} {u v : Nat}
    (hr : Refines new old) (h : SameBlock new u v) : SameBlock old u v := by
  obtain ⟨P, hP, hu, hv⟩ := h
  obtain ⟨Q, hQ, hPQ⟩ := hr P hP
  exact ⟨Q, hQ, hPQ u hu, hPQ v hv⟩

theorem noSep_refines {dfa : DFA} {new old : List (List Nat)} {S : List Nat}
    {b : Nat} (hr : Refines new old) (h : NoSep dfa old S b) :
    NoSep dfa new S b := by
  intro P hP u hu v hv
  obtain ⟨Q, hQ, hPQ⟩ := hr P hP
  exact h Q hQ u (hPQ u hu) v (hPQ v hv)

theorem separates_symm {S : List Nat} {u v : Nat} (h : Separates S u v) :
    Separates S v u := by
  rcases h with ⟨h1, h2⟩ | ⟨h1, h2⟩
  · exact Or.inr ⟨h2, h1⟩
  · exact Or.inl ⟨h2, h1⟩

theorem pairwise_lt_nodup {l : List Nat} (h : l.Pairwise (· < ·)) :
    l.Nodup := h.imp (fun hab => Nat.ne_of_lt hab)

/-- The two branches of `refineStep`: the block survives, or it splits into
its intersection with and subtraction of `incoming`. -/
theorem refineStep_cases (incoming : List Nat)
    (done waiting : List (List Nat)) (p : List Nat) :
    (((intersectionL p incoming).isEmpty = true ∨
        (subtractL p incoming).isEmpty = true) ∧
      refineStep incoming (done, waiting) p = (done ++ [p], waiting)) ∨
    ((intersectionL p incoming).isEmpty = false ∧
      (subtractL p incoming).isEmpty = false ∧
      refineStep incoming (done, waiting) p =
        (done ++ [intersectionL p incoming, subtractL p incoming],
         match waiting.findIdx? (· == p) with
         | some i =>
             (waiting.set i (intersectionL p incoming)) ++
               [subtractL p incoming]
         | none =>
             waiting ++
               [if (intersectionL p incoming).length ≤
                   (subtractL p incoming).length
                then intersectionL p incoming
                else subtractL p incoming])) := by
  by_cases h1 : (intersectionL p incoming).isEmpty
  · exact Or.inl ⟨Or.inl h1, by simp only [refineStep, h1, if_pos]⟩
  · by_cases h2 : (subtractL p incoming).isEmpty
    · refine Or.inl ⟨Or.inr h2, ?_⟩
      simp only [refineStep]
      rw [if_neg h1, if_pos h2]
    · refine Or.inr ⟨by simpa using h1, by simpa using h2, ?_⟩
      simp only [refineStep]
      rw [if_neg h1, if_neg h2]

/-- Full characterisation of one `refineStep`: the produced blocks extend
`done` with a partition refinement of `p`, every cut pair is discharged by
the new waiting list, old discharges survive, and new waiting entries come
from the old ones or the new blocks. -/
theorem refineStep_main (incoming : List Nat)
    (hincs : incoming.Pairwise (· < ·))
    (done waiting : List (List Nat)) (p : List Nat)
    (hps : p.Pairwise (· < ·)) (hpne : p ≠ []) :
    ∃ suffix : List (List Nat),
      (refineStep incoming (done, waiting) p).1 = done ++ suffix ∧
      (∀ q ∈ suffix, q.Pairwise (· < ·) ∧ q ≠ [] ∧ ∀ v ∈ q, v ∈ p) ∧
      List.Perm suffix.flatten p ∧
      (∀ q ∈ suffix, (∀ v ∈ q, v ∈ incoming) ∨ (∀ v ∈ q, v ∉ incoming)) ∧
      (∀ u ∈ p, ∀ v ∈ p,
        (∃ q ∈ suffix, u ∈ q ∧ v ∈ q) ∨ Separates incoming u v) ∧
      (∀ u ∈ p, ∀ v ∈ p, Separates incoming u v →
        Disch (refineStep incoming (done, waiting) p).2 u v) ∧
      (∀ u v, Disch waiting u v →
        Disch (refineStep incoming (done, waiting) p).2 u v) ∧
      (∀ T ∈ (refineStep incoming (done, waiting) p).2,
        T ∈ waiting ∨ T ∈ suffix) := by
  have hxm := intersectionL_mem p incoming hps hincs
  have hym := subtractL_mem p incoming hps hincs
  rcases refineStep_cases incoming done waiting p with
    ⟨hemp, heq⟩ | ⟨hxe, hye, heq⟩
  · -- the block survives untouched
    refine ⟨[p], by rw [heq], ?_, by simp, ?_, ?_, ?_, ?_, ?_⟩
    · intro q hq
      rw [List.mem_singleton.mp hq]
      exact ⟨hps, hpne, fun _ hv => hv⟩
    · -- all of p on one side of incoming
      intro q hq
      rw [List.mem_singleton.mp hq]
      rcases hemp with he | he
      · refine Or.inr (fun v hv hvi => ?_)
        have : v ∈ intersectionL p incoming := (hxm v).mpr ⟨hv, hvi⟩
        rw [List.isEmpty_iff.mp he] at this
        cases this
      · refine Or.inl (fun v hv => ?_)
        by_contra hvi
        have : v ∈ subtractL p incoming := (hym v).mpr ⟨hv, hvi⟩
        rw [List.isEmpty_iff.mp he] at this
        cases this
    · intro u hu v hv
      exact Or.inl ⟨p, by simp, hu, hv⟩
    · -- no pair of p is separated by incoming
      intro u hu v hv hsep
      exfalso
      rcases hemp with he | he
      · have hu' : u ∉ incoming := fun hui => by
          have : u ∈ intersectionL p incoming := (hxm u).mpr ⟨hu, hui⟩
          rw [List.isEmpty_iff.mp he] at this
          cases this
        have hv' : v ∉ incoming := fun hvi => by
          have : v ∈ intersectionL p incoming := (hxm v).mpr ⟨hv, hvi⟩
          rw [List.isEmpty_iff.mp he] at this
          cases this
        rcases hsep with ⟨h1, _⟩ | ⟨_, h2⟩
        · exact hu' h1
        · exact hv' h2
      · have hu' : u ∈ incoming := by
          by_contra hui
          have : u ∈ subtractL p incoming := (hym u).mpr ⟨hu, hui⟩
          rw [List.isEmpty_iff.mp he] at this
          cases this
        have hv' : v ∈ incoming := by
          by_contra hvi
          have : v ∈ subtractL p incoming := (hym v).mpr ⟨hv, hvi⟩
          rw [List.isEmpty_iff.mp he] at this
          cases this
        rcases hsep with ⟨_, h2⟩ | ⟨h1, _⟩
        · exact h2 hv'
        · exact h1 hu'
    · intro u v hd
      rw [heq]
      exact hd
    · intro T hT
      rw [heq] at hT
      exact Or.inl hT
  · -- the block splits into x and y
    set x := intersectionL p incoming with hxdef
    set y := subtractL p incoming with hydef
    have hxs : x.Pairwise (· < ·) := hps.sublist (intersectionL_sublist p incoming)
    have hys : y.Pairwise (· < ·) := hps.sublist (subtractL_sublist p incoming)
    have hxne : x ≠ [] := fun he => by rw [he] at hxe; cases hxe
    have hyne : y ≠ [] := fun he => by rw [he] at hye; cases hye
    have hmemxy : ∀ v, v ∈ p ↔ (v ∈ x ∨ v ∈ y) := by
      intro v
      constructor
      · intro hv
        by_cases hvi : v ∈ incoming
        · exact Or.inl ((hxm v).mpr ⟨hv, hvi⟩)
        · exact Or.inr ((hym v).mpr ⟨hv, hvi⟩)
      · intro h
        rcases h with h | h
        · exact ((hxm v).mp h).1
        · exact ((hym v).mp h).1
    -- the new waiting list always contains x or y, and keeps discharges
    have hw2 : (refineStep incoming (done, waiting) p).2 =
        match waiting.findIdx? (· == p) with
        | some i => (waiting.set i x) ++ [y]
        | none => waiting ++ [if x.length ≤ y.length then x else y] := by
      rw [heq]
    refine ⟨[x, y], by rw [heq], ?_, ?_, ?_, ?_, ?_, ?_, ?_⟩
    · intro q hq
      rcases List.mem_cons.mp hq with hq | hq
      · exact hq ▸ ⟨hxs, hxne, fun v hv => ((hxm v).mp (hq ▸ hv)).1⟩
      · rw [List.mem_singleton.mp hq]
        exact ⟨hys, hyne, fun v hv => ((hym v).mp hv).1⟩
    · -- x ++ y is a permutation of p
      have hflat : ([x, y] : List (List Nat)).flatten = x ++ y := by simp
      rw [hflat]
      refine (List.perm_ext_iff_of_nodup ?_ ?_).mpr ?_
      · rw [List.nodup_append]
        refine ⟨pairwise_lt_nodup hxs, pairwise_lt_nodup hys, ?_⟩
        intro a hax hay
        exact ((hym a).mp hay).2 ((hxm a).mp hax).2
      · exact pairwise_lt_nodup hps
      · intro a
        rw [List.mem_append, ← hmemxy a]
    · intro q hq
      rcases List.mem_cons.mp hq with hq | hq
      · exact Or.inl (fun v hv => ((hxm v).mp (hq ▸ hv)).2)
      · rw [List.mem_singleton.mp hq]
        exact Or.inr (fun v hv => ((hym v).mp hv).2)
    · -- same sub-block or separated by incoming
      intro u hu v hv
      by_cases hui : u ∈ incoming
      · by_cases hvi : v ∈ incoming
        · exact Or.inl ⟨x, by simp, (hxm u).mpr ⟨hu, hui⟩, (hxm v).mpr ⟨hv, hvi⟩⟩
        · exact Or.inr (Or.inl ⟨hui, hvi⟩)
      · by_cases hvi : v ∈ incoming
        · exact Or.inr (Or.inr ⟨hui, hvi⟩)
        · exact Or.inl ⟨y, by simp, (hym u).mpr ⟨hu, hui⟩, (hym v).mpr ⟨hv, hvi⟩⟩
    · -- a cut pair is discharged by the new waiting list
      intro u hu v hv hsep
      rw [hw2]
      have key : ∀ u' v', u' ∈ p → v' ∈ p → u' ∈ incoming → v' ∉ incoming →
          ∀ w', (w' = match waiting.findIdx? (· == p) with
            | some i => (waiting.set i x) ++ [y]
            | none => waiting ++ [if x.length ≤ y.length then x else y]) →
          Disch w' u' v' := by
        intro u' v' hu' hv' hui hvi w' hw'
        have hux : u' ∈ x := (hxm u').mpr ⟨hu', hui⟩
        have hvy : v' ∈ y := (hym v').mpr ⟨hv', hvi⟩
        have hvnx : v' ∉ x := fun h => hvi ((hxm v').mp h).2
        have huny : u' ∉ y := fun h => ((hym u').mp h).2 hui
        cases hidx : waiting.findIdx? (· == p) with
        | some i =>
          rw [hidx] at hw'
          obtain ⟨hi, -, -⟩ := List.findIdx?_eq_some_iff_getElem.mp hidx
          refine ⟨x, ?_, Or.inl ⟨hux, hvnx⟩⟩
          rw [hw']
          exact List.mem_append.mpr (Or.inl
            (List.getElem?_mem (List.getElem?_set_eq_of_lt x hi)))
        | none =>
          rw [hidx] at hw'
          by_cases hlen : x.length ≤ y.length
          · refine ⟨x, ?_, Or.inl ⟨hux, hvnx⟩⟩
            rw [hw', if_pos hlen]
            exact List.mem_append.mpr (Or.inr (by simp))
          · refine ⟨y, ?_, Or.inr ⟨huny, hvy⟩⟩
            rw [hw', if_neg hlen]
            exact List.mem_append.mpr (Or.inr (by simp))
      rcases hsep with ⟨hui, hvi⟩ | ⟨hui, hvi⟩
      · exact key u v hu hv hui hvi _ rfl
      · obtain ⟨T, hT, hTs⟩ := key v u hv hu hvi hui _ rfl
        exact ⟨T, hT, separates_symm hTs⟩
    · -- old discharges survive
      intro u v hd
      obtain ⟨T, hT, hTs⟩ := hd
      rw [hw2]
      cases hidx : waiting.findIdx? (· == p) with
      | some i =>
        obtain ⟨hi, hbeq, -⟩ := List.findIdx?_eq_some_iff_getElem.mp hidx
        obtain ⟨j, hj⟩ := List.mem_iff_getElem?.mp hT
        by_cases hji : j = i
        · -- the replaced entry was p itself: re-discharge through x or y
          have hTp : T = p := by
            have : waiting[i] = p := eq_of_beq hbeq
            rw [hji] at hj
            rw [List.getElem?_eq_getElem hi] at hj
            rw [← this]
            exact (Option.some.injEq _ _ ▸ hj).symm
          rw [hTp] at hTs
          have key2 : ∀ u' v', u' ∈ p → v' ∉ p →
              ∃ T' ∈ (waiting.set i x) ++ [y], Separates T' u' v' := by
            intro u' v' hu' hv'
            rcases (hmemxy u').mp hu' with hux | huy
            · refine ⟨x, List.mem_append.mpr (Or.inl
                (List.getElem?_mem (List.getElem?_set_eq_of_lt x hi))),
                Or.inl ⟨hux, fun h => hv' ((hxm v').mp h).1⟩⟩
            · refine ⟨y, List.mem_append.mpr (Or.inr (by simp)),
                Or.inl ⟨huy, fun h => hv' ((hym v').mp h).1⟩⟩
          rcases hTs with ⟨hu', hv'⟩ | ⟨hu', hv'⟩
          · exact key2 u v hu' hv'
          · obtain ⟨T', hT', hT's⟩ := key2 v u hv' hu'
            exact ⟨T', hT', separates_symm hT's⟩
        · refine ⟨T, ?_, hTs⟩
          have hj' : (waiting.set i x)[j]? = some T := by
            rw [List.getElem?_set_ne (fun he => hji he.symm)]
            exact hj
          exact List.mem_append.mpr (Or.inl (List.getElem?_mem hj'))
      | none =>
        exact ⟨T, List.mem_append.mpr (Or.inl hT), hTs⟩
    · -- provenance of the new waiting entries
      intro T hT
      rw [hw2] at hT
      cases hidx : waiting.findIdx? (· == p) with
      | some i =>
        rw [hidx] at hT
        rcases List.mem_append.mp hT with hT | hT
        · rcases List.mem_or_eq_of_mem_set hT with hT | hT
          · exact Or.inl hT
          · exact Or.inr (by simp [hT])
        · exact Or.inr (by simp [List.mem_singleton.mp hT])
      | none =>
        rw [hidx] at hT
        rcases List.mem_append.mp hT with hT | hT
        · exact Or.inl hT
        · rw [List.mem_singleton.mp hT]
          split
          · exact Or.inr (by simp)
          · exact Or.inr (by simp)

/-- `refineStep_main` folded over a whole partition list. -/
theorem refineFold_main (incoming : List Nat)
    (hincs : incoming.Pairwise (· < ·)) :
    ∀ (ps : List (List Nat)) (done waiting : List (List Nat)),
      (∀ p ∈ ps, p.Pairwise (· < ·) ∧ p ≠ []) →
      ∃ suffix : List (List Nat),
        (ps.foldl (refineStep incoming) (done, waiting)).1 = done ++ suffix ∧
        (∀ q ∈ suffix, q.Pairwise (· < ·) ∧ q ≠ [] ∧
          ∃ p ∈ ps, ∀ v ∈ q, v ∈ p) ∧
        List.Perm suffix.flatten ps.flatten ∧
        (∀ q ∈ suffix, (∀ v ∈ q, v ∈ incoming) ∨ (∀ v ∈ q, v ∉ incoming)) ∧
        (∀ p ∈ ps, ∀ u ∈ p, ∀ v ∈ p,
          (∃ q ∈ suffix, u ∈ q ∧ v ∈ q) ∨ Separates incoming u v) ∧
        (∀ p ∈ ps, ∀ u ∈ p, ∀ v ∈ p, Separates incoming u v →
          Disch (ps.foldl (refineStep incoming) (done, waiting)).2 u v) ∧
        (∀ u v, Disch waiting u v →
          Disch (ps.foldl (refineStep incoming) (done, waiting)).2 u v) ∧
        (∀ T ∈ (ps.foldl (refineStep incoming) (done, waiting)).2,
          T ∈ waiting ∨ T ∈ suffix) := by
  intro ps
  induction ps with
  | nil =>
    intro done waiting _
    refine ⟨[], by simp, by simp, by simp, by simp, by simp, by simp,
      fun u v h => h, fun T hT => Or.inl hT⟩
  | cons p ps ih =>
    intro done waiting hps
    rw [List.foldl_cons]
    obtain ⟨suf1, he1, hblk1, hperm1, huni1, hsb1, hdis1, hmono1, hprov1⟩ :=
      refineStep_main incoming hincs done waiting p
        (hps p (by simp)).1 (hps p (by simp)).2
    cases hX : refineStep incoming (done, waiting) p with
    | mk d1 w1 =>
    rw [hX] at he1 hdis1 hmono1 hprov1
    simp only [] at he1 hdis1 hmono1 hprov1
    obtain ⟨suf2, he2, hblk2, hperm2, huni2, hsb2, hdis2, hmono2, hprov2⟩ :=
      ih d1 w1 (fun q hq => hps q (by simp [hq]))
    refine ⟨suf1 ++ suf2, ?_, ?_, ?_, ?_, ?_, ?_, ?_, ?_⟩
    · rw [he2, he1, List.append_assoc]
    · intro q hq
      rcases List.mem_append.mp hq with hq | hq
      · obtain ⟨h1, h2, h3⟩ := hblk1 q hq
        exact ⟨h1, h2, p, by simp, h3⟩
      · obtain ⟨h1, h2, p', hp', h3⟩ := hblk2 q hq
        exact ⟨h1, h2, p', by simp [hp'], h3⟩
    · rw [List.flatten_append, List.flatten_cons]
      exact hperm1.append hperm2
    · intro q hq
      rcases List.mem_append.mp hq with hq | hq
      · exact huni1 q hq
      · exact huni2 q hq
    · intro p0 hp0 u hu v hv
      rcases List.mem_cons.mp hp0 with hp0 | hp0
      · rcases hsb1 u (hp0 ▸ hu) v (hp0 ▸ hv) with ⟨q, hq, h1, h2⟩ | hsep
        · exact Or.inl ⟨q, List.mem_append.mpr (Or.inl hq), h1, h2⟩
        · exact Or.inr hsep
      · rcases hsb2 p0 hp0 u hu v hv with ⟨q, hq, h1, h2⟩ | hsep
        · exact Or.inl ⟨q, List.mem_append.mpr (Or.inr hq), h1, h2⟩
        · exact Or.inr hsep
    · intro p0 hp0 u hu v hv hsep
      rcases List.mem_cons.mp hp0 with hp0 | hp0
      · exact hmono2 u v (hdis1 u (hp0 ▸ hu) v (hp0 ▸ hv) hsep)
      · exact hdis2 p0 hp0 u hu v hv hsep
    · intro u v hd
      exact hmono2 u v (hmono1 u v hd)
    · intro T hT
      rcases hprov2 T hT with hT1 | hT1
      · rcases hprov1 T hT1 with hT2 | hT2
        · exact Or.inl hT2
        · exact Or.inr (List.mem_append.mpr (Or.inl hT2))
      · exact Or.inr (List.mem_append.mpr (Or.inr hT1))

theorem distinguish_symm {dfa : DFA} {u v : Nat}
    (h : Distinguish dfa u v) : Distinguish dfa v u := by
  obtain ⟨bs, h1, h2⟩ := h
  exact ⟨bs, h1, h2.symm⟩

/-- One byte of the refinement pass preserves every invariant, and leaves
no block cut by the splitter at this byte. -/
theorem byteStep_pkg (dfa : DFA)
    (hw : ∀ i b, b < ALPHABET_SIZE → transOf dfa i b < dfa.states.length)
    (S : List Nat) (hSb : ∀ s ∈ S, s < dfa.states.length)
    (parts waiting : List (List Nat)) (b : Nat) (hb : b < ALPHABET_SIZE)
    (hPI : PartInv dfa parts) (hWI : WInv dfa parts waiting)
    (hSc : BlockClosed parts S) :
    PartInv dfa (byteStep (inTransitions dfa) S (parts, waiting) b).1 ∧
    WInv dfa (byteStep (inTransitions dfa) S (parts, waiting) b).1
      (byteStep (inTransitions dfa) S (parts, waiting) b).2 ∧
    BlockClosed (byteStep (inTransitions dfa) S (parts, waiting) b).1 S ∧
    Refines (byteStep (inTransitions dfa) S (parts, waiting) b).1 parts ∧
    (∀ u v, SameBlock parts u v →
      SameBlock (byteStep (inTransitions dfa) S (parts, waiting) b).1 u v ∨
      Disch (byteStep (inTransitions dfa) S (parts, waiting) b).2 u v) ∧
    (∀ u v, Disch waiting u v →
      Disch (byteStep (inTransitions dfa) S (parts, waiting) b).2 u v) ∧
    NoSep dfa (byteStep (inTransitions dfa) S (parts, waiting) b).1 S b := by
  obtain ⟨hincs, hincm⟩ := findIncomingTo_mem dfa hw b hb S hSb
  have hbs_eq : byteStep (inTransitions dfa) S (parts, waiting) b
      = parts.foldl (refineStep (findIncomingTo (inTransitions dfa) b S))
          ([], waiting) := rfl
  set incoming := findIncomingTo (inTransitions dfa) b S with hincdef
  obtain ⟨suffix, he, hblk, hperm, huni, hsb, hdis, hmono, hprov⟩ :=
    refineFold_main incoming hincs parts [] waiting
      (fun p hp => ⟨hPI.sorted p hp, hPI.nonempty p hp⟩)
  rw [List.nil_append] at he
  rw [hbs_eq]
  rw [he]
  -- bound for all elements of the new blocks
  have hsufbound : ∀ v ∈ suffix.flatten, v < dfa.states.length := by
    intro v hv
    exact hPI.bound v (hperm.mem_iff.mp hv)
  have hrefines : Refines suffix parts := by
    intro q hq
    obtain ⟨-, -, p, hp, hsub⟩ := hblk q hq
    exact ⟨p, hp, hsub⟩
  -- separation by incoming yields a distinguishing string
  have hsep : ∀ u v, u < dfa.states.length → v < dfa.states.length →
      Separates incoming u v → Distinguish dfa u v := by
    have key : ∀ u v, u < dfa.states.length → v < dfa.states.length →
        u ∈ incoming → v ∉ incoming → Distinguish dfa u v := by
      intro u v hun hvn hui hvi
      have htu : transOf dfa u b ∈ S := ((hincm u).mp hui).2
      have htv : transOf dfa v b ∉ S := by
        intro hmem
        exact hvi ((hincm v).mpr ⟨hvn, hmem⟩)
      have hnsb : ¬SameBlock parts (transOf dfa u b) (transOf dfa v b) := by
        intro ⟨Q, hQ, h1, h2⟩
        exact htv (hSc Q hQ ⟨transOf dfa u b, h1, htu⟩ (transOf dfa v b) h2)
      obtain ⟨bs, hbsb, hne⟩ := hPI.sound (transOf dfa u b) (transOf dfa v b)
        (hw u b hb) (hw v b hb) hnsb
      refine ⟨b :: bs, ?_, ?_⟩
      · intro x hx
        rcases List.mem_cons.mp hx with hx | hx
        · rw [hx]; exact hb
        · exact hbsb x hx
      · rw [walkFrom_cons, walkFrom_cons]
        exact hne
    intro u v hun hvn hsep
    rcases hsep with ⟨h1, h2⟩ | ⟨h1, h2⟩
    · exact key u v hun hvn h1 h2
    · exact distinguish_symm (key v u hvn hun h2 h1)
  refine ⟨?_, ?_, ?_, hrefines, ?_, ?_, ?_⟩
  · -- PartInv of the new partition
    refine ⟨fun q hq => (hblk q hq).1, fun q hq => (hblk q hq).2.1,
      ?_, hsufbound, hperm.nodup_iff.mpr hPI.nodupF, ?_, ?_⟩
    · intro s hs
      exact hperm.mem_iff.mpr (hPI.cover s hs)
    · intro q hq u hu v hv
      obtain ⟨-, -, p, hp, hsub⟩ := hblk q hq
      exact hPI.muniform p hp u (hsub u hu) v (hsub v hv)
    · intro u v hun hvn hns
      by_cases hsbp : SameBlock parts u v
      · obtain ⟨P, hP, hu, hv⟩ := hsbp
        rcases hsb P hP u hu v hv with ⟨q, hq, h1, h2⟩ | hsepuv
        · exact absurd ⟨q, hq, h1, h2⟩ hns
        · exact hsep u v hun hvn hsepuv
      · exact hPI.sound u v hun hvn hsbp
  · -- WInv of the new state
    intro T hT
    rcases hprov T hT with hT1 | hT1
    · obtain ⟨hb1, hc1⟩ := hWI T hT1
      exact ⟨hb1, blockClosed_refines hrefines hc1⟩
    · obtain ⟨-, -, p, hp, hsub⟩ := hblk T hT1
      refine ⟨fun s hs => hPI.bound s (List.mem_flatten.mpr ⟨p, hp, hsub s hs⟩),
        blockClosed_self (hperm.nodup_iff.mpr hPI.nodupF) hT1⟩
  · exact blockClosed_refines hrefines hSc
  · -- same-block pairs stay together or get discharged
    intro u v hsbp
    obtain ⟨P, hP, hu, hv⟩ := hsbp
    rcases hsb P hP u hu v hv with ⟨q, hq, h1, h2⟩ | hsepuv
    · exact Or.inl ⟨q, hq, h1, h2⟩
    · exact Or.inr (hdis P hP u hu v hv hsepuv)
  · exact hmono
  · -- no block of the result is cut by S at byte b
    intro q hq u hu v hv hcut
    have hun : u < dfa.states.length :=
      hsufbound u (List.mem_flatten.mpr ⟨q, hq, hu⟩)
    have hvn : v < dfa.states.length :=
      hsufbound v (List.mem_flatten.mpr ⟨q, hq, hv⟩)
    rcases huni q hq with hall | hall
    · have h1 : transOf dfa u b ∈ S := ((hincm u).mp (hall u hu)).2
      have h2 : transOf dfa v b ∈ S := ((hincm v).mp (hall v hv)).2
      rcases hcut with ⟨-, hx⟩ | ⟨hx, -⟩
      · exact hx h2
      · exact hx h1
    · have h1 : transOf dfa u b ∉ S := fun hm =>
        (hall u hu) ((hincm u).mpr ⟨hun, hm⟩)
      have h2 : transOf dfa v b ∉ S := fun hm =>
        (hall v hv) ((hincm v).mpr ⟨hvn, hm⟩)
      rcases hcut with ⟨hx, -⟩ | ⟨-, hx⟩
      · exact h1 hx
      · exact h2 hx

/-- The whole `for b in 0..=255` pass with splitter `S`: invariants are
preserved, same-block pairs stay together or get discharged, and after the
pass no block is cut by `S` at any processed byte. -/
theorem byteFold_pkg (dfa : DFA)
    (hw : ∀ i b, b < ALPHABET_SIZE → transOf dfa i b < dfa.states.length)
    (S : List Nat) (hSb : ∀ s ∈ S, s < dfa.states.length) :
    ∀ (bl : List Nat) (parts waiting : List (List Nat)),
      (∀ b ∈ bl, b < ALPHABET_SIZE) →
      PartInv dfa parts → WInv dfa parts waiting → BlockClosed parts S →
      PartInv dfa
        (bl.foldl (byteStep (inTransitions dfa) S) (parts, waiting)).1 ∧
      WInv dfa (bl.foldl (byteStep (inTransitions dfa) S) (parts, waiting)).1
        (bl.foldl (byteStep (inTransitions dfa) S) (parts, waiting)).2 ∧
      BlockClosed
        (bl.foldl (byteStep (inTransitions dfa) S) (parts, waiting)).1 S ∧
      Refines (bl.foldl (byteStep (inTransitions dfa) S) (parts, waiting)).1
        parts ∧
      (∀ u v, SameBlock parts u v →
        SameBlock
          (bl.foldl (byteStep (inTransitions dfa) S) (parts, waiting)).1 u v ∨
        Disch
          (bl.foldl (byteStep (inTransitions dfa) S) (parts, waiting)).2 u v) ∧
      (∀ u v, Disch waiting u v →
        Disch
          (bl.foldl (byteStep (inTransitions dfa) S) (parts, waiting)).2 u v) ∧
      (∀ b ∈ bl, NoSep dfa
        (bl.foldl (byteStep (inTransitions dfa) S) (parts, waiting)).1 S b) := by
  intro bl
  induction bl with
  | nil =>
    intro parts waiting _ hPI hWI hSc
    exact ⟨hPI, hWI, hSc, refines_refl parts,
      fun u v h => Or.inl h, fun u v h => h, fun b hb => nomatch hb⟩
  | cons b bl ih =>
    intro parts waiting hbl hPI hWI hSc
    rw [List.foldl_cons]
    obtain ⟨mPI, mWI, mSc, mref, msb, mmono, mns⟩ :=
      byteStep_pkg dfa hw S hSb parts waiting b (hbl b (by simp)) hPI hWI hSc
    cases hX : byteStep (inTransitions dfa) S (parts, waiting) b with
    | mk p1 w1 =>
    rw [hX] at mPI mWI mSc mref msb mmono mns
    simp only [] at mPI mWI mSc mref msb mmono mns
    obtain ⟨oPI, oWI, oSc, oref, osb, omono, ons⟩ :=
      ih p1 w1 (fun x hx => hbl x (by simp [hx])) mPI mWI mSc
    refine ⟨oPI, oWI, oSc, refines_trans mref oref, ?_, ?_, ?_⟩
    · intro u v h
      rcases msb u v h with h1 | h1
      · exact osb u v h1
      · exact Or.inr (omono u v h1)
    · intro u v h
      exact omono u v (mmono u v h)
    · intro b' hb'
      rcases List.mem_cons.mp hb' with hb' | hb'
      · exact hb' ▸ noSep_refines oref mns
      · exact ons b' hb'

/-- When the waiting list drains, the surviving partition satisfies the
full invariant and is a congruence for the transition function. -/
theorem minLoop_main (dfa : DFA)
    (hw : ∀ i b, b < ALPHABET_SIZE → transOf dfa i b < dfa.states.length) :
    ∀ (fuel : Nat) (parts waiting final : List (List Nat)),
      PartInv dfa parts → WInv dfa parts waiting →
      Complete dfa parts waiting →
      minLoop (inTransitions dfa) fuel parts waiting = some final →
      PartInv dfa final ∧ Congruence dfa final := by
  have hdrained : ∀ (parts waiting final : List (List Nat)),
      waiting.getLast? = none →
      PartInv dfa parts → Complete dfa parts waiting →
      some parts = some final →
      PartInv dfa final ∧ Congruence dfa final := by
    intro parts waiting final hgl hPI hC h
    injection h with h
    subst h
    have hwnil : waiting = [] := List.getLast?_eq_none_iff.mp hgl
    subst hwnil
    refine ⟨hPI, ?_⟩
    intro P hP u hu v hv b hb
    rcases hC P hP u hu v hv b hb with h | ⟨T, hT, -⟩
    · exact h
    · cases hT
  intro fuel
  induction fuel with
  | zero =>
    intro parts waiting final hPI hWI hC h
    rw [minLoop] at h
    split at h
    · exact hdrained parts waiting final (by assumption) hPI hC h
    · cases h
  | succ f ih =>
    intro parts waiting final hPI hWI hC h
    rw [minLoop] at h
    split at h
    · exact hdrained parts waiting final (by assumption) hPI hC h
    · rename_i S hgl
      have hSmem : S ∈ waiting := List.mem_of_mem_getLast? hgl
      obtain ⟨hSb, hSc⟩ := hWI S hSmem
      have hWId : WInv dfa parts waiting.dropLast := by
        intro T hT
        exact hWI T (List.dropLast_subset _ hT)
      obtain ⟨oPI, oWI, oSc, oref, osb, omono, ons⟩ :=
        byteFold_pkg dfa hw S hSb (List.range ALPHABET_SIZE) parts
          waiting.dropLast (fun b hb => List.mem_range.mp hb) hPI hWId hSc
      have hsplitw : waiting.dropLast ++ [S] = waiting :=
        List.dropLast_append_getLast? S hgl
      have hComp : Complete dfa
          ((List.range ALPHABET_SIZE).foldl
            (byteStep (inTransitions dfa) S) (parts, waiting.dropLast)).1
          ((List.range ALPHABET_SIZE).foldl
            (byteStep (inTransitions dfa) S) (parts, waiting.dropLast)).2 := by
        intro P' hP' u hu v hv b hb
        obtain ⟨P, hP, hPsub⟩ := oref P' hP'
        rcases hC P hP u (hPsub u hu) v (hPsub v hv) b hb with hsbp | hdch
        · exact osb (transOf dfa u b) (transOf dfa v b) hsbp
        · obtain ⟨T, hT, hTsep⟩ := hdch
          rw [← hsplitw] at hT
          rcases List.mem_append.mp hT with hT | hT
          · exact Or.inr (omono (transOf dfa u b) (transOf dfa v b)
              ⟨T, hT, hTsep⟩)
          · rw [List.mem_singleton.mp hT] at hTsep
            exact absurd hTsep
              (ons b (List.mem_range.mpr hb) P' hP' u hu v hv)
      exact ih _ _ final oPI oWI hComp h

/-- Invariant package for a one-block initial partition (all states
matching). -/
theorem oneBlock_pkg (dfa : DFA)
    (hw : ∀ i b, b < ALPHABET_SIZE → transOf dfa i b < dfa.states.length)
    (A : List Nat) (hAs : A.Pairwise (· < ·)) (hAne : A ≠ [])
    (hA : ∀ s, s ∈ A ↔ (s < dfa.states.length ∧ matchOf dfa s = true))
    (hall : ∀ s, s < dfa.states.length → matchOf dfa s = true) :
    PartInv dfa [A] ∧ WInv dfa [A] [A] ∧ Complete dfa [A] [A] := by
  have hnodup : ([A] : List (List Nat)).flatten.Nodup := by
    simpa using pairwise_lt_nodup hAs
  have hcov : ∀ s, s < dfa.states.length → s ∈ A := by
    intro s hs
    exact (hA s).mpr ⟨hs, hall s hs⟩
  refine ⟨⟨?_, ?_, ?_, ?_, hnodup, ?_, ?_⟩, ?_, ?_⟩
  · intro P hP
    rw [List.mem_singleton.mp hP]
    exact hAs
  · intro P hP
    rw [List.mem_singleton.mp hP]
    exact hAne
  · intro s hs
    simp only [List.flatten_cons, List.flatten_nil, List.append_nil]
    exact hcov s hs
  · intro s hs
    simp only [List.flatten_cons, List.flatten_nil, List.append_nil] at hs
    exact ((hA s).mp hs).1
  · intro P hP u hu v hv
    rw [List.mem_singleton.mp hP] at hu hv
    rw [((hA u).mp hu).2, ((hA v).mp hv).2]
  · intro p q hp hq hns
    exact absurd ⟨A, by simp, hcov p hp, hcov q hq⟩ hns
  · intro T hT
    rw [List.mem_singleton.mp hT]
    exact ⟨fun s hs => ((hA s).mp hs).1, blockClosed_self hnodup (by simp)⟩
  · intro P hP u hu v hv b hb
    rw [List.mem_singleton.mp hP] at hu hv
    have hu' : u ∈ A := hu
    exact Or.inl ⟨A, by simp,
      hcov _ (hw u b hb), hcov _ (hw v b hb)⟩

/-- Invariant package for a two-block initial partition split on the match
flag, with the first block seeding the worklist. -/
theorem twoBlocks_pkg (dfa : DFA)
    (hw : ∀ i b, b < ALPHABET_SIZE → transOf dfa i b < dfa.states.length)
    (A B : List Nat) (cA cB : Bool) (hcab : cA ≠ cB)
    (hAs : A.Pairwise (· < ·)) (hBs : B.Pairwise (· < ·))
    (hAne : A ≠ []) (hBne : B ≠ [])
    (hA : ∀ s, s ∈ A ↔ (s < dfa.states.length ∧ matchOf dfa s = cA))
    (hB : ∀ s, s ∈ B ↔ (s < dfa.states.length ∧ matchOf dfa s = cB)) :
    PartInv dfa [A, B] ∧ WInv dfa [A, B] [A] ∧ Complete dfa [A, B] [A] := by
  have hdisj : ∀ s, s ∈ A → s ∈ B → False := by
    intro s hsA hsB
    have h1 := ((hA s).mp hsA).2
    have h2 := ((hB s).mp hsB).2
    rw [h1] at h2
    exact hcab h2
  have hcov : ∀ s, s < dfa.states.length → s ∈ A ∨ s ∈ B := by
    intro s hs
    by_cases hm : matchOf dfa s = cA
    · exact Or.inl ((hA s).mpr ⟨hs, hm⟩)
    · refine Or.inr ((hB s).mpr ⟨hs, ?_⟩)
      cases hms : matchOf dfa s <;> cases hca : cA <;> cases hcb : cB <;>
        simp_all
  have hnodup : ([A, B] : List (List Nat)).flatten.Nodup := by
    simp only [List.flatten_cons, List.flatten_nil, List.append_nil]
    rw [List.nodup_append]
    exact ⟨pairwise_lt_nodup hAs, pairwise_lt_nodup hBs, hdisj⟩
  have hbound : ∀ s ∈ ([A, B] : List (List Nat)).flatten,
      s < dfa.states.length := by
    intro s hs
    simp only [List.flatten_cons, List.flatten_nil, List.append_nil] at hs
    rcases List.mem_append.mp hs with hs | hs
    · exact ((hA s).mp hs).1
    · exact ((hB s).mp hs).1
  have hdist : ∀ p q, p ∈ A → q ∈ B → Distinguish dfa p q := by
    intro p q hp hq
    refine ⟨[], ?_, ?_⟩
    · intro x hx
      cases hx
    show matchOf dfa p ≠ matchOf dfa q
    rw [((hA p).mp hp).2, ((hB q).mp hq).2]
    exact hcab
  have hsame : ∀ u v, u < dfa.states.length → v < dfa.states.length →
      SameBlock [A, B] u v ∨ Separates A u v := by
    intro u v hu hv
    rcases hcov u hu with h1 | h1 <;> rcases hcov v hv with h2 | h2
    · exact Or.inl ⟨A, by simp, h1, h2⟩
    · exact Or.inr (Or.inl ⟨h1, fun hc => hdisj v hc h2⟩)
    · exact Or.inr (Or.inr ⟨fun hc => hdisj u hc h1, h2⟩)
    · exact Or.inl ⟨B, by simp, h1, h2⟩
  refine ⟨⟨?_, ?_, ?_, hbound, hnodup, ?_, ?_⟩, ?_, ?_⟩
  · intro P hP
    rcases List.mem_cons.mp hP with h | h
    · rw [h]; exact hAs
    · rw [List.mem_singleton.mp h]; exact hBs
  · intro P hP
    rcases List.mem_cons.mp hP with h | h
    · rw [h]; exact hAne
    · rw [List.mem_singleton.mp h]; exact hBne
  · intro s hs
    simp only [List.flatten_cons, List.flatten_nil, List.append_nil]
    exact List.mem_append.mpr (hcov s hs)
  · intro P hP u hu v hv
    rcases List.mem_cons.mp hP with h | h
    · rw [h] at hu hv
      rw [((hA u).mp hu).2, ((hA v).mp hv).2]
    · rw [List.mem_singleton.mp h] at hu hv
      rw [((hB u).mp hu).2, ((hB v).mp hv).2]
  · intro p q hp hq hns
    rcases hcov p hp with h1 | h1 <;> rcases hcov q hq with h2 | h2
    · exact absurd ⟨A, by simp, h1, h2⟩ hns
    · exact hdist p q h1 h2
    · exact distinguish_symm (hdist q p h2 h1)
    · exact absurd ⟨B, by simp, h1, h2⟩ hns
  · intro T hT
    rw [List.mem_singleton.mp hT]
    exact ⟨fun s hs => ((hA s).mp hs).1, blockClosed_self hnodup (by simp)⟩
  · intro P hP u hu v hv b hb
    rcases hsame (transOf dfa u b) (transOf dfa v b)
      (hw u b hb) (hw v b hb) with h | h
    · exact Or.inl h
    · exact Or.inr ⟨A, by simp, h⟩

/-- `Minimizer::new` establishes the loop invariants: the initial partition
satisfies `PartInv` and the worklist seeded with its first block is closed
and complete. -/
theorem initialPartitions_pkg (dfa : DFA)
    (hw : ∀ i b, b < ALPHABET_SIZE → transOf dfa i b < dfa.states.length)
    (parts : List (List Nat)) (h : initialPartitions dfa = some parts) :
    PartInv dfa parts ∧ WInv dfa parts [parts.headD []] ∧
    Complete dfa parts [parts.headD []] := by
  have hMs : ((List.range dfa.states.length).filter
      (fun i => matchOf dfa i)).Pairwise (· < ·) :=
    (List.pairwise_lt_range _).filter _
  have hNs : ((List.range dfa.states.length).filter
      (fun i => !(matchOf dfa i))).Pairwise (· < ·) :=
    (List.pairwise_lt_range _).filter _
  have hMm : ∀ s, s ∈ (List.range dfa.states.length).filter
      (fun i => matchOf dfa i) ↔
      (s < dfa.states.length ∧ matchOf dfa s = true) := by
    intro s
    rw [List.mem_filter, List.mem_range]
  have hNm : ∀ s, s ∈ (List.range dfa.states.length).filter
      (fun i => !(matchOf dfa i)) ↔
      (s < dfa.states.length ∧ matchOf dfa s = false) := by
    intro s
    rw [List.mem_filter, List.mem_range, Bool.not_eq_eq_eq_not, Bool.not_true]
  unfold initialPartitions at h
  rw [initPartFold dfa _ [] []] at h
  simp only [List.nil_append] at h
  split at h
  · cases h
  · rename_i hMne
    split at h
    · rename_i hNe
      injection h with h
      subst h
      have hall : ∀ s, s < dfa.states.length → matchOf dfa s = true := by
        intro s hs
        by_contra hc
        have : s ∈ (List.range dfa.states.length).filter
            (fun i => !(matchOf dfa i)) :=
          (hNm s).mpr ⟨hs, by cases hms : matchOf dfa s <;> simp_all⟩
        rw [List.isEmpty_iff.mp hNe] at this
        cases this
      have hone := oneBlock_pkg dfa hw _ hMs
        (fun he => hMne (by rw [he]; rfl)) hMm hall
      simpa using hone
    · rename_i hNne
      have hMne' : (List.range dfa.states.length).filter
          (fun i => matchOf dfa i) ≠ [] :=
        fun he => hMne (by rw [he]; rfl)
      have hNne' : (List.range dfa.states.length).filter
          (fun i => !(matchOf dfa i)) ≠ [] :=
        fun he => hNne (by rw [he]; rfl)
      split at h
      · injection h with h
        subst h
        have htwo := twoBlocks_pkg dfa hw _ _ false true (by simp)
          hNs hMs hNne' hMne' hNm hMm
        simpa using htwo
      · injection h with h
        subst h
        have htwo := twoBlocks_pkg dfa hw _ _ true false (by simp)
          hMs hNs hMne' hNne' hMm hNm
        simpa using htwo

/-- Same-block states of a match-uniform congruence accept exactly the
same byte strings. -/
theorem congruence_lang (dfa : DFA) (parts : List (List Nat))
    (hPI : PartInv dfa parts) (hC : Congruence dfa parts) :
    ∀ (bs : List Nat), (∀ x ∈ bs, x < ALPHABET_SIZE) →
      ∀ u v, SameBlock parts u v →
      matchOf dfa (walkFrom dfa u bs) = matchOf dfa (walkFrom dfa v bs) := by
  intro bs
  induction bs with
  | nil =>
    intro _ u v hsb
    obtain ⟨P, hP, hu, hv⟩ := hsb
    exact hPI.muniform P hP u hu v hv
  | cons b rest ih =>
    intro hb u v hsb
    rw [walkFrom_cons, walkFrom_cons]
    obtain ⟨P, hP, hu, hv⟩ := hsb
    exact ih (fun x hx => hb x (by simp [hx]))
      _ _ (hC P hP u hu v hv b (hb b (by simp)))

/-- A successful `minimize` decomposes into a drained refinement loop whose
final partition is an invariant congruence, followed by the renumbering. -/
theorem minimize_final (dfa : DFA)
    (hw : ∀ i b, b < ALPHABET_SIZE → transOf dfa i b < dfa.states.length)
    (fuel : Nat) (dmin : DFA) (h : minimize dfa fuel = some dmin) :
    ∃ final : List (List Nat),
      dmin = rewritePhase dfa final ∧ PartInv dfa final ∧
      Congruence dfa final := by
  rw [minimize_eq] at h
  cases hip : initialPartitions dfa with
  | none => rw [hip] at h; cases h
  | some parts =>
    rw [hip] at h
    simp only [Option.bind_eq_bind, Option.some_bind] at h
    cases hml : minLoop (inTransitions dfa) fuel parts [parts.headD []] with
    | none => rw [hml] at h; cases h
    | some final =>
      rw [hml] at h
      simp only [Option.map_some'] at h
      obtain ⟨hPI0, hWI0, hC0⟩ := initialPartitions_pkg dfa hw parts hip
      obtain ⟨hPI, hC⟩ := minLoop_main dfa hw fuel parts [parts.headD []]
        final hPI0 hWI0 hC0 hml
      injection h with h
      exact ⟨final, h.symm, hPI, hC⟩

/-! ### The renumbering phase as a quotient simulation -/

/-- The inner write loop of the `state_to_part` construction. -/
theorem stpInner_spec (h : Nat) :
    ∀ (p : List Nat) (arr : List Nat),
      (p.foldl (fun arr id => arr.set id h) arr).length = arr.length ∧
      (∀ j, j ∉ p →
        (p.foldl (fun arr id => arr.set id h) arr).getD j 0 = arr.getD j 0) ∧
      (∀ j ∈ p, j < arr.length →
        (p.foldl (fun arr id => arr.set id h) arr).getD j 0 = h) := by
  intro p
  induction p with
  | nil => intro arr; exact ⟨rfl, fun j _ => rfl, fun j hj => nomatch hj⟩
  | cons id rest ih =>
    intro arr
    rw [List.foldl_cons]
    obtain ⟨ihl, ihnot, ihmem⟩ := ih (arr.set id h)
    refine ⟨by rw [ihl, List.length_set], ?_, ?_⟩
    · intro j hj
      have hj1 : j ≠ id := fun he => hj (by rw [he]; simp)
      have hj2 : j ∉ rest := fun hm => hj (by simp [hm])
      rw [ihnot j hj2, getD_set_ne arr id j h (fun he => hj1 he.symm)]
    · intro j hj hjl
      rcases List.mem_cons.mp hj with hj | hj
      · by_cases hjr : j ∈ rest
        · exact ihmem j hjr (by rw [List.length_set]; exact hjl)
        · rw [ihnot j hjr, hj, List.getD_eq_getElem?_getD,
            List.getElem?_set_eq_of_lt h (hj ▸ hjl)]
          rfl
      · exact ihmem j hj (by rw [List.length_set]; exact hjl)

/-- `state_to_part`: each state is mapped to the first element of its
block. -/
theorem stpOf_spec (n : Nat) (parts : List (List Nat))
    (hnd : parts.flatten.Nodup)
    (hbound : ∀ s ∈ parts.flatten, s < n) :
    (stpOf n parts).length = n ∧
    (∀ P ∈ parts, ∀ s ∈ P, (stpOf n parts).getD s 0 = P.headD 0) := by
  have hgen : ∀ (ps : List (List Nat)) (arr : List Nat),
      ps.flatten.Nodup → (∀ s ∈ ps.flatten, s < arr.length) →
      ((ps.foldl
        (fun arr p => p.foldl (fun arr id => arr.set id (p.headD 0)) arr)
        arr).length = arr.length) ∧
      (∀ j, j ∉ ps.flatten →
        (ps.foldl
          (fun arr p => p.foldl (fun arr id => arr.set id (p.headD 0)) arr)
          arr).getD j 0 = arr.getD j 0) ∧
      (∀ P ∈ ps, ∀ s ∈ P,
        (ps.foldl
          (fun arr p => p.foldl (fun arr id => arr.set id (p.headD 0)) arr)
          arr).getD s 0 = P.headD 0) := by
    intro ps
    induction ps with
    | nil => intro arr _ _; exact ⟨rfl, fun j _ => rfl, fun P hP => nomatch hP⟩
    | cons p rest ih =>
      intro arr hnd hb
      rw [List.flatten_cons] at hnd hb
      have hdisj := List.disjoint_of_nodup_append hnd
      rw [List.foldl_cons]
      obtain ⟨il, inot, imem⟩ := stpInner_spec (p.headD 0) p arr
      obtain ⟨ihl, ihnot, ihmem⟩ :=
        ih (p.foldl (fun arr id => arr.set id (p.headD 0)) arr)
          ((List.nodup_append.mp hnd).2.1)
          (fun s hs => by rw [il]; exact hb s (List.mem_append.mpr (Or.inr hs)))
      refine ⟨by rw [ihl, il], ?_, ?_⟩
      · intro j hj
        have hj1 : j ∉ p := fun hm => hj (List.mem_append.mpr (Or.inl hm))
        have hj2 : j ∉ rest.flatten := fun hm =>
          hj (List.mem_append.mpr (Or.inr hm))
        rw [ihnot j hj2, inot j hj1]
      · intro P hP s hs
        rcases List.mem_cons.mp hP with hP | hP
        · subst hP
          have hsr : s ∉ rest.flatten := fun hm => hdisj hs hm
          rw [ihnot s hsr]
          exact imem s hs (hb s (List.mem_append.mpr (Or.inl hs)))
        · exact ihmem P hP s hs
  unfold stpOf
  obtain ⟨h1, -, h3⟩ := hgen parts (List.replicate n DFA_DEAD) hnd
    (fun s hs => by rw [List.length_replicate]; exact hbound s hs)
  exact ⟨by rw [h1, List.length_replicate], h3⟩

theorem headD_mem {p : List Nat} (h : p ≠ []) : p.headD 0 ∈ p := by
  cases p with
  | nil => exact absurd rfl h
  | cons a t => simp

theorem headD_le {p : List Nat} (hp : p.Pairwise (· < ·)) :
    ∀ s ∈ p, p.headD 0 ≤ s := by
  cases p with
  | nil => intro s hs; cases hs
  | cons a t =>
    intro s hs
    rcases List.mem_cons.mp hs with hs | hs
    · rw [hs]
      exact le_refl a
    · exact le_of_lt ((List.pairwise_cons.mp hp).1 s hs)

/-- Block heads are fixed points of the representative map. -/
theorem stp_fixed (n : Nat) (parts : List (List Nat))
    (hnd : parts.flatten.Nodup) (hbound : ∀ s ∈ parts.flatten, s < n)
    (P : List Nat) (hP : P ∈ parts) (hPne : P ≠ []) :
    (stpOf n parts).getD (P.headD 0) 0 = P.headD 0 :=
  (stpOf_spec n parts hnd hbound).2 P hP (P.headD 0) (headD_mem hPne)

/-- Number of representative (fixed-point) ids below `k`. -/
def cntFix (stp : List Nat) (k : Nat) : Nat :=
  ((List.range k).filter (fun id => stp.getD id 0 = id)).length

theorem cntFix_succ (stp : List Nat) (k : Nat) :
    cntFix stp (k + 1) =
      cntFix stp k + (if stp.getD k 0 = k then 1 else 0) := by
  unfold cntFix
  rw [List.range_succ, List.filter_append]
  by_cases h : stp.getD k 0 = k
  · rw [if_pos h]
    rw [List.getD_eq_getElem?_getD] at h
    simp [List.filter_cons, h]
  · rw [if_neg h]
    rw [List.getD_eq_getElem?_getD] at h
    simp [List.filter_cons, h]

theorem cntFix_mono (stp : List Nat) {k k' : Nat} (h : k ≤ k') :
    cntFix stp k ≤ cntFix stp k' := by
  induction k' with
  | zero =>
    obtain rfl := Nat.le_zero.mp h
    exact le_refl _
  | succ m ih =>
    by_cases hk : k = m + 1
    · rw [hk]
    · calc cntFix stp k ≤ cntFix stp m := ih (by omega)
        _ ≤ cntFix stp (m + 1) := by rw [cntFix_succ]; omega

theorem cntFix_le (stp : List Nat) (k : Nat) : cntFix stp k ≤ k := by
  calc cntFix stp k ≤ (List.range k).length := List.length_filter_le _ _
    _ = k := List.length_range k

theorem cntFix_strict (stp : List Nat) {r r' : Nat} (h : r < r')
    (hfix : stp.getD r 0 = r) : cntFix stp r < cntFix stp r' := by
  have h1 : cntFix stp (r + 1) = cntFix stp r + 1 := by
    rw [cntFix_succ, if_pos hfix]
  have h2 : cntFix stp (r + 1) ≤ cntFix stp r' := cntFix_mono stp h
  omega

/-- Surjectivity of the dense-id assignment onto `[0, cntFix n)`. -/
theorem cntFix_surj (stp : List Nat) :
    ∀ (n m : Nat), m < cntFix stp n →
      ∃ r, r < n ∧ stp.getD r 0 = r ∧ cntFix stp r = m := by
  intro n
  induction n with
  | zero => intro m hm; simp [cntFix] at hm
  | succ k ih =>
    intro m hm
    rw [cntFix_succ] at hm
    by_cases hfix : stp.getD k 0 = k
    · rw [if_pos hfix] at hm
      by_cases hmk : m < cntFix stp k
      · obtain ⟨r, h1, h2, h3⟩ := ih m hmk
        exact ⟨r, by omega, h2, h3⟩
      · have : m = cntFix stp k := by omega
        exact ⟨k, by omega, hfix, this.symm⟩
    · rw [if_neg hfix] at hm
      obtain ⟨r, h1, h2, h3⟩ := ih m (by omega)
      exact ⟨r, by omega, h2, h3⟩

/-- The dense-id fold: resulting counter and per-representative ids. -/
theorem minIdsOf_spec (n : Nat) (stp : List Nat) :
    (minIdsOf n stp).1.length = n ∧
    (minIdsOf n stp).2 = cntFix stp n ∧
    (∀ r, r < n → stp.getD r 0 = r →
      (minIdsOf n stp).1.getD r 0 = cntFix stp r) := by
  have hgen : ∀ (k : Nat), k ≤ n →
      (((List.range k).foldl
        (fun (acc : List Nat × Nat) id =>
          if stp.getD id 0 = id then (acc.1.set id acc.2, acc.2 + 1) else acc)
        (List.replicate n DFA_DEAD, 0)).1.length = n) ∧
      (((List.range k).foldl
        (fun (acc : List Nat × Nat) id =>
          if stp.getD id 0 = id then (acc.1.set id acc.2, acc.2 + 1) else acc)
        (List.replicate n DFA_DEAD, 0)).2 = cntFix stp k) ∧
      (∀ r, r < k → stp.getD r 0 = r →
        ((List.range k).foldl
          (fun (acc : List Nat × Nat) id =>
            if stp.getD id 0 = id then (acc.1.set id acc.2, acc.2 + 1) else acc)
          (List.replicate n DFA_DEAD, 0)).1.getD r 0 = cntFix stp r) := by
    intro k
    induction k with
    | zero =>
      intro _
      exact ⟨by simp, by simp [cntFix], fun r hr => by omega⟩
    | succ k ih =>
      intro hk
      obtain ⟨ihl, ihc, ihr⟩ := ih (by omega)
      rw [List.range_succ, List.foldl_append, List.foldl_cons, List.foldl_nil]
      by_cases hfix : stp.getD k 0 = k
      · rw [if_pos hfix]
        refine ⟨?_, ?_, ?_⟩
        · simp only [List.length_set]
          exact ihl
        · simp only []
          rw [ihc, cntFix_succ, if_pos hfix]
        · intro r hr hrfix
          by_cases hrk : r = k
          · subst hrk
            simp only []
            rw [List.getD_eq_getElem?_getD,
              List.getElem?_set_eq_of_lt _ (by rw [ihl]; omega), ihc]
            rfl
          · simp only []
            rw [getD_set_ne _ k r _ (fun he => hrk he.symm)]
            exact ihr r (by omega) hrfix
      · rw [if_neg hfix]
        refine ⟨ihl, ?_, ?_⟩
        · rw [ihc, cntFix_succ, if_neg hfix]
          omega
        · intro r hr hrfix
          have hrk : r ≠ k := fun he => hfix (he ▸ hrfix)
          exact ihr r (by omega) hrfix
  obtain ⟨h1, h2, h3⟩ := hgen n (le_refl n)
  exact ⟨h1, h2, h3⟩

theorem listSwap_getElem?_other {α : Type} (l : List α) (i j p : Nat)
    (hpi : p ≠ i) (hpj : p ≠ j) : (listSwap l i j)[p]? = l[p]? := by
  unfold listSwap
  split
  · rename_i a b h1 h2
    rw [List.getElem?_set_ne (fun he => hpj he.symm),
      List.getElem?_set_ne (fun he => hpi he.symm)]
  · rfl

theorem listSwap_getElem?_snd {α : Type} (l : List α) (i j : Nat)
    (hi : i < l.length) (hj : j < l.length) :
    (listSwap l i j)[j]? = l[i]? := by
  unfold listSwap
  split
  · rename_i a b h1 h2
    rw [List.getElem?_set_eq_of_lt a (by rw [List.length_set]; exact hj), h1]
  · rename_i hnone
    exfalso
    exact hnone l[i] l[j] (List.getElem?_eq_getElem hi)
      (List.getElem?_eq_getElem hj)

theorem statesOf_length (n : Nat) (stp mi : List Nat)
    (states : List DFAState) :
    (statesOf n stp mi states).length = states.length := by
  have step : ∀ (sts : List DFAState) (id : Nat),
      sts.length = states.length →
      (if stp.getD id 0 = id then
          listSwap (sts.set id
            (DFAState.mk (sts.getD id DFAState.emptyS).isMatch
              ((sts.getD id DFAState.emptyS).transitions.map
                (fun nxt => mi.getD (stp.getD nxt 0) 0))))
            id (mi.getD id 0)
        else sts).length = states.length := by
    intro sts id h
    split
    · rw [listSwap_length, List.length_set]
      exact h
    · exact h
  exact foldl_preserve
    (fun (sts : List DFAState) => sts.length = states.length)
    _ step (List.range n) states rfl

/-- The state-rewrite loop: every representative's state, with transitions
mapped through the quotient, lands at its dense id. -/
theorem statesOf_spec (n : Nat) (stp mi : List Nat) (states : List DFAState)
    (hlen : states.length = n)
    (hmile : ∀ r, r < n → stp.getD r 0 = r → mi.getD r 0 ≤ r)
    (hinj : ∀ r r', r < n → r' < n → stp.getD r 0 = r → stp.getD r' 0 = r' →
      r ≠ r' → mi.getD r 0 ≠ mi.getD r' 0) :
    (statesOf n stp mi states).length = n ∧
    (∀ r, r < n → stp.getD r 0 = r →
      (statesOf n stp mi states)[mi.getD r 0]? =
        some (DFAState.mk (states.getD r DFAState.emptyS).isMatch
          ((states.getD r DFAState.emptyS).transitions.map
            (fun nxt => mi.getD (stp.getD nxt 0) 0)))) := by
  have hgen : ∀ k, k ≤ n →
      (((List.range k).foldl
        (fun (sts : List DFAState) id =>
          if stp.getD id 0 = id then
            listSwap (sts.set id
              (DFAState.mk (sts.getD id DFAState.emptyS).isMatch
                ((sts.getD id DFAState.emptyS).transitions.map
                  (fun nxt => mi.getD (stp.getD nxt 0) 0))))
              id (mi.getD id 0)
          else sts)
        states).length = n) ∧
      (∀ j, k ≤ j →
        ((List.range k).foldl
          (fun (sts : List DFAState) id =>
            if stp.getD id 0 = id then
              listSwap (sts.set id
                (DFAState.mk (sts.getD id DFAState.emptyS).isMatch
                  ((sts.getD id DFAState.emptyS).transitions.map
                    (fun nxt => mi.getD (stp.getD nxt 0) 0))))
                id (mi.getD id 0)
            else sts)
          states)[j]? = states[j]?) ∧
      (∀ r, r < k → stp.getD r 0 = r →
        ((List.range k).foldl
          (fun (sts : List DFAState) id =>
            if stp.getD id 0 = id then
              listSwap (sts.set id
                (DFAState.mk (sts.getD id DFAState.emptyS).isMatch
                  ((sts.getD id DFAState.emptyS).transitions.map
                    (fun nxt => mi.getD (stp.getD nxt 0) 0))))
                id (mi.getD id 0)
            else sts)
          states)[mi.getD r 0]? =
          some (DFAState.mk (states.getD r DFAState.emptyS).isMatch
            ((states.getD r DFAState.emptyS).transitions.map
              (fun nxt => mi.getD (stp.getD nxt 0) 0)))) := by
    intro k
    induction k with
    | zero =>
      intro _
      exact ⟨hlen, fun j _ => rfl, fun r hr => by omega⟩
    | succ k ih =>
      intro hk
      obtain ⟨ihl, ihup, ihrep⟩ := ih (by omega)
      rw [List.range_succ, List.foldl_append, List.foldl_cons, List.foldl_nil]
      by_cases hfix : stp.getD k 0 = k
      · rw [if_pos hfix]
        have hkl : k < n := by omega
        have hmik : mi.getD k 0 ≤ k := hmile k hkl hfix
        refine ⟨?_, ?_, ?_⟩
        · rw [listSwap_length, List.length_set]
          exact ihl
        · intro j hj
          rw [listSwap_getElem?_other _ _ _ j (by omega) (by omega),
            List.getElem?_set_ne (by omega)]
          exact ihup j (by omega)
        · intro r hr hrfix
          by_cases hrk : r = k
          · subst hrk
            rw [listSwap_getElem?_snd _ _ _
              (by rw [List.length_set, ihl]; omega)
              (by rw [List.length_set, ihl]; omega)]
            rw [List.getElem?_set_eq_of_lt _ (by rw [ihl]; omega)]
            have hcur : (((List.range r).foldl
                (fun (sts : List DFAState) id =>
                  if stp.getD id 0 = id then
                    listSwap (sts.set id
                      (DFAState.mk (sts.getD id DFAState.emptyS).isMatch
                        ((sts.getD id DFAState.emptyS).transitions.map
                          (fun nxt => mi.getD (stp.getD nxt 0) 0))))
                      id (mi.getD id 0)
                  else sts)
                states).getD r DFAState.emptyS) =
                states.getD r DFAState.emptyS := by
              rw [List.getD_eq_getElem?_getD, ihup r (le_refl r),
                ← List.getD_eq_getElem?_getD]
            rw [hcur]
          · have hrk' : r < k := by omega
            have hne1 : mi.getD r 0 ≠ k := by
              have := hmile r (by omega) hrfix
              omega
            have hne2 : mi.getD r 0 ≠ mi.getD k 0 :=
              hinj r k (by omega) hkl hrfix hfix hrk
            rw [listSwap_getElem?_other _ _ _ _ hne1 hne2,
              List.getElem?_set_ne (fun he => hne1 he.symm)]
            exact ihrep r hrk' hrfix
      · rw [if_neg hfix]
        refine ⟨ihl, fun j hj => ihup j (by omega), ?_⟩
        intro r hr hrfix
        have hrk : r ≠ k := fun he => hfix (he ▸ hrfix)
        exact ihrep r (by omega) hrfix
  obtain ⟨h1, -, h3⟩ := hgen n (le_refl n)
  exact ⟨h1, h3⟩

/-- The quotient map of the renumbering phase: a state to the dense id of
its block representative. -/
def phiOf (dfa : DFA) (parts : List (List Nat)) (s : Nat) : Nat :=
  (minIdsOf dfa.states.length (stpOf dfa.states.length parts)).1.getD
    ((stpOf dfa.states.length parts).getD s 0) 0

/-- The number of representatives kept by the renumbering phase. -/
def cntOf (dfa : DFA) (parts : List (List Nat)) : Nat :=
  (minIdsOf dfa.states.length (stpOf dfa.states.length parts)).2

theorem rewritePhase_states (dfa : DFA) (parts : List (List Nat)) :
    (rewritePhase dfa parts).states =
      (statesOf dfa.states.length (stpOf dfa.states.length parts)
        (minIdsOf dfa.states.length (stpOf dfa.states.length parts)).1
        dfa.states).take (cntOf dfa parts) := rfl

theorem rewritePhase_start (dfa : DFA) (parts : List (List Nat)) :
    (rewritePhase dfa parts).start = dfa.start := rfl

/-- Representative-map facts under the partition invariant. -/
theorem stp_facts (dfa : DFA) (parts : List (List Nat))
    (hPI : PartInv dfa parts) :
    ∀ s, s < dfa.states.length →
      ∃ P ∈ parts, s ∈ P ∧
        (stpOf dfa.states.length parts).getD s 0 = P.headD 0 ∧
        (stpOf dfa.states.length parts).getD
          ((stpOf dfa.states.length parts).getD s 0) 0 =
          (stpOf dfa.states.length parts).getD s 0 ∧
        (stpOf dfa.states.length parts).getD s 0 ≤ s ∧
        (stpOf dfa.states.length parts).getD s 0 < dfa.states.length := by
  intro s hs
  obtain ⟨P, hP, hsP⟩ := List.mem_flatten.mp (hPI.cover s hs)
  have hspec := stpOf_spec dfa.states.length parts hPI.nodupF hPI.bound
  have hPne : P ≠ [] := hPI.nonempty P hP
  have h1 : (stpOf dfa.states.length parts).getD s 0 = P.headD 0 :=
    hspec.2 P hP s hsP
  refine ⟨P, hP, hsP, h1, ?_, ?_, ?_⟩
  · rw [h1]
    exact hspec.2 P hP (P.headD 0) (headD_mem hPne)
  · rw [h1]
    exact headD_le (hPI.sorted P hP) s hsP
  · rw [h1]
    exact hPI.bound (P.headD 0) (List.mem_flatten.mpr ⟨P, hP, headD_mem hPne⟩)

/-- Injectivity input for `statesOf_spec`: distinct representatives get
distinct dense ids. -/
theorem mi_inj (n : Nat) (stp : List Nat) :
    ∀ r r', r < n → r' < n → stp.getD r 0 = r → stp.getD r' 0 = r' →
      r ≠ r' →
      (minIdsOf n stp).1.getD r 0 ≠ (minIdsOf n stp).1.getD r' 0 := by
  intro r r' hr hr' hfr hfr' hne
  have hspec := minIdsOf_spec n stp
  rw [hspec.2.2 r hr hfr, hspec.2.2 r' hr' hfr']
  rcases Nat.lt_or_ge r r' with h | h
  · exact Nat.ne_of_lt (cntFix_strict stp h hfr)
  · have h2 : r' < r := by omega
    exact (Nat.ne_of_lt (cntFix_strict stp h2 hfr')).symm

/-- The simulation bundle for the renumbering phase: state count, match
flags, transitions and the start id all transport along `phiOf`. -/
theorem rewritePhase_sim (dfa : DFA) (parts : List (List Nat))
    (hPI : PartInv dfa parts) (hC : Congruence dfa parts)
    (htlen : ∀ i, i < dfa.states.length →
      (dfa.states.getD i DFAState.emptyS).transitions.length = ALPHABET_SIZE) :
    (rewritePhase dfa parts).states.length = cntOf dfa parts ∧
    cntOf dfa parts ≤ dfa.states.length ∧
    (∀ s, s < dfa.states.length →
      phiOf dfa parts s < cntOf dfa parts) ∧
    (∀ s, s < dfa.states.length →
      matchOf (rewritePhase dfa parts) (phiOf dfa parts s) = matchOf dfa s) ∧
    (∀ s b, s < dfa.states.length → b < ALPHABET_SIZE →
      transOf (rewritePhase dfa parts) (phiOf dfa parts s) b =
        phiOf dfa parts (transOf dfa s b)) := by
  have hmspec := minIdsOf_spec dfa.states.length
    (stpOf dfa.states.length parts)
  have hmile : ∀ r, r < dfa.states.length →
      (stpOf dfa.states.length parts).getD r 0 = r →
      (minIdsOf dfa.states.length (stpOf dfa.states.length parts)).1.getD
        r 0 ≤ r := by
    intro r hr hf
    rw [hmspec.2.2 r hr hf]
    exact cntFix_le _ r
  have hsost := statesOf_spec dfa.states.length
    (stpOf dfa.states.length parts)
    (minIdsOf dfa.states.length (stpOf dfa.states.length parts)).1
    dfa.states rfl hmile (mi_inj dfa.states.length _)
  have hcnt_le : cntOf dfa parts ≤ dfa.states.length := by
    have := cntFix_le (stpOf dfa.states.length parts) dfa.states.length
    unfold cntOf
    rw [hmspec.2.1]
    exact this
  have hphis : ∀ s, s < dfa.states.length →
      phiOf dfa parts s < cntOf dfa parts := by
    intro s hs
    obtain ⟨P, hP, hsP, h1, hfix, hle, hlt⟩ := stp_facts dfa parts hPI s hs
    unfold phiOf cntOf
    rw [hmspec.2.2 _ hlt hfix, hmspec.2.1]
    exact cntFix_strict _ hlt hfix
  -- the state stored at the image of s is the rewritten representative
  have hstate : ∀ s, s < dfa.states.length →
      (rewritePhase dfa parts).states[phiOf dfa parts s]? =
        some (DFAState.mk
          (dfa.states.getD ((stpOf dfa.states.length parts).getD s 0)
            DFAState.emptyS).isMatch
          ((dfa.states.getD ((stpOf dfa.states.length parts).getD s 0)
            DFAState.emptyS).transitions.map
            (fun nxt => phiOf dfa parts nxt))) := by
    intro s hs
    obtain ⟨P, hP, hsP, h1, hfix, hle, hlt⟩ := stp_facts dfa parts hPI s hs
    rw [rewritePhase_states,
      List.getElem?_take_of_lt (hphis s hs)]
    exact hsost.2 _ hlt hfix
  -- match flags agree across the quotient
  have hm : ∀ s, s < dfa.states.length →
      matchOf (rewritePhase dfa parts) (phiOf dfa parts s) = matchOf dfa s := by
    intro s hs
    obtain ⟨P, hP, hsP, h1, hfix, hle, hlt⟩ := stp_facts dfa parts hPI s hs
    unfold matchOf
    rw [List.getD_eq_getElem?_getD, hstate s hs]
    show (dfa.states.getD ((stpOf dfa.states.length parts).getD s 0)
      DFAState.emptyS).isMatch = (dfa.states.getD s DFAState.emptyS).isMatch
    have := hPI.muniform P hP ((stpOf dfa.states.length parts).getD s 0)
      (h1 ▸ headD_mem (hPI.nonempty P hP)) s hsP
    exact this
  refine ⟨?_, hcnt_le, hphis, hm, ?_⟩
  · rw [rewritePhase_states, List.length_take, hsost.1]
    unfold cntOf
    have := hcnt_le
    unfold cntOf at this
    omega
  · intro s b hs hb
    obtain ⟨P, hP, hsP, h1, hfix, hle, hlt⟩ := stp_facts dfa parts hPI s hs
    unfold transOf
    rw [List.getD_eq_getElem?_getD ((rewritePhase dfa parts).states),
      hstate s hs]
    show ((dfa.states.getD ((stpOf dfa.states.length parts).getD s 0)
        DFAState.emptyS).transitions.map
        (fun nxt => phiOf dfa parts nxt)).getD b DFA_DEAD =
      phiOf dfa parts (transOf dfa s b)
    have hblen : b < (dfa.states.getD
        ((stpOf dfa.states.length parts).getD s 0)
        DFAState.emptyS).transitions.length := by
      rw [htlen _ hlt]
      exact hb
    rw [List.getD_eq_getElem?_getD, List.getElem?_map,
      List.getElem?_eq_getElem hblen]
    show phiOf dfa parts ((dfa.states.getD
        ((stpOf dfa.states.length parts).getD s 0)
        DFAState.emptyS).transitions.get ⟨b, hblen⟩) =
      phiOf dfa parts (transOf dfa s b)
    have htb : transOf dfa ((stpOf dfa.states.length parts).getD s 0) b =
        (dfa.states.getD ((stpOf dfa.states.length parts).getD s 0)
          DFAState.emptyS).transitions.get ⟨b, hblen⟩ := by
      unfold transOf
      exact List.getD_eq_getElem _ _ hblen
    rw [← htb]
    -- successors of a state and of its representative share a block
    have hsb := hC P hP s hsP ((stpOf dfa.states.length parts).getD s 0)
      (h1 ▸ headD_mem (hPI.nonempty P hP)) b hb
    obtain ⟨Q, hQ, hq1, hq2⟩ := hsb
    have hspec := stpOf_spec dfa.states.length parts hPI.nodupF hPI.bound
    unfold phiOf
    rw [hspec.2 Q hQ _ hq2, hspec.2 Q hQ _ hq1]

/-- Walks transport along the quotient map. -/
theorem phi_walk (dfa : DFA) (parts : List (List Nat))
    (hPI : PartInv dfa parts) (hC : Congruence dfa parts)
    (htlen : ∀ i, i < dfa.states.length →
      (dfa.states.getD i DFAState.emptyS).transitions.length = ALPHABET_SIZE)
    (hw : ∀ i b, b < ALPHABET_SIZE → transOf dfa i b < dfa.states.length) :
    ∀ (bs : List Nat) (s : Nat), s < dfa.states.length →
      (∀ x ∈ bs, x < ALPHABET_SIZE) →
      walkFrom (rewritePhase dfa parts) (phiOf dfa parts s) bs =
        phiOf dfa parts (walkFrom dfa s bs) := by
  intro bs
  induction bs with
  | nil => intro s _ _; rfl
  | cons b rest ih =>
    intro s hs hb
    rw [walkFrom_cons, walkFrom_cons,
      (rewritePhase_sim dfa parts hPI hC htlen).2.2.2.2 s b hs (hb b (by simp))]
    exact ih (transOf dfa s b) (hw s b (hb b (by simp)))
      (fun x hx => hb x (by simp [hx]))

/-- Quotient ids agree exactly on same-block states. -/
theorem phi_sameBlock_iff (dfa : DFA) (parts : List (List Nat))
    (hPI : PartInv dfa parts) (s s' : Nat)
    (hs : s < dfa.states.length) (hs' : s' < dfa.states.length) :
    phiOf dfa parts s = phiOf dfa parts s' ↔ SameBlock parts s s' := by
  obtain ⟨P, hP, hsP, h1, hfix, hle, hlt⟩ := stp_facts dfa parts hPI s hs
  obtain ⟨P', hP', hsP', h1', hfix', hle', hlt'⟩ :=
    stp_facts dfa parts hPI s' hs'
  constructor
  · intro heq
    have hstp : (stpOf dfa.states.length parts).getD s 0 =
        (stpOf dfa.states.length parts).getD s' 0 := by
      by_contra hne
      exact mi_inj dfa.states.length (stpOf dfa.states.length parts)
        _ _ hlt hlt' hfix hfix' hne heq
    have hheads : P.headD 0 = P'.headD 0 := by
      rw [← h1, ← h1', hstp]
    have hPP : P = P' := unique_block hPI.nodupF hP hP'
      (headD_mem (hPI.nonempty P hP))
      (hheads ▸ headD_mem (hPI.nonempty P' hP'))
    exact ⟨P, hP, hsP, hPP ▸ hsP'⟩
  · intro ⟨Q, hQ, h2, h2'⟩
    have hspec := stpOf_spec dfa.states.length parts hPI.nodupF hPI.bound
    unfold phiOf
    rw [hspec.2 Q hQ _ h2, hspec.2 Q hQ _ h2']

/-- Every kept id holds the rewrite of one representative state. -/
theorem rewritePhase_state_surj (dfa : DFA) (parts : List (List Nat)) :
    ∀ m, m < cntOf dfa parts →
      ∃ r, r < dfa.states.length ∧ phiOf dfa parts r = m ∧
        (rewritePhase dfa parts).states[m]? =
          some (DFAState.mk (dfa.states.getD r DFAState.emptyS).isMatch
            ((dfa.states.getD r DFAState.emptyS).transitions.map
              (fun nxt => phiOf dfa parts nxt))) := by
  intro m hm
  have hmspec := minIdsOf_spec dfa.states.length
    (stpOf dfa.states.length parts)
  have hm' : m < cntFix (stpOf dfa.states.length parts)
      dfa.states.length := by
    unfold cntOf at hm
    rw [hmspec.2.1] at hm
    exact hm
  obtain ⟨r, hr, hfix, hcnt⟩ := cntFix_surj _ dfa.states.length m hm'
  have hmile : ∀ r, r < dfa.states.length →
      (stpOf dfa.states.length parts).getD r 0 = r →
      (minIdsOf dfa.states.length (stpOf dfa.states.length parts)).1.getD
        r 0 ≤ r := by
    intro r hr hf
    rw [hmspec.2.2 r hr hf]
    exact cntFix_le _ r
  have hsost := statesOf_spec dfa.states.length
    (stpOf dfa.states.length parts)
    (minIdsOf dfa.states.length (stpOf dfa.states.length parts)).1
    dfa.states rfl hmile (mi_inj dfa.states.length _)
  have hphir : phiOf dfa parts r = m := by
    unfold phiOf
    rw [hfix, hmspec.2.2 r hr hfix, hcnt]
  refine ⟨r, hr, hphir, ?_⟩
  rw [rewritePhase_states, List.getElem?_take_of_lt hm]
  have := hsost.2 r hr hfix
  rw [hmspec.2.2 r hr hfix, hcnt] at this
  exact this

/-- The renumbered automaton is shape well-formed. -/
theorem rewritePhase_wf (dfa : DFA) (parts : List (List Nat))
    (hPI : PartInv dfa parts) (hC : Congruence dfa parts)
    (htlen : ∀ i, i < dfa.states.length →
      (dfa.states.getD i DFAState.emptyS).transitions.length = ALPHABET_SIZE)
    (hw : ∀ i b, b < ALPHABET_SIZE → transOf dfa i b < dfa.states.length) :
    DFA.wf (rewritePhase dfa parts) := by
  intro st hst
  obtain ⟨m, hmlt, hmval⟩ := List.mem_iff_getElem.mp hst
  have hlen : (rewritePhase dfa parts).states.length = cntOf dfa parts :=
    (rewritePhase_sim dfa parts hPI hC htlen).1
  have hmc : m < cntOf dfa parts := by
    rw [← hlen]
    exact hmlt
  obtain ⟨r, hr, hphir, hstate⟩ := rewritePhase_state_surj dfa parts m hmc
  have hstval : st = DFAState.mk (dfa.states.getD r DFAState.emptyS).isMatch
      ((dfa.states.getD r DFAState.emptyS).transitions.map
        (fun nxt => phiOf dfa parts nxt)) := by
    have h2 : (rewritePhase dfa parts).states[m]? = some st :=
      List.getElem?_eq_some_iff.mpr ⟨hmlt, hmval⟩
    rw [h2] at hstate
    injection hstate
  subst hstval
  constructor
  · show ((dfa.states.getD r DFAState.emptyS).transitions.map
      (fun nxt => phiOf dfa parts nxt)).length = ALPHABET_SIZE
    rw [List.length_map]
    exact htlen r hr
  · intro t ht
    obtain ⟨nxt, hnxt, hval⟩ := List.mem_map.mp ht
    obtain ⟨b, hblt, hbval⟩ := List.mem_iff_getElem.mp hnxt
    have hb256 : b < ALPHABET_SIZE := by
      rw [htlen r hr] at hblt
      exact hblt
    have hnxtval : nxt = transOf dfa r b := by
      rw [← hbval]
      unfold transOf
      exact (List.getD_eq_getElem _ _ hblt).symm
    rw [← hval, hnxtval, hlen]
    exact (rewritePhase_sim dfa parts hPI hC htlen).2.2.1 _ (hw r b hb256)

/-! ### Language preservation and idempotence of minimization -/

/-- Out-of-range states read as the dead default, so transition bounds
extend to every source id once the table is non-empty. -/
theorem trans_bound_total (dfa : DFA) (hn : 0 < dfa.states.length)
    (htt : ∀ i b, i < dfa.states.length → b < ALPHABET_SIZE →
      transOf dfa i b < dfa.states.length) :
    ∀ i b, b < ALPHABET_SIZE → transOf dfa i b < dfa.states.length := by
  intro i b hb
  by_cases hi : i < dfa.states.length
  · exact htt i b hi hb
  · have hz : transOf dfa i b = 0 := by
      unfold transOf
      rw [List.getD_eq_default dfa.states DFAState.emptyS (by omega)]
      exact getD_replicate_zero ALPHABET_SIZE b
    rw [hz]
    exact hn

/-- Shape well-formedness in the indexed form used by the refinement
development. -/
theorem wf_bounds (dfa : DFA) (hwf : DFA.wf dfa)
    (hn : 0 < dfa.states.length) :
    (∀ i, i < dfa.states.length →
      (dfa.states.getD i DFAState.emptyS).transitions.length =
        ALPHABET_SIZE) ∧
    (∀ i b, b < ALPHABET_SIZE → transOf dfa i b < dfa.states.length) := by
  have hmem : ∀ i, i < dfa.states.length →
      dfa.states.getD i DFAState.emptyS ∈ dfa.states := by
    intro i hi
    rw [List.getD_eq_getElem _ _ hi]
    exact List.getElem_mem hi
  have htlen : ∀ i, i < dfa.states.length →
      (dfa.states.getD i DFAState.emptyS).transitions.length =
        ALPHABET_SIZE := by
    intro i hi
    exact (hwf _ (hmem i hi)).1
  refine ⟨htlen, trans_bound_total dfa hn ?_⟩
  intro i b hi hb
  have hblen : b < (dfa.states.getD i DFAState.emptyS).transitions.length := by
    rw [htlen i hi]
    exact hb
  have : transOf dfa i b ∈ (dfa.states.getD i DFAState.emptyS).transitions := by
    unfold transOf
    rw [List.getD_eq_getElem _ _ hblen]
    exact List.getElem_mem hblen
  exact (hwf _ (hmem i hi)).2 _ this

/-- Walks stay inside the state table. -/
theorem walk_bound (dfa : DFA)
    (hw : ∀ i b, b < ALPHABET_SIZE → transOf dfa i b < dfa.states.length) :
    ∀ (bs : List Nat) (s : Nat), s < dfa.states.length →
      (∀ x ∈ bs, x < ALPHABET_SIZE) →
      walkFrom dfa s bs < dfa.states.length := by
  intro bs
  induction bs with
  | nil => intro s hs _; exact hs
  | cons b rest ih =>
    intro s hs hb
    rw [walkFrom_cons]
    exact ih _ (hw s b (hb b (by simp))) (fun x hx => hb x (by simp [hx]))

theorem walkFrom_split (dfa : DFA) (s : Nat) (l1 l2 : List Nat) :
    walkFrom dfa s (l1 ++ l2) = walkFrom dfa (walkFrom dfa s l1) l2 := by
  unfold walkFrom
  rw [List.foldl_append]

theorem all_congr_mem {l : List Nat} {f g : Nat → Bool}
    (h : ∀ x ∈ l, f x = g x) : l.all f = l.all g := by
  induction l with
  | nil => rfl
  | cons a t ih =>
    rw [List.all_cons, List.all_cons, h a (by simp),
      ih (fun x hx => h x (by simp [hx]))]

theorem matchOf_zero_of_state0 (dfa : DFA)
    (h0 : dfa.states[0]? = some DFAState.emptyS) : matchOf dfa 0 = false := by
  unfold matchOf
  rw [List.getD_eq_getElem?_getD, h0]
  rfl

/-- The match-position list is preserved by the quotient simulation: the
positions scanned on the minimized automaton from the image of `s` agree
with those scanned on the original from `s`. -/
theorem matchPos_transfer (dfa : DFA) (parts : List (List Nat))
    (hPI : PartInv dfa parts) (hC : Congruence dfa parts)
    (htlen : ∀ i, i < dfa.states.length →
      (dfa.states.getD i DFAState.emptyS).transitions.length = ALPHABET_SIZE)
    (hw : ∀ i b, b < ALPHABET_SIZE → transOf dfa i b < dfa.states.length)
    (h0 : dfa.states[0]? = some DFAState.emptyS)
    (hphi0 : phiOf dfa parts 0 = 0)
    (s : Nat) (hs : s < dfa.states.length)
    (bs : List Nat) (hbs : ∀ x ∈ bs, x < ALPHABET_SIZE) :
    matchPosFrom (rewritePhase dfa parts) (phiOf dfa parts s) bs =
      matchPosFrom dfa s bs := by
  have hn0 : 0 < dfa.states.length := (List.getElem?_eq_some_iff.mp h0).1
  have hz : ∀ b, transOf dfa 0 b = 0 := transOf_zero_of_state0 dfa h0
  have hsim := rewritePhase_sim dfa parts hPI hC htlen
  unfold matchPosFrom
  apply List.filter_congr
  intro k hk
  obtain ⟨i, hik, hkv⟩ := List.mem_range'.mp hk
  have hk1 : 1 ≤ k ∧ k ≤ bs.length := by omega
  have htake : ∀ j, ∀ x ∈ bs.take j, x < ALPHABET_SIZE := by
    intro j x hx
    exact hbs x (List.take_subset j bs hx)
  have hwalkj : ∀ j, walkFrom (rewritePhase dfa parts) (phiOf dfa parts s)
      (bs.take j) = phiOf dfa parts (walkFrom dfa s (bs.take j)) := by
    intro j
    exact phi_walk dfa parts hPI hC htlen hw (bs.take j) s hs (htake j)
  have hwb : ∀ j, walkFrom dfa s (bs.take j) < dfa.states.length := by
    intro j
    exact walk_bound dfa hw (bs.take j) s hs (htake j)
  have hBmatch : matchOf (rewritePhase dfa parts)
      (walkFrom (rewritePhase dfa parts) (phiOf dfa parts s) (bs.take k)) =
      matchOf dfa (walkFrom dfa s (bs.take k)) := by
    rw [hwalkj k]
    exact hsim.2.2.2.1 _ (hwb k)
  cases hm : matchOf dfa (walkFrom dfa s (bs.take k)) with
  | false =>
    rw [hm] at hBmatch
    rw [hBmatch, Bool.and_false, Bool.and_false]
  | true =>
    rw [hm] at hBmatch
    rw [hBmatch, Bool.and_true, Bool.and_true]
    apply all_congr_mem
    intro j hj
    obtain ⟨i', hi'k, hjv⟩ := List.mem_range'.mp hj
    have hjk : j ≤ k := by omega
    rw [hwalkj j]
    by_cases hw0 : walkFrom dfa s (bs.take j) = 0
    · rw [hw0, hphi0]
    · have hfne : phiOf dfa parts (walkFrom dfa s (bs.take j)) ≠ 0 := by
        intro hphi
        -- the walked state would be dead-equivalent, killing the later match
        have hsb : SameBlock parts (walkFrom dfa s (bs.take j)) 0 := by
          rw [← hphi0] at hphi
          exact (phi_sameBlock_iff dfa parts hPI _ 0 (hwb j) hn0).mp hphi
        have hlang := congruence_lang dfa parts hPI hC
          ((bs.take k).drop j)
          (fun x hx => hbs x (List.take_subset k bs (List.drop_subset j _ hx)))
          _ _ hsb
        rw [walkFrom_zero dfa hz] at hlang
        have hsplit : walkFrom dfa s (bs.take k) =
            walkFrom dfa (walkFrom dfa s (bs.take j)) ((bs.take k).drop j) := by
          have e1 : bs.take j ++ (bs.take k).drop j = bs.take k := by
            conv =>
              rhs
              rw [← List.take_append_drop j (bs.take k)]
            rw [List.take_take, Nat.min_eq_left hjk]
          conv =>
            lhs
            rw [← e1]
          rw [walkFrom_split]
        rw [← hsplit, hm, matchOf_zero_of_state0 dfa h0] at hlang
        cases hlang
      rw [Bool.not_inj_iff]
      have h1 : (phiOf dfa parts (walkFrom dfa s (bs.take j)) == 0) = false :=
        beq_eq_false_iff_ne.mpr hfne
      have h2 : (walkFrom dfa s (bs.take j) == 0) = false :=
        beq_eq_false_iff_ne.mpr hw0
      rw [h1, h2]

/-- In a built DFA whose dead and start states are distinguishable, the
renumbering fixes ids 0 and 1. -/
theorem start_phi_one (dfa : DFA) (parts : List (List Nat))
    (hPI : PartInv dfa parts)
    (hn2 : 2 ≤ dfa.states.length)
    (hnsb : ¬SameBlock parts 0 1) :
    phiOf dfa parts 0 = 0 ∧ phiOf dfa parts 1 = 1 := by
  have hmspec := minIdsOf_spec dfa.states.length
    (stpOf dfa.states.length parts)
  obtain ⟨P0, hP0, h0P, h0head, h0fix, h0le, h0lt⟩ :=
    stp_facts dfa parts hPI 0 (by omega)
  have hstp0 : (stpOf dfa.states.length parts).getD 0 0 = 0 := by omega
  obtain ⟨P1, hP1, h1P, h1head, h1fix, h1le, h1lt⟩ :=
    stp_facts dfa parts hPI 1 (by omega)
  have hstp1 : (stpOf dfa.states.length parts).getD 1 0 = 1 := by
    rcases Nat.lt_or_ge ((stpOf dfa.states.length parts).getD 1 0) 1 with h | h
    · exfalso
      have hz : (stpOf dfa.states.length parts).getD 1 0 = 0 := by omega
      have hhead0 : P1.headD 0 = 0 := by rw [← h1head]; exact hz
      exact hnsb ⟨P1, hP1, hhead0 ▸ headD_mem (hPI.nonempty P1 hP1), h1P⟩
    · omega
  constructor
  · unfold phiOf
    rw [hstp0, hmspec.2.2 0 (by omega) hstp0]
    rfl
  · unfold phiOf
    rw [hstp1, hmspec.2.2 1 (by omega) hstp1, cntFix_succ, if_pos hstp0]
    rfl

/-- C1.  For every DFA built from an NFA by subset construction that
contains at least one matching state, and for every byte string, running
the matcher `DFA::find` on the minimized DFA returns the same result as
running it on the original DFA: minimization preserves the recognized
language exactly. -/
theorem minimization_preserves_find (nfa : NFA) (fuel fuel2 : Nat)
    (st : Builder) (dmin : DFA)
    (hb : buildFull nfa fuel = some st)
    (hm : ∃ s ∈ st.dfa.states, s.isMatch = true)
    (hmin : minimize st.dfa fuel2 = some dmin)
    (bs : List Nat) (hbs : ∀ x ∈ bs, x < ALPHABET_SIZE) :
    DFA.find dmin bs = DFA.find st.dfa bs := by
  have inv := buildFull_inv nfa fuel hb
  have hn2 := inv.two_le
  have h0 := inv.state0
  have htlen := inv.tlen
  have hw := trans_bound_total st.dfa (by omega) inv.ttarget
  obtain ⟨final, hdmin, hPI, hC⟩ := minimize_final st.dfa hw fuel2 dmin hmin
  obtain ⟨mst, hmmem, hmatch⟩ := hm
  obtain ⟨i, hi, hival⟩ := List.mem_iff_getElem.mp hmmem
  have hmi : matchOf st.dfa i = true := by
    unfold matchOf
    rw [List.getD_eq_getElem _ _ hi, hival]
    exact hmatch
  have hm0 : matchOf st.dfa 0 = false := matchOf_zero_of_state0 st.dfa h0
  have hine : 0 < i := by
    rcases Nat.eq_zero_or_pos i with h | h
    · rw [h] at hmi
      rw [hmi] at hm0
      cases hm0
    · exact h
  have hreach := inv.reach i hine hi
  rw [inv.start1] at hreach
  obtain ⟨bsr, hbsr, hwalkr⟩ := hreach
  have hnsb : ¬SameBlock final 0 1 := by
    intro hsb
    have hcl := congruence_lang st.dfa final hPI hC bsr hbsr 0 1 hsb
    rw [walkFrom_zero st.dfa (transOf_zero_of_state0 st.dfa h0),
      hwalkr, hm0, hmi] at hcl
    cases hcl
  obtain ⟨hphi0, hphi1⟩ := start_phi_one st.dfa final hPI hn2 hnsb
  subst hdmin
  unfold DFA.find
  rw [findGo_eq_matchPos, findGo_eq_matchPos,
    rewritePhase_start, inv.start1]
  have htrans := matchPos_transfer st.dfa final hPI hC htlen hw h0 hphi0
    1 (by omega) bs hbs
  rw [hphi1] at htrans
  rw [htrans]

theorem rewritePhase_length_le (dfa : DFA) (parts : List (List Nat)) :
    (rewritePhase dfa parts).states.length ≤ dfa.states.length := by
  rw [rewritePhase_states, List.length_take]
  have := statesOf_length dfa.states.length (stpOf dfa.states.length parts)
    (minIdsOf dfa.states.length (stpOf dfa.states.length parts)).1 dfa.states
  omega

/-- The truncation never grows the state table. -/
theorem minimize_length_le (dfa : DFA) (fuel : Nat) (dmin : DFA)
    (h : minimize dfa fuel = some dmin) :
    dmin.states.length ≤ dfa.states.length := by
  rw [minimize_eq] at h
  cases hip : initialPartitions dfa with
  | none => rw [hip] at h; cases h
  | some parts =>
    rw [hip] at h
    simp only [Option.bind_eq_bind, Option.some_bind] at h
    cases hml : minLoop (inTransitions dfa) fuel parts [parts.headD []] with
    | none => rw [hml] at h; cases h
    | some final =>
      rw [hml] at h
      simp only [Option.map_some'] at h
      injection h with h
      rw [← h]
      exact rewritePhase_length_le dfa final

/-- A successful minimization presupposes a non-empty state table. -/
theorem minimize_some_pos (dfa : DFA) (fuel : Nat) (dmin : DFA)
    (h : minimize dfa fuel = some dmin) : 0 < dfa.states.length := by
  rw [minimize_eq] at h
  cases hip : initialPartitions dfa with
  | none => rw [hip] at h; cases h
  | some parts =>
    by_contra hn
    have hn0 : dfa.states.length = 0 := by omega
    unfold initialPartitions at hip
    rw [hn0] at hip
    simp at hip

/-- Distinct states of a minimized automaton are pairwise behaviorally
distinguishable. -/
theorem rewritePhase_pairwise_distinguish (dfa : DFA)
    (parts : List (List Nat))
    (hPI : PartInv dfa parts) (hC : Congruence dfa parts)
    (htlen : ∀ i, i < dfa.states.length →
      (dfa.states.getD i DFAState.emptyS).transitions.length = ALPHABET_SIZE)
    (hw : ∀ i b, b < ALPHABET_SIZE → transOf dfa i b < dfa.states.length) :
    ∀ m m', m < (rewritePhase dfa parts).states.length →
      m' < (rewritePhase dfa parts).states.length → m ≠ m' →
      Distinguish (rewritePhase dfa parts) m m' := by
  intro m m' hm hm' hne
  have hlen := (rewritePhase_sim dfa parts hPI hC htlen).1
  rw [hlen] at hm hm'
  obtain ⟨r, hr, hphir, -⟩ := rewritePhase_state_surj dfa parts m hm
  obtain ⟨r', hr', hphir', -⟩ := rewritePhase_state_surj dfa parts m' hm'
  have hnsb : ¬SameBlock parts r r' := by
    intro hsb
    have := (phi_sameBlock_iff dfa parts hPI r r' hr hr').mpr hsb
    rw [hphir, hphir'] at this
    exact hne this
  obtain ⟨ds, hds, hdne⟩ := hPI.sound r r' hr hr' hnsb
  refine ⟨ds, hds, ?_⟩
  rw [← hphir, ← hphir',
    phi_walk dfa parts hPI hC htlen hw ds r hr hds,
    phi_walk dfa parts hPI hC htlen hw ds r' hr' hds,
    (rewritePhase_sim dfa parts hPI hC htlen).2.2.2.1 _
      (walk_bound dfa hw ds r hr hds),
    (rewritePhase_sim dfa parts hPI hC htlen).2.2.2.1 _
      (walk_bound dfa hw ds r' hr' hds)]
  exact hdne

theorem cntFix_all (stp : List Nat) :
    ∀ k, (∀ r, r < k → stp.getD r 0 = r) → cntFix stp k = k := by
  intro k
  induction k with
  | zero => intro _; rfl
  | succ m ih =>
    intro h
    rw [cntFix_succ, if_pos (h m (by omega)), ih (fun r hr => h r (by omega))]

/-- C9.  Minimization is idempotent on state count: re-minimizing the
output of the minimizer does not change its number of states, and for
every input DFA the minimized state count never exceeds the original
count. -/
theorem minimization_idempotent_and_bounded :
    (∀ (dfa : DFA) (fuel : Nat) (dmin : DFA),
      minimize dfa fuel = some dmin →
      dmin.states.length ≤ dfa.states.length) ∧
    (∀ (dfa : DFA) (fuel1 fuel2 : Nat) (dmin dmin2 : DFA), DFA.wf dfa →
      minimize dfa fuel1 = some dmin →
      minimize dmin fuel2 = some dmin2 →
      dmin2.states.length = dmin.states.length) := by
  constructor
  · exact minimize_length_le
  · intro dfa fuel1 fuel2 dmin dmin2 hwf h1 h2
    have hpos1 : 0 < dfa.states.length := minimize_some_pos dfa fuel1 dmin h1
    obtain ⟨htlen1, hw1⟩ := wf_bounds dfa hwf hpos1
    obtain ⟨final1, hd1, hPI1, hC1⟩ := minimize_final dfa hw1 fuel1 dmin h1
    have hwfd : DFA.wf dmin := by
      rw [hd1]
      exact rewritePhase_wf dfa final1 hPI1 hC1 htlen1 hw1
    have hpos2 : 0 < dmin.states.length :=
      minimize_some_pos dmin fuel2 dmin2 h2
    obtain ⟨htlen2, hw2⟩ := wf_bounds dmin hwfd hpos2
    obtain ⟨final2, hd2, hPI2, hC2⟩ := minimize_final dmin hw2 fuel2 dmin2 h2
    have hdist : ∀ m m', m < dmin.states.length → m' < dmin.states.length →
        m ≠ m' → Distinguish dmin m m' := by
      intro m m' hm hm' hne
      rw [hd1] at hm hm' ⊢
      exact rewritePhase_pairwise_distinguish dfa final1 hPI1 hC1 htlen1 hw1
        m m' hm hm' hne
    have hsing : ∀ P ∈ final2, ∀ u ∈ P, ∀ v ∈ P, u = v := by
      intro P hP u hu v hv
      by_contra hne
      have hun : u < dmin.states.length :=
        hPI2.bound u (List.mem_flatten.mpr ⟨P, hP, hu⟩)
      have hvn : v < dmin.states.length :=
        hPI2.bound v (List.mem_flatten.mpr ⟨P, hP, hv⟩)
      obtain ⟨ds, hds, hdne⟩ := hdist u v hun hvn hne
      exact hdne (congruence_lang dmin final2 hPI2 hC2 ds hds u v
        ⟨P, hP, hu, hv⟩)
    have hallfix : ∀ r, r < dmin.states.length →
        (stpOf dmin.states.length final2).getD r 0 = r := by
      intro r hr
      obtain ⟨P, hP, hrP, hhead, -, -, -⟩ := stp_facts dmin final2 hPI2 r hr
      rw [hhead]
      exact hsing P hP _ (headD_mem (hPI2.nonempty P hP)) r hrP
    have hcnt : cntOf dmin final2 = dmin.states.length := by
      unfold cntOf
      rw [(minIdsOf_spec dmin.states.length
        (stpOf dmin.states.length final2)).2.1]
      exact cntFix_all _ _ hallfix
    rw [hd2, (rewritePhase_sim dmin final2 hPI2 hC2 htlen2).1, hcnt]

theorem minimization_preserves_find_witness :
    buildFull nfaLitA 50 = some bLitA ∧
    (∃ s ∈ bLitA.dfa.states, s.isMatch = true) ∧
    minimize bLitA.dfa 10 = some bLitA.dfa ∧
    (∀ x ∈ ([97] : List Nat), x < ALPHABET_SIZE) ∧
    DFA.find bLitA.dfa [97] = DFA.find bLitA.dfa [97] :=
  ⟨by decide!, by decide!, by decide!, by decide,
   minimization_preserves_find nfaLitA 50 10 bLitA bLitA.dfa
     (by decide!) (by decide!) (by decide!) [97] (by decide)⟩

theorem minimization_idempotent_and_bounded_witness :
    (minimize bLitA.dfa 10 = some bLitA.dfa ∧
      bLitA.dfa.states.length ≤ bLitA.dfa.states.length) ∧
    (DFA.wf bLitA.dfa ∧
      bLitA.dfa.states.length = bLitA.dfa.states.length) :=
  ⟨⟨by decide!,
    minimization_idempotent_and_bounded.1 bLitA.dfa 10 bLitA.dfa
      (by decide!)⟩,
   ⟨by unfold DFA.wf; decide!,
    minimization_idempotent_and_bounded.2 bLitA.dfa 10 10 bLitA.dfa
      bLitA.dfa (by unfold DFA.wf; decide!) (by decide!) (by decide!)⟩⟩
/-! ### Concrete evaluations (heavy kernel computations, kept last) -/

theorem fromHir_hirAltAZZ :
    fromHir (fun _ _ => []) hirAltAZZ = .ok nfaAltAZZ := by
  simp [fromHir, hirAltAZZ, nfaAltAZZ, compile, compileAltList, compileAltGo,
    compileConcatList, compileConcatGo, finishAlternation, concatRanges,
    utf8Encode, compileRange, addRange, addEmpty, addUnion, addMatch, patch,
    Bind.bind, Except.bind]

theorem fromHir_hirLitA :
    fromHir (fun _ _ => []) hirLitA = .ok nfaLitA := by
  simp [fromHir, hirLitA, nfaLitA, compile, concatRanges, utf8Encode,
    compileRange, addRange, addEmpty, addMatch, patch, Bind.bind, Except.bind]

theorem dfaOfPattern_hirAltAZZ :
    dfaOfPattern hirAltAZZ 50 = DFA.fromNFA nfaAltAZZ 50 := by
  unfold dfaOfPattern
  rw [fromHir_hirAltAZZ]

theorem dfaOfPattern_hirLitA :
    dfaOfPattern hirLitA 50 = DFA.fromNFA nfaLitA 50 := by
  unfold dfaOfPattern
  rw [fromHir_hirLitA]

/-- C2.  `DFA::find` walks the bytes left to right from the start state and
returns the most recent (hence largest) position whose state is matching,
never looking past the first entry into the dead state; `none` when no
matching state was entered.  On the DFA of `a|zz|z`, input `zz` matches with
end offset 2 (longest match, not alternation order); on the DFA of `a`,
input `a` gives offset 1 and input `b` no match. -/
theorem find_most_recent_match_and_longest_alternation :
    (∀ (dfa : DFA) (bs : List Nat),
      dfa.find bs = (matchPosFrom dfa dfa.start bs).getLast?) ∧
    (dfaOfPattern hirAltAZZ 50).map (fun d => d.find [122, 122])
      = some (some 2) ∧
    (dfaOfPattern hirLitA 50).map (fun d => (d.find [97], d.find [98]))
      = some (some 1, none) := by
  refine ⟨fun dfa bs => ?_,
    by rw [dfaOfPattern_hirAltAZZ]; decide!,
    by rw [dfaOfPattern_hirLitA]; decide!⟩
  show findGo dfa bs dfa.start 0 none = _
  rw [findGo_eq_matchPos]
  cases h : (matchPosFrom dfa dfa.start bs).getLast? with
  | some k => simp
  | none => rfl

/-- Witness for `find_offset_positive_and_bounded` at the DFA of pattern
`a` on input `a`. -/
theorem find_offset_positive_and_bounded_witness :
    1 ≤ 1 ∧ 1 ≤ [97].length :=
  find_offset_positive_and_bounded
    ((DFA.fromNFA nfaLitA 50).getD DFA.emptyD) [97] 1 (by decide!)

theorem fromHir_hirABstar :
    fromHir (fun _ _ => []) hirABstar = .ok nfaABstar := by
  simp [fromHir, hirABstar, nfaABstar, compile, compileConcatList,
    compileConcatGo, compileAtLeast, concatRanges, utf8Encode, compileRange,
    addRange, addEmpty, addUnion, addMatch, patch, Bind.bind, Except.bind]

/-- Counterexample to C8 as stated: on the DFA of `a*b*` (three states: the
dead state and two matching states) the initial partition, sorted
smallest-first, puts the non-matching block `[0]` first, and the worklist is
seeded with it — not with the matching block `[1, 2]`. -/
theorem worklist_seed_not_matching_block_counterexample :
    fromHir (fun _ _ => []) hirABstar = .ok nfaABstar ∧
    (DFA.fromNFA nfaABstar 50).bind initialPartitions = some [[0], [1, 2]] ∧
    (DFA.fromNFA nfaABstar 50).map
      (fun d => (List.range d.states.length).filter (fun i => matchOf d i))
      = some [1, 2] ∧
    ([[0], [1, 2]].headD [] : List Nat) ≠ [1, 2] :=
  ⟨fromHir_hirABstar, by decide!, by decide!, by decide⟩

/-- Counterexample to C3 as stated: feeding the subset construction the NFA
`nfaC3` (a well-formed NFA over `Range`/`Union`/`Match` states) produces two
distinct live builder states, ids 2 and 3, whose subsets `[6, 7]` and
`[7, 6]` are equal as canonical (sorted, deduplicated) sets with the same
`Match` reachability — the cache keys on the traversal-ordered sequence, so
they are not deduplicated.  Both are reachable from the start state 1. -/
theorem identical_canonical_subsets_distinct_states_counterexample :
    (buildFull nfaC3 50).map (fun st =>
        (st.builderStates.map (fun b => (b.isMatch, b.nfaStates)),
         transOf st.dfa 1 112, transOf st.dfa 1 113))
      = some ([(false, []), (false, [1, 4, 5]), (false, [6, 7]),
               (false, [7, 6]), (true, [])], 2, 3) ∧
    canonicalizeL [6, 7] = canonicalizeL [7, 6] :=
  ⟨by decide!, by decide⟩

/-- Counterexample to C6 as stated: the AST of `(?:^){0}` — an anchor under
a repetition of exactly zero iterations — contains an anchor, yet
compilation succeeds and returns an NFA (the body is never compiled). -/
theorem anchor_under_zero_repetition_compiles_counterexample :
    hasAnchorOrWB (.rep (.exactly 0) true .anchor) = true ∧
    ∀ useq, fromHir useq (.rep (.exactly 0) true .anchor)
      = .ok [.emptyS 1, .emptyS 2, .matchS] := by
  refine ⟨by simp [hasAnchorOrWB], fun useq => ?_⟩
  simp [fromHir, compile, compileExactly, compileEmpty, addEmpty, addMatch,
    patch, Bind.bind, Except.bind]

end UCD
